import Mathlib

/-!
# Viterbi decoder bookkeeping (`lab4_vit.H`)

A shallow embedding of the two containers declared in `lab4_vit.H`:

* `WordTree`  : the backtrace word tree (`m_nodeArray`, `m_nodeHash`);
* `FrameData` : the active cells of one frame of the dynamic-programming
  chart (`m_activeStates`, `m_cellArray`, `m_stateMap`, `m_heapSize`).

Conventions of the embedding.

* `unsigned` is a `Nat` below `2^32`, `int` an `Int` in `[-2^31, 2^31)`;
  conversions between the two are written out (`toInt32`, `toUInt32`).
* `std::vector` is a `List`; indexing outside the vector is undefined
  behaviour in C++ and is reported as a fault.
* `std::map` is an association list without regard to order (the code never
  iterates over the map).
* the `std::make_heap / push_heap / pop_heap` algorithms are library code:
  the methods of `FrameData` take them as a parameter (`HeapAlgo`), and the
  properties are proved for every choice that does what the C++ standard
  promises (`HeapAlgo.Conforms`); the binary heap (`binaryHeapAlgo`) is one.
* floating point is kept abstract (`FloatModel`); what depends on the
  conversion `double → float` is proved for every conversion that is exact on
  the values of `float` (`FloatModel.Exact`), and IEEE 754 with rounding to
  nearest (`ieeeModel`, on bit patterns) is one.
-/

namespace Lab4Vit

/-! ## Machine integers -/

/-- Conversion of a value to `int` (two's complement, 32 bits). -/
def toInt32 (u : Nat) : Int :=
  if u % 2 ^ 32 < 2 ^ 31 then ((u % 2 ^ 32 : Nat) : Int)
  else ((u % 2 ^ 32 : Nat) : Int) - 2 ^ 32

/-- Conversion of an `int` to `unsigned` (reduction modulo `2^32`). -/
def toUInt32 (i : Int) : Nat := (i % 2 ^ 32).toNat

/-- The value `(unsigned)-1`. -/
def unsignedMinusOne : Nat := toUInt32 (-1)

/-- Ways in which a call can fail to return a value. -/
inductive Fault where
  /-- An `assert` of the source does not hold. -/
  | assertion
  /-- Undefined behaviour: a vector indexed outside its bounds, or an `int`
  incremented past its range. -/
  | undefined
  deriving DecidableEq, Repr

/-! ## `std::map` as an association list -/

/-- The lookup `m.find(key)`: the value stored under `key`, if any. -/
def mapFind {κ ν : Type} [DecidableEq κ] : List (κ × ν) → κ → Option ν
  | [], _ => none
  | (k, v) :: rest, key => if k = key then some v else mapFind rest key

/-- The assignment `m[key] = v`: overwrite the entry of `key` when there is
one, add an entry otherwise. -/
def mapAssign {κ ν : Type} [DecidableEq κ] : List (κ × ν) → κ → ν → List (κ × ν)
  | [], key, v => [(key, v)]
  | (k, w) :: rest, key, v =>
    if k = key then (k, v) :: rest else (k, w) :: mapAssign rest key v

/-! ## `WordTree` -/

/-- The type `Node` of the source: `pair<int, unsigned>`, the parent index
(stored as `int`) and the word labelling the arc from the parent. -/
abbrev Node := Int × Nat

/-- The class `WordTree`. -/
structure WordTree where
  /-- Array of nodes in tree. -/
  m_nodeArray : List Node
  /-- Hash table, for fast node lookup. -/
  m_nodeHash : List (Node × Nat)
  deriving DecidableEq, Repr

namespace WordTree

/-- The call `size()`: the number of nodes, returned as `unsigned`. -/
def size (t : WordTree) : Nat := t.m_nodeArray.length % 2 ^ 32

/-- The call `get_root_node()`. -/
def get_root_node (_t : WordTree) : Nat := 0

/-- The call `insert_node(parentIdx, lastWord)`: the tree after the call and
the index returned. -/
def insert_node (t : WordTree) (parentIdx lastWord : Nat) : WordTree × Nat :=
  let key : Node := (toInt32 parentIdx, lastWord)
  match mapFind t.m_nodeHash key with
  | some idx => (t, idx)
  | none =>
    let arr := t.m_nodeArray ++ [key]
    let nodeIdx := (arr.length - 1) % 2 ^ 32
    (⟨arr, mapAssign t.m_nodeHash key nodeIdx⟩, nodeIdx)

/-- The call `clear()`; the tree it is called on is discarded. -/
def clear (_t : WordTree) : WordTree :=
  (insert_node ⟨[], []⟩ unsignedMinusOne unsignedMinusOne).1

/-- The constructor `WordTree()`, which calls `clear()` on the empty object. -/
def ctor : WordTree := clear ⟨[], []⟩

/-- The call `get_parent_node(nodeIdx)`. -/
def get_parent_node (t : WordTree) (nodeIdx : Nat) : Except Fault Nat :=
  match t.m_nodeArray[nodeIdx]? with
  | some nd => .ok (toUInt32 nd.1)
  | none => .error .undefined

/-- The call `get_last_word(nodeIdx)`. -/
def get_last_word (t : WordTree) (nodeIdx : Nat) : Except Fault Nat :=
  match t.m_nodeArray[nodeIdx]? with
  | some nd => .ok nd.2
  | none => .error .undefined

/-- Trees obtained from `clear()` by `insert_node` calls (the arguments are
`unsigned` values). -/
inductive Reachable : WordTree → Prop where
  | clear (t0 : WordTree) : Reachable (clear t0)
  | insert (t : WordTree) (p w : Nat) :
      Reachable t → p < 2 ^ 32 → w < 2 ^ 32 → Reachable (insert_node t p w).1

/-- Trees obtained from `clear()` by `insert_node` calls whose parent argument
is the index of an existing node. -/
inductive ReachableP : WordTree → Prop where
  | clear (t0 : WordTree) : ReachableP (clear t0)
  | insert (t : WordTree) (p w : Nat) :
      ReachableP t → p < t.size → w < 2 ^ 32 → ReachableP (insert_node t p w).1

/-- Extending node `n` by the words of `ws`, one `insert_node` call per word:
the tree afterwards and the node reached. -/
def extend (t : WordTree) (n : Nat) : List Nat → WordTree × Nat
  | [] => (t, n)
  | w :: ws => extend (insert_node t n w).1 (insert_node t n w).2 ws

/-- `Extends t t1`: the tree `t1` is obtained from `t` by `insert_node` calls
whose parent argument is the index of an existing node. -/
inductive Extends : WordTree → WordTree → Prop where
  | refl (t : WordTree) : Extends t t
  | insert (t t1 : WordTree) (p w : Nat) :
      Extends t t1 → p < t1.size → w < 2 ^ 32 → Extends t (insert_node t1 p w).1

/-- Modelled from the spec: the walk of the Backtracer (its code,
`viterbi_backtrace_word_tree`, is only declared in this header).  Starting at
node `n`, follow `get_parent_node` until the root is reached, collecting
`get_last_word` at each non-root node.  The words come out last word first;
`fuel` bounds the number of steps, and `none` means that the root was not
reached within `fuel` steps or that a node index was out of range. -/
def backtraceWalk (t : WordTree) : Nat → Nat → Option (List Nat)
  | 0, n => if n = t.get_root_node then some [] else none
  | fuel + 1, n =>
    if n = t.get_root_node then some []
    else
      match t.get_last_word n, t.get_parent_node n with
      | .ok w, .ok p => (backtraceWalk t fuel p).map (fun ws => w :: ws)
      | _, _ => none

/-- `Path t n ws`: node `n` of `t` is joined to the root by non-root nodes
whose words, read from `n` towards the root, are `ws`. -/
inductive Path (t : WordTree) : Nat → List Nat → Prop where
  | root : Path t 0 []
  | step (p n w : Nat) (ws : List Nat) :
      Path t p ws → n ≠ 0 → p < 2 ^ 32 → t.m_nodeArray[n]? = some (toInt32 p, w) →
      Path t n (w :: ws)

/-- What `m_nodeArray` and `m_nodeHash` have to do with each other. -/
structure Inv (t : WordTree) : Prop where
  find_iff : ∀ key i, mapFind t.m_nodeHash key = some i ↔ t.m_nodeArray[i]? = some key
  keys_nodup : (t.m_nodeHash.map Prod.fst).Nodup
  len_eq : t.m_nodeHash.length = t.m_nodeArray.length
  int_range : ∀ nd ∈ t.m_nodeArray, toInt32 (toUInt32 nd.1) = nd.1
  root : t.m_nodeArray[0]? = some (-1, 2 ^ 32 - 1)

end WordTree

/-! ## Floating point and `FrameCell` -/

/-- The two floating-point types of the source with the conversions the code
performs between them, and the constant `g_zeroLogProb` (declared in
`util.H`).  Nothing is assumed about them. -/
structure FloatModel where
  /-- The type `double`. -/
  Dbl : Type
  /-- The type `float`. -/
  Flt : Type
  /-- Conversion `double → float` (the assignment `m_logProb = logProb`). -/
  toFloat : Dbl → Flt
  /-- Conversion `float → double` (the `return m_logProb` of `get_log_prob`). -/
  toDouble : Flt → Dbl
  /-- The log prob standing for probability zero. -/
  g_zeroLogProb : Dbl

/-- What the C++ standard promises of the conversion `double → float`: a
value that can be represented exactly as a `float` is converted to that
`float`.  So the `double` of a `float` is converted to a `float` that has
this `double` again. -/
def FloatModel.Exact (F : FloatModel) : Prop :=
  ∀ x : F.Flt, F.toDouble (F.toFloat (F.toDouble x)) = F.toDouble x

/-- The `double` is representable as a `float`: it is the `double` of some
`float`. -/
def FloatModel.Representable (F : FloatModel) (d : F.Dbl) : Prop :=
  ∃ x : F.Flt, F.toDouble x = d

/-- The class `FrameCell`. -/
structure FrameCell (F : FloatModel) where
  /-- Forward Viterbi logprob. -/
  m_logProb : F.Flt
  /-- Holds node index in WordTree for best incoming word sequence. -/
  m_nodeIdx : Nat

namespace FrameCell

/-- The constructor `FrameCell()`. -/
def ctor (F : FloatModel) : FrameCell F := ⟨F.toFloat F.g_zeroLogProb, 0⟩

/-- The call `assign(logProb, nodeIdx)`. -/
def assign {F : FloatModel} (_c : FrameCell F) (logProb : F.Dbl) (nodeIdx : Nat) :
    FrameCell F :=
  ⟨F.toFloat logProb, nodeIdx⟩

/-- The call `get_log_prob()`. -/
def get_log_prob {F : FloatModel} (c : FrameCell F) : F.Dbl := F.toDouble c.m_logProb

/-- The call `get_node_index()`. -/
def get_node_index {F : FloatModel} (c : FrameCell F) : Nat := c.m_nodeIdx

end FrameCell

/-! ### IEEE 754 bit patterns

The formats of `float` and `double` on the machines the decoder runs on:
binary32 and binary64, identified here with their bit patterns. -/

/-- The conversion `float → double` on bit patterns: the binary64 pattern of
the value of the binary32 pattern `x`.  The conversion is exact: sign, and
either infinity or NaN (which comes out quiet), zero, a subnormal `float`
(a normal `double`, the leading bit of the fraction becoming implicit), or a
normal number (exponent rebiased, fraction extended by 29 zero bits). -/
def widenBits (x : Nat) : Nat :=
  let sign := (x / 2 ^ 31) % 2
  let e := (x / 2 ^ 23) % 2 ^ 8
  let f := x % 2 ^ 23
  if e = 255 then
    if f = 0 then sign * 2 ^ 63 + 2047 * 2 ^ 52
    else sign * 2 ^ 63 + 2047 * 2 ^ 52 + (f % 2 ^ 22 + 2 ^ 22) * 2 ^ 29
  else if e = 0 then
    if f = 0 then sign * 2 ^ 63
    else sign * 2 ^ 63 + (Nat.log2 f + 874) * 2 ^ 52 + (f - 2 ^ Nat.log2 f) * 2 ^ (52 - Nat.log2 f)
  else sign * 2 ^ 63 + (e + 896) * 2 ^ 52 + f * 2 ^ 29

/-- The floating-point model of IEEE 754 bit patterns, for any conversion
`double → float` (the C++ standard leaves the choice between the two nearest
values to the implementation) and any value of `g_zeroLogProb`. -/
def ieeeFloats (narrow : Nat → Nat) (zeroLogProb : Nat) : FloatModel :=
  ⟨Nat, Nat, narrow, widenBits, zeroLogProb⟩

/-- The `double` nearest to 0.1, `0x3FB999999999999A`. -/
def doublePointOne : Nat := 0x3FB999999999999A

/-- The quotient `m / 2 ^ shift` rounded to the nearest natural number, a tie
going to the even one. -/
def roundShift (m shift : Nat) : Nat :=
  let q := m / 2 ^ shift
  let r := m % 2 ^ shift
  if 2 ^ shift < 2 * r ∨ (2 * r = 2 ^ shift ∧ q % 2 = 1) then q + 1 else q

/-- The conversion `double → float` on bit patterns in the default rounding
mode of IEEE 754, round to nearest with ties to even: the binary32 pattern
nearest to the value of the binary64 pattern `d`.  Infinity stays infinity; a
NaN keeps its sign and the leading bits of its payload and comes out quiet; a
subnormal `double` is far below the least `float` and becomes zero; a number
from the least normal `float` on is rounded to 24 significant bits, the carry
of the rounding running into the exponent and a result beyond the largest
`float` becoming infinity; a number below the least normal `float` is rounded
to a multiple of the least subnormal `float`. -/
def narrowBits (d : Nat) : Nat :=
  let sign := (d / 2 ^ 63) % 2
  let e := (d / 2 ^ 52) % 2 ^ 11
  let f := d % 2 ^ 52
  if e = 2047 then
    if f = 0 then sign * 2 ^ 31 + 255 * 2 ^ 23
    else sign * 2 ^ 31 + 255 * 2 ^ 23 + 2 ^ 22 + (f / 2 ^ 29) % 2 ^ 22
  else if e = 0 then sign * 2 ^ 31
  else if 897 ≤ e then
    sign * 2 ^ 31 + min ((e - 897) * 2 ^ 23 + roundShift (2 ^ 52 + f) 29) (255 * 2 ^ 23)
  else sign * 2 ^ 31 + roundShift (2 ^ 52 + f) (926 - e)

/-- The `double` nearest to -1e30, `0xC6293E5939A08CEA`. -/
def doubleMinus1e30 : Nat := 0xC6293E5939A08CEA

/-- The `double` 1.0, `0x3FF0000000000000`. -/
def doubleOne : Nat := 0x3FF0000000000000

/-- The `float` nearest to 0.1, as a `double`: `0x3FB99999A0000000`,
0.100000001490116. -/
def floatPointOne : Nat := 0x3FB99999A0000000

/-- The `float` nearest to -1e30, as a `double`: `0xC6293E5940000000`,
-1.0000000150474662e30. -/
def floatMinus1e30 : Nat := 0xC6293E5940000000

/-- The floating-point model of IEEE 754 in the default rounding mode, with
-1e30 for `g_zeroLogProb` (the constant is defined in `util.H`, not in this
header). -/
def ieeeModel : FloatModel := ieeeFloats narrowBits doubleMinus1e30

/-! ## The heap algorithms of the standard library -/

/-- The predicate `std::is_heap(first, last, greater<unsigned>())`: for no
index `i > 0` is the element at the parent position `(i - 1) / 2` greater
than the element at `i`. -/
def IsHeap (l : List Nat) : Prop :=
  ∀ i, 0 < i → i < l.length → ¬ (l.getD ((i - 1) / 2) 0 > l.getD i 0)

/-- The algorithms `std::make_heap`, `std::push_heap` and `std::pop_heap`
with comparison `greater<unsigned>`, each as a function of the range it is
given.  They are library code, not code of this header. -/
structure HeapAlgo where
  /-- The algorithm `std::make_heap`. -/
  make_heap : List Nat → List Nat
  /-- The algorithm `std::push_heap`. -/
  push_heap : List Nat → List Nat
  /-- The algorithm `std::pop_heap`. -/
  pop_heap : List Nat → List Nat

/-- What the C++ standard promises of the three algorithms:

* `make_heap` rearranges the range into a heap;
* `push_heap`, on a range whose elements before the last form a heap,
  rearranges the whole range into a heap;
* `pop_heap`, on a nonempty heap, moves the first element to the last
  position and rearranges the other elements into a heap. -/
structure HeapAlgo.Conforms (H : HeapAlgo) : Prop where
  make_heap_perm : ∀ l, List.Perm (H.make_heap l) l
  make_heap_isHeap : ∀ l, IsHeap (H.make_heap l)
  push_heap_perm : ∀ l x, IsHeap l → List.Perm (H.push_heap (l ++ [x])) (l ++ [x])
  push_heap_isHeap : ∀ l x, IsHeap l → IsHeap (H.push_heap (l ++ [x]))
  pop_heap_spec : ∀ x l, IsHeap (x :: l) →
    ∃ r, H.pop_heap (x :: l) = r ++ [x] ∧ List.Perm r l ∧ IsHeap r

/-- The exchange `std::swap(l[i], l[j])` of two elements of a vector. -/
def swapAt (l : List Nat) (i j : Nat) : List Nat :=
  (l.set i (l.getD j 0)).set j (l.getD i 0)

/-! ### The binary heap

The usual realisation of the three algorithms (the code of a standard library
is not part of this repository), with `fuel` bounding the number of steps of
each loop.  It serves as an instance of `HeapAlgo.Conforms`; the properties of
`FrameData` do not depend on it. -/

/-- The loop of `push_heap`: the element at `i` moves up while its parent is
greater. -/
def siftUp : Nat → List Nat → Nat → List Nat
  | 0, l, _ => l
  | fuel + 1, l, i =>
    if 0 < i ∧ l.getD ((i - 1) / 2) 0 > l.getD i 0 then
      siftUp fuel (swapAt l i ((i - 1) / 2)) ((i - 1) / 2)
    else l

/-- The position of the smallest element among position `i` and its children
`2 * i + 1` and `2 * i + 2` (those that lie in the list). -/
def smallest (l : List Nat) (i : Nat) : Nat :=
  let m1 := if 2 * i + 1 < l.length ∧ l.getD i 0 > l.getD (2 * i + 1) 0 then 2 * i + 1 else i
  if 2 * i + 2 < l.length ∧ l.getD m1 0 > l.getD (2 * i + 2) 0 then 2 * i + 2 else m1

/-- The loop of `pop_heap` and `make_heap`: the element at `i` moves down
while one of its children is smaller, changing places with its smallest
child. -/
def siftDown : Nat → List Nat → Nat → List Nat
  | 0, l, _ => l
  | fuel + 1, l, i =>
    if smallest l i = i then l
    else siftDown fuel (swapAt l i (smallest l i)) (smallest l i)

/-- The loop of `make_heap`: the positions `k - 1`, ..., `0` are sifted down
in turn. -/
def makeLoop : Nat → List Nat → List Nat
  | 0, l => l
  | k + 1, l => makeLoop k (siftDown l.length l k)

/-- The list is a heap except, possibly, between position `i` and its parent. -/
def UpInv (l : List Nat) (i : Nat) : Prop :=
  (∀ j, 0 < j → j < l.length → j ≠ i → l.getD ((j - 1) / 2) 0 ≤ l.getD j 0) ∧
  (∀ j, 0 < j → j < l.length → (j - 1) / 2 = i → 0 < i →
    l.getD ((i - 1) / 2) 0 ≤ l.getD j 0)

/-- `push_heap`: the last element is sifted up. -/
def binPush (l : List Nat) : List Nat := siftUp l.length l (l.length - 1)

/-- Among the positions whose parent is at least `k`, the list is a heap
except, possibly, between position `i` and its children. -/
def DownInv (k : Nat) (l : List Nat) (i : Nat) : Prop :=
  (∀ j, 0 < j → j < l.length → k ≤ (j - 1) / 2 → (j - 1) / 2 ≠ i →
    l.getD ((j - 1) / 2) 0 ≤ l.getD j 0) ∧
  (∀ j, 0 < j → j < l.length → (j - 1) / 2 = i → 0 < i → k ≤ (i - 1) / 2 →
    l.getD ((i - 1) / 2) 0 ≤ l.getD j 0)

/-- The heap condition for the positions whose parent is at least `k`. -/
def HeapFrom (k : Nat) (l : List Nat) : Prop :=
  ∀ j, 0 < j → j < l.length → k ≤ (j - 1) / 2 → l.getD ((j - 1) / 2) 0 ≤ l.getD j 0

/-- `make_heap`: the positions that have children are sifted down, last one
first. -/
def binMake (l : List Nat) : List Nat := makeLoop (l.length / 2) l

/-- `pop_heap`: the first element changes places with the last, and the new
first element is sifted down in the range before the last position. -/
def binPop : List Nat → List Nat
  | [] => []
  | x :: r =>
    match r.getLast? with
    | none => [x]
    | some y => siftDown r.length (y :: r.dropLast) 0 ++ [x]

/-- The three algorithms realised by the binary heap. -/
def binaryHeapAlgo : HeapAlgo := ⟨binMake, binPush, binPop⟩

/-! ## `FrameData` -/

/-- The class `FrameData`. -/
structure FrameData (F : FloatModel) where
  /-- The states that are active, in no particular order. -/
  m_activeStates : List Nat
  /-- Array of DP cells for active states. -/
  m_cellArray : List (FrameCell F)
  /-- For each state, location in m_cellArray if active, -1 otherwise. -/
  m_stateMap : List Int
  /-- If nonnegative, how many states in heap in m_activeStates. -/
  m_heapSize : Int

namespace FrameData

variable {F : FloatModel}

/-- The constructor `FrameData(stateCnt)`. -/
def ctor (F : FloatModel) (stateCnt : Nat) : FrameData F :=
  ⟨[], [], List.replicate stateCnt (-1), -1⟩

/-- The loop of `clear()` over the active states: each must be marked active
in the state map (the assertion) and is marked inactive. -/
def clearLoop : List Nat → List Int → Except Fault (List Int)
  | [], m => .ok m
  | s :: rest, m =>
    match m[s]? with
    | none => .error .undefined
    | some v => if v ≥ 0 then clearLoop rest (m.set s (-1)) else .error .assertion

/-- The call `clear()`. -/
def clear (fd : FrameData F) : Except Fault (FrameData F) :=
  match clearLoop fd.m_activeStates fd.m_stateMap with
  | .ok m => .ok ⟨[], [], m, -1⟩
  | .error e => .error e

/-- The call `size()`. -/
def size (fd : FrameData F) : Nat := fd.m_cellArray.length % 2 ^ 32

/-- The call `empty()`. -/
def empty (fd : FrameData F) : Bool := fd.m_cellArray.isEmpty

/-- The call `get_state_count()`. -/
def get_state_count (fd : FrameData F) : Nat := fd.m_stateMap.length % 2 ^ 32

/-- The call `get_cell_by_state(stateIdx)`. -/
def get_cell_by_state (fd : FrameData F) (stateIdx : Nat) : Except Fault (FrameCell F) :=
  match fd.m_stateMap[stateIdx]? with
  | none => .error .undefined
  | some cellIdx =>
    if cellIdx ≥ 0 then
      match fd.m_cellArray[cellIdx.toNat]? with
      | some c => .ok c
      | none => .error .undefined
    else .error .assertion

/-- The call `has_cell(stateIdx)`. -/
def has_cell (fd : FrameData F) (stateIdx : Nat) : Except Fault Bool :=
  match fd.m_stateMap[stateIdx]? with
  | none => .error .undefined
  | some cellIdx => .ok (decide (cellIdx ≥ 0))

/-- The call `insert_cell(stateIdx)`: the chart after the call and the
position in `m_cellArray` of the cell the returned reference denotes. -/
def insert_cell (H : HeapAlgo) (fd : FrameData F) (stateIdx : Nat) :
    Except Fault (FrameData F × Nat) :=
  match fd.m_stateMap[stateIdx]? with
  | none => .error .undefined
  | some cellIdx =>
    if cellIdx ≥ 0 then
      if cellIdx.toNat < fd.m_cellArray.length then .ok (fd, cellIdx.toNat)
      else .error .undefined
    else
      let act := fd.m_activeStates ++ [stateIdx]
      let cells := fd.m_cellArray ++ [FrameCell.ctor F]
      let map := fd.m_stateMap.set stateIdx (toInt32 (cells.length - 1))
      if fd.m_heapSize ≥ 0 then
        if fd.m_heapSize.toNat < act.length ∧ fd.m_heapSize + 1 < 2 ^ 31 then
          let act1 := swapAt act (act.length - 1) fd.m_heapSize.toNat
          let heapSize := fd.m_heapSize + 1
          let act2 := H.push_heap (act1.take heapSize.toNat) ++ act1.drop heapSize.toNat
          .ok (⟨act2, cells, map, heapSize⟩, cells.length - 1)
        else .error .undefined
      else .ok (⟨act, cells, map, fd.m_heapSize⟩, cells.length - 1)

/-- The call `get_cell_by_index(cellIdx)`. -/
def get_cell_by_index (fd : FrameData F) (cellIdx : Nat) : Except Fault (FrameCell F) :=
  match fd.m_cellArray[cellIdx]? with
  | some c => .ok c
  | none => .error .undefined

/-- The call `get_state_by_index(idx)`. -/
def get_state_by_index (fd : FrameData F) (idx : Nat) : Except Fault Nat :=
  match fd.m_activeStates[idx]? with
  | some s => .ok s
  | none => .error .undefined

/-- The call `reset_iteration()`. -/
def reset_iteration (H : HeapAlgo) (fd : FrameData F) : FrameData F :=
  let act := H.make_heap fd.m_activeStates
  ⟨act, fd.m_cellArray, fd.m_stateMap, toInt32 act.length⟩

/-- The call `get_next_state()`: the chart after the call and the value
returned. -/
def get_next_state (H : HeapAlgo) (fd : FrameData F) : Except Fault (FrameData F × Int) :=
  if fd.m_heapSize ≥ 0 then
    if fd.m_heapSize = 0 then .ok (fd, -1)
    else if fd.m_heapSize.toNat ≤ fd.m_activeStates.length then
      let act := H.pop_heap (fd.m_activeStates.take fd.m_heapSize.toNat)
        ++ fd.m_activeStates.drop fd.m_heapSize.toNat
      let heapSize := fd.m_heapSize - 1
      match act[heapSize.toNat]? with
      | some s => .ok (⟨act, fd.m_cellArray, fd.m_stateMap, heapSize⟩, toInt32 s)
      | none => .error .undefined
    else .error .undefined
  else .error .assertion

/-- The call `a.swap(b)`: the two charts after the call. -/
def swap (a b : FrameData F) : FrameData F × FrameData F :=
  (⟨b.m_activeStates, b.m_cellArray, b.m_stateMap, b.m_heapSize⟩,
   ⟨a.m_activeStates, a.m_cellArray, a.m_stateMap, a.m_heapSize⟩)

/-- The call `c.assign(logProb, nodeIdx)` on the cell `c` at position
`cellIdx` of `m_cellArray` (a reference returned by `insert_cell`). -/
def assign_cell (fd : FrameData F) (cellIdx : Nat) (logProb : F.Dbl) (nodeIdx : Nat) :
    Except Fault (FrameData F) :=
  match fd.m_cellArray[cellIdx]? with
  | some c =>
    .ok ⟨fd.m_activeStates, fd.m_cellArray.set cellIdx (c.assign logProb nodeIdx),
      fd.m_stateMap, fd.m_heapSize⟩
  | none => .error .undefined

/-- Charts obtained from construction by calls of the public methods that
return (calls that fail an assertion or run into undefined behaviour lead
nowhere). -/
inductive Reachable (H : HeapAlgo) : FrameData F → Prop where
  | ctor (stateCnt : Nat) : stateCnt < 2 ^ 32 → Reachable H (ctor F stateCnt)
  | insert_cell (fd fd1 : FrameData F) (s i : Nat) :
      Reachable H fd → insert_cell H fd s = .ok (fd1, i) → Reachable H fd1
  | assign_cell (fd fd1 : FrameData F) (i : Nat) (logProb : F.Dbl) (nodeIdx : Nat) :
      Reachable H fd → assign_cell fd i logProb nodeIdx = .ok fd1 → Reachable H fd1
  | reset_iteration (fd : FrameData F) : Reachable H fd → Reachable H (reset_iteration H fd)
  | get_next_state (fd fd1 : FrameData F) (r : Int) :
      Reachable H fd → get_next_state H fd = .ok (fd1, r) → Reachable H fd1
  | clear (fd fd1 : FrameData F) : Reachable H fd → clear fd = .ok fd1 → Reachable H fd1
  | swap_fst (a b : FrameData F) : Reachable H a → Reachable H b → Reachable H (swap a b).1
  | swap_snd (a b : FrameData F) : Reachable H a → Reachable H b → Reachable H (swap a b).2

/-- Charts obtained from construction by `insert_cell` calls alone. -/
inductive ReachableByInsert (H : HeapAlgo) : FrameData F → Prop where
  | ctor (stateCnt : Nat) : stateCnt < 2 ^ 32 → ReachableByInsert H (ctor F stateCnt)
  | insert_cell (fd fd1 : FrameData F) (s i : Nat) :
      ReachableByInsert H fd → insert_cell H fd s = .ok (fd1, i) → ReachableByInsert H fd1

/-- The states not yet iterated through: the part of `m_activeStates` that
is arranged as a heap (empty when no iteration was started). -/
def pending (fd : FrameData F) : List Nat := fd.m_activeStates.take fd.m_heapSize.toNat

/-- Whether `has_cell(stateIdx)` returns true. -/
def isActive (fd : FrameData F) (stateIdx : Nat) : Bool :=
  match has_cell fd stateIdx with
  | .ok b => b
  | .error _ => false

/-- The active states of the chart, in increasing order. -/
def activeSet (fd : FrameData F) : List Nat :=
  (List.range fd.m_stateMap.length).filter (fun s => isActive fd s)

/-- `n` successive `get_next_state()` calls: the chart afterwards and the
values returned, in order. -/
def drain (H : HeapAlgo) : Nat → FrameData F → Except Fault (FrameData F × List Int)
  | 0, fd => .ok (fd, [])
  | n + 1, fd =>
    match get_next_state H fd with
    | .error e => .error e
    | .ok (fd1, r) =>
      match drain H n fd1 with
      | .error e => .error e
      | .ok (fd2, rs) => .ok (fd2, r :: rs)

/-- The two calls that are interleaved during an iteration. -/
inductive Op where
  | insert_cell (stateIdx : Nat)
  | get_next_state
  deriving DecidableEq, Repr

/-- What a call did: `insert_cell` created the cell of a state (`activated`)
or found it (`found`); `get_next_state` returned a value. -/
inductive Event where
  | activated (stateIdx : Nat)
  | found (stateIdx : Nat)
  | returned (r : Int)
  deriving DecidableEq, Repr

/-- One call, with the event it gives rise to. -/
def step (H : HeapAlgo) (fd : FrameData F) : Op → Except Fault (FrameData F × Event)
  | .insert_cell s =>
    match has_cell fd s, insert_cell H fd s with
    | .ok b, .ok (fd1, _) => .ok (fd1, if b then .found s else .activated s)
    | .error e, _ => .error e
    | _, .error e => .error e
  | .get_next_state =>
    match get_next_state H fd with
    | .ok (fd1, r) => .ok (fd1, .returned r)
    | .error e => .error e

/-- A sequence of calls, with the events in order. -/
def run (H : HeapAlgo) (fd : FrameData F) : List Op → Except Fault (FrameData F × List Event)
  | [] => .ok (fd, [])
  | op :: ops =>
    match step H fd op with
    | .error e => .error e
    | .ok (fd1, ev) =>
      match run H fd1 ops with
      | .error e => .error e
      | .ok (fd2, evs) => .ok (fd2, ev :: evs)

/-- The states whose cells were created during the events. -/
def activatedOf : List Event → List Nat
  | [] => []
  | .activated s :: evs => s :: activatedOf evs
  | _ :: evs => activatedOf evs

/-- The values returned by `get_next_state()` during the events. -/
def returnedOf : List Event → List Int
  | [] => []
  | .returned r :: evs => r :: returnedOf evs
  | _ :: evs => returnedOf evs

/-- The states returned by `get_next_state()` during the events: the values
returned other than -1. -/
def returnedStates (evs : List Event) : List Int := (returnedOf evs).filter (fun r => r ≠ -1)

/-- The pending set as the iteration is documented: the states active at
`reset_iteration()` plus every state newly activated by `insert_cell` since
then, minus the states already returned. -/
def specPending (activeAtReset : List Nat) (evs : List Event) : List Nat :=
  (activeAtReset ++ activatedOf evs).filter (fun s => decide ((s : Int) ∉ returnedOf evs))

/-- What `get_next_state()` is documented to return for a pending set: its
lowest-numbered state, or -1 if there is none. -/
def specNext (pendingSet : List Nat) : Int :=
  match pendingSet.min? with
  | some m => (m : Int)
  | none => -1

/-- What the four members of a chart have to do with each other (for a
state count that fits the type `int`). -/
structure Inv (fd : FrameData F) : Prop where
  nodup : fd.m_activeStates.Nodup
  active_iff : ∀ s : Nat, s ∈ fd.m_activeStates ↔ ∃ v : Int, fd.m_stateMap[s]? = some v ∧ 0 ≤ v
  cells_len : fd.m_cellArray.length = fd.m_activeStates.length
  map_range : ∀ (s : Nat) (v : Int), fd.m_stateMap[s]? = some v →
    v = -1 ∨ (0 ≤ v ∧ v < (fd.m_cellArray.length : Int))
  map_inj : ∀ (s s1 : Nat) (v : Int), fd.m_stateMap[s]? = some v →
    fd.m_stateMap[s1]? = some v → 0 ≤ v → s = s1
  heap : fd.m_heapSize = -1 ∨
    (0 ≤ fd.m_heapSize ∧ fd.m_heapSize ≤ (fd.m_activeStates.length : Int) ∧ IsHeap fd.pending)
  bound : fd.m_stateMap.length < 2 ^ 31

/-- The list in increasing order. -/
def sortAsc (l : List Nat) : List Nat := l.insertionSort (· ≤ ·)

/-- The values `n` successive `get_next_state()` calls are to return when
the states of `l` (in increasing order) are pending. -/
def expected (l : List Nat) (n : Nat) : List Int :=
  (List.map (fun s : Nat => (s : Int)) l ++ List.replicate (n - l.length) (-1)).take n

/-- A floating-point model for examples: both types are the integers. -/
def intFloats : FloatModel := ⟨Int, Int, id, id, -1000⟩

/-- A chart for examples: four states, cells inserted for state 2 and then
for state 0. -/
def exampleChart : FrameData intFloats :=
  ⟨[2, 0], [FrameCell.ctor intFloats, FrameCell.ctor intFloats], [1, -1, 0, -1], -1⟩

/-- The example chart after `reset_iteration()` and one `get_next_state()`
call, which returned state 0. -/
def examplePass : FrameData intFloats :=
  ⟨[2, 0], [FrameCell.ctor intFloats, FrameCell.ctor intFloats], [1, -1, 0, -1], 1⟩

/-- The two charts agree in everything the public methods let one observe:
`size`, `empty`, `get_state_count`, `has_cell`, `get_cell_by_state`,
`get_cell_by_index`, `get_state_by_index`, and the values that further
`get_next_state()` calls return. -/
def SameObservations (H : HeapAlgo) (x y : FrameData F) : Prop :=
  x.size = y.size ∧ x.empty = y.empty ∧ x.get_state_count = y.get_state_count ∧
  (∀ s, has_cell x s = has_cell y s) ∧
  (∀ s, get_cell_by_state x s = get_cell_by_state y s) ∧
  (∀ i, get_cell_by_index x i = get_cell_by_index y i) ∧
  (∀ i, get_state_by_index x i = get_state_by_index y i) ∧
  (∀ n, (drain H n x).map Prod.snd = (drain H n y).map Prod.snd)

/-- The entry `m_stateMap[stateIdx]` read as a position in `m_cellArray`, as
`get_cell_by_state` uses it. -/
def cellIndexOf (fd : FrameData F) (stateIdx : Nat) : Nat :=
  ((fd.m_stateMap[stateIdx]?).getD 0).toNat

/-- Successive `insert_cell` calls for the states of the list, in order: the
chart afterwards. -/
def insertMany (H : HeapAlgo) : FrameData F → List Nat → Except Fault (FrameData F)
  | fd, [] => .ok fd
  | fd, s :: ss =>
    match insert_cell H fd s with
    | .ok (fd1, _) => insertMany H fd1 ss
    | .error e => .error e

/-- The calls that change a chart. -/
inductive Call (F : FloatModel) where
  | insert_cell (stateIdx : Nat)
  | assign (cellIdx : Nat) (logProb : F.Dbl) (nodeIdx : Nat)
  | reset_iteration
  | get_next_state
  | clear

/-- One call on a chart: the chart afterwards. -/
def call (H : HeapAlgo) (fd : FrameData F) : Call F → Except Fault (FrameData F)
  | .insert_cell s =>
    match insert_cell H fd s with
    | .ok (fd1, _) => .ok fd1
    | .error e => .error e
  | .assign i logProb nodeIdx => assign_cell fd i logProb nodeIdx
  | .reset_iteration => .ok (reset_iteration H fd)
  | .get_next_state =>
    match get_next_state H fd with
    | .ok (fd1, _) => .ok fd1
    | .error e => .error e
  | .clear => clear fd

/-- A statement of a program that works with several charts, numbered in the
order of their construction: the construction of a further chart, a call on
chart `k`, or `j.swap(k)`. -/
inductive Stmt (F : FloatModel) where
  | construct (stateCnt : Nat)
  | call (k : Nat) (c : Call F)
  | swap (j k : Nat)

/-- One statement: the charts afterwards. -/
def stmt (H : HeapAlgo) (charts : List (FrameData F)) :
    Stmt F → Except Fault (List (FrameData F))
  | .construct stateCnt => .ok (charts ++ [ctor F stateCnt])
  | .call k c =>
    match charts[k]? with
    | some fd =>
      match call H fd c with
      | .ok fd1 => .ok (charts.set k fd1)
      | .error e => .error e
    | none => .error .undefined
  | .swap j k =>
    match charts[j]?, charts[k]? with
    | some a, some b => .ok ((charts.set j (swap a b).1).set k (swap a b).2)
    | _, _ => .error .undefined

/-- A program: the charts at its end, if every call returned. -/
def exec (H : HeapAlgo) : List (FrameData F) → List (Stmt F) → Except Fault (List (FrameData F))
  | charts, [] => .ok charts
  | charts, st :: sts =>
    match stmt H charts st with
    | .ok charts1 => exec H charts1 sts
    | .error e => .error e

/-- What a chart has been through since its construction or its last
`clear()`, as the documentation speaks of it: the states `insert_cell` was
called for, and whether `reset_iteration()` was called. -/
structure History where
  /-- The states `insert_cell` was called for. -/
  inserted : List Nat
  /-- Whether `reset_iteration()` was called. -/
  started : Bool
  deriving DecidableEq, Repr

/-- The history after one more call. -/
def History.record (g : History) : Call F → History
  | .insert_cell s => ⟨s :: g.inserted, g.started⟩
  | .assign _ _ _ => g
  | .reset_iteration => ⟨g.inserted, true⟩
  | .get_next_state => g
  | .clear => ⟨[], false⟩

/-- The histories of the charts after one more statement; `swap` exchanges
the histories with the contents. -/
def recordStmt (hs : List History) : Stmt F → List History
  | .construct _ => hs ++ [⟨[], false⟩]
  | .call k c =>
    match hs[k]? with
    | some g => hs.set k (g.record c)
    | none => hs
  | .swap j k =>
    match hs[j]?, hs[k]? with
    | some g1, some g2 => (hs.set j g2).set k g1
    | _, _ => hs

/-- The histories of the charts at the end of a program. -/
def histories (sts : List (Stmt F)) : List History := sts.foldl recordStmt []

/-- The chart is as its history says: the active states are the states
inserted, and an iteration is under way exactly if one was started. -/
def Tracks (fd : FrameData F) (g : History) : Prop :=
  Inv fd ∧ (∀ s : Nat, s ∈ fd.m_activeStates ↔ s ∈ g.inserted) ∧
    (0 ≤ fd.m_heapSize ↔ g.started = true)

/-- Every chart is as its history says. -/
def TracksAll (charts : List (FrameData F)) (hs : List History) : Prop :=
  charts.length = hs.length ∧
    ∀ (k : Nat) (fd : FrameData F) (g : History),
      charts[k]? = some fd → hs[k]? = some g → Tracks fd g

/-- A program for examples: two charts; state 2 is inserted into the first,
an iteration is started on it, the charts are swapped, and the iteration is
continued on the second. -/
def exampleProgram : List (Stmt intFloats) :=
  [.construct 4, .construct 3, .call 0 (.insert_cell 2), .call 0 .reset_iteration,
   .swap 0 1, .call 1 .get_next_state]

/-- The second chart at the end of the example program. -/
def exampleProgramChart : FrameData intFloats :=
  ⟨[2], [FrameCell.ctor intFloats], [-1, -1, 0, -1], 0⟩

/-- A chart of the IEEE 754 model for examples: four states, a cell inserted
for state 2. -/
def ieeeChart : FrameData ieeeModel :=
  ⟨[2], [FrameCell.ctor ieeeModel], [-1, -1, 0, -1], -1⟩

end FrameData

/-! # Properties

## Machine integers and association lists -/

theorem toUInt32_toInt32 (p : Nat) : toUInt32 (toInt32 p) = p % 2 ^ 32 := by
  unfold toUInt32 toInt32
  split <;> omega

theorem toInt32_mod (p : Nat) : toInt32 (p % 2 ^ 32) = toInt32 p := by
  unfold toInt32
  rw [Nat.mod_mod]

theorem toInt32_toUInt32_toInt32 (p : Nat) : toInt32 (toUInt32 (toInt32 p)) = toInt32 p := by
  rw [toUInt32_toInt32, toInt32_mod]

theorem toInt32_of_lt {n : Nat} (h : n < 2 ^ 31) : toInt32 n = (n : Int) := by
  unfold toInt32
  split <;> omega

theorem toInt32_injective {p q : Nat} (hp : p < 2 ^ 32) (hq : q < 2 ^ 32)
    (h : toInt32 p = toInt32 q) : p = q := by
  have h1 := toUInt32_toInt32 p
  have h2 := toUInt32_toInt32 q
  rw [h] at h1
  rw [h1] at h2
  omega

theorem unsignedMinusOne_eq : unsignedMinusOne = 2 ^ 32 - 1 := by
  decide

theorem toInt32_unsignedMinusOne : toInt32 unsignedMinusOne = -1 := by
  decide

theorem mapFind_mapAssign {κ ν : Type} [DecidableEq κ] (m : List (κ × ν)) (k k' : κ) (v : ν) :
    mapFind (mapAssign m k v) k' = if k = k' then some v else mapFind m k' := by
  induction m with
  | nil => simp [mapAssign, mapFind]
  | cons a rest ih =>
    obtain ⟨a, b⟩ := a
    by_cases hak : a = k
    · subst hak
      by_cases hk : a = k' <;> simp [mapAssign, mapFind, hk]
    · by_cases hk : k = k'
      · subst hk
        simp [mapAssign, mapFind, hak, ih]
      · simp [mapAssign, mapFind, hak, ih, hk]

theorem mapAssign_of_absent {κ ν : Type} [DecidableEq κ] (m : List (κ × ν)) (k : κ) (v : ν)
    (h : mapFind m k = none) : mapAssign m k v = m ++ [(k, v)] := by
  induction m with
  | nil => rfl
  | cons a rest ih =>
    obtain ⟨a, b⟩ := a
    by_cases hak : a = k
    · simp [mapFind, hak] at h
    · simp only [mapFind, hak, if_false] at h
      simp [mapAssign, hak, ih h]

theorem mapFind_none_iff {κ ν : Type} [DecidableEq κ] (m : List (κ × ν)) (k : κ) :
    mapFind m k = none ↔ k ∉ m.map Prod.fst := by
  induction m with
  | nil => simp [mapFind]
  | cons a rest ih =>
    obtain ⟨a, b⟩ := a
    by_cases hak : a = k
    · simp [mapFind, hak]
    · simp only [mapFind, hak, if_false, ih, List.map_cons, List.mem_cons]
      constructor
      · rintro h (h1 | h1)
        · exact hak h1.symm
        · exact h h1
      · intro h h1
        exact h (Or.inr h1)

/-! ## `WordTree`: the invariant of the representation -/

namespace WordTree

theorem clear_eq (t0 : WordTree) :
    clear t0 = ⟨[(-1, 2 ^ 32 - 1)], [((-1, 2 ^ 32 - 1), 0)]⟩ := by
  unfold clear
  decide

theorem insert_node_of_found (t : WordTree) (p w i : Nat)
    (h : mapFind t.m_nodeHash (toInt32 p, w) = some i) : insert_node t p w = (t, i) := by
  simp [insert_node, h]

theorem insert_node_of_absent (t : WordTree) (p w : Nat)
    (h : mapFind t.m_nodeHash (toInt32 p, w) = none) :
    insert_node t p w =
      (⟨t.m_nodeArray ++ [(toInt32 p, w)],
        t.m_nodeHash ++ [((toInt32 p, w), t.m_nodeArray.length % 2 ^ 32)]⟩,
       t.m_nodeArray.length % 2 ^ 32) := by
  simp [insert_node, h, mapAssign_of_absent]

theorem length_le_insert_node (t : WordTree) (p w : Nat) :
    t.m_nodeArray.length ≤ (insert_node t p w).1.m_nodeArray.length := by
  cases h : mapFind t.m_nodeHash (toInt32 p, w) with
  | none => rw [insert_node_of_absent t p w h]; simp
  | some i => rw [insert_node_of_found t p w i h]

theorem length_insert_node_le (t : WordTree) (p w : Nat) :
    (insert_node t p w).1.m_nodeArray.length ≤ t.m_nodeArray.length + 1 := by
  cases h : mapFind t.m_nodeHash (toInt32 p, w) with
  | none => rw [insert_node_of_absent t p w h]; simp
  | some i => rw [insert_node_of_found t p w i h]; simp

theorem getElem?_insert_node (t : WordTree) (p w i : Nat) (nd : Node)
    (h : t.m_nodeArray[i]? = some nd) : (insert_node t p w).1.m_nodeArray[i]? = some nd := by
  cases hf : mapFind t.m_nodeHash (toInt32 p, w) with
  | none =>
    rw [insert_node_of_absent t p w hf]
    have hi : i < t.m_nodeArray.length := (List.getElem?_eq_some.1 h).1
    simp [List.getElem?_append_left hi, h]
  | some j => rw [insert_node_of_found t p w j hf]; exact h

theorem wordTree_inv_clear (t0 : WordTree) : Inv (clear t0) := by
  rw [clear_eq]
  refine ⟨?_, by simp, by simp, by decide, by simp⟩
  intro key i
  simp only [mapFind]
  by_cases hk : ((-1 : Int), 2 ^ 32 - 1) = key
  · subst hk
    cases i <;> simp
  · cases i with
    | zero => simp [hk]
    | succ i => simp [hk]

theorem inv_insert_node (t : WordTree) (hinv : Inv t) (p w : Nat)
    (hroom : t.m_nodeArray.length < 2 ^ 32) : Inv (insert_node t p w).1 := by
  cases hf : mapFind t.m_nodeHash (toInt32 p, w) with
  | some j => rw [insert_node_of_found t p w j hf]; exact hinv
  | none =>
    rw [insert_node_of_absent t p w hf, Nat.mod_eq_of_lt hroom]
    refine ⟨?_, ?_, ?_, ?_, ?_⟩
    · intro key i
      have hfa := mapFind_mapAssign t.m_nodeHash (toInt32 p, w) key t.m_nodeArray.length
      rw [mapAssign_of_absent _ _ _ hf] at hfa
      show mapFind (t.m_nodeHash ++ [((toInt32 p, w), t.m_nodeArray.length)]) key = some i ↔
        (t.m_nodeArray ++ [(toInt32 p, w)])[i]? = some key
      rw [hfa, List.getElem?_append]
      by_cases hk : (toInt32 p, w) = key
      · subst hk
        rw [if_pos rfl]
        by_cases hi : i < t.m_nodeArray.length
        · rw [if_pos hi]
          constructor
          · intro h
            have := Option.some.inj h
            omega
          · intro h
            rw [← hinv.find_iff, hf] at h
            exact absurd h (by simp)
        · rw [if_neg hi]
          constructor
          · intro h
            have := Option.some.inj h
            subst this
            simp
          · intro h
            have hlt : i - t.m_nodeArray.length < 1 := by
              have := (List.getElem?_eq_some.1 h).1
              simpa using this
            have : i = t.m_nodeArray.length := by omega
            rw [this]
      · rw [if_neg hk]
        by_cases hi : i < t.m_nodeArray.length
        · rw [if_pos hi]
          exact hinv.find_iff key i
        · rw [if_neg hi]
          constructor
          · intro h
            have := (List.getElem?_eq_some.1 ((hinv.find_iff key i).1 h)).1
            exact absurd this hi
          · intro h
            have hlt : i - t.m_nodeArray.length < 1 := by
              have := (List.getElem?_eq_some.1 h).1
              simpa using this
            have h0 : i - t.m_nodeArray.length = 0 := by omega
            rw [h0] at h
            simp at h
            exact absurd h hk
    · show ((t.m_nodeHash ++ [((toInt32 p, w), t.m_nodeArray.length)]).map Prod.fst).Nodup
      rw [List.map_append, List.nodup_append]
      refine ⟨hinv.keys_nodup, by simp, ?_⟩
      intro a ha hb
      simp only [List.map_cons, List.map_nil, List.mem_singleton] at hb
      subst hb
      exact (mapFind_none_iff _ _).1 hf ha
    · simp [hinv.len_eq]
    · intro nd hnd
      simp only [List.mem_append, List.mem_singleton] at hnd
      rcases hnd with hnd | hnd
      · exact hinv.int_range nd hnd
      · subst hnd
        exact toInt32_toUInt32_toInt32 p
    · have h0 := hinv.root
      have hlen : 0 < t.m_nodeArray.length := (List.getElem?_eq_some.1 h0).1
      show (t.m_nodeArray ++ [(toInt32 p, w)])[0]? = _
      rw [List.getElem?_append_left hlen]
      exact h0

theorem wordTree_inv_of_reachable {t : WordTree} (hr : Reachable t)
    (hlen : t.m_nodeArray.length ≤ 2 ^ 32) : Inv t := by
  induction hr with
  | clear t0 => exact wordTree_inv_clear t0
  | insert t p w _ hp hw ih =>
    cases hf : mapFind t.m_nodeHash (toInt32 p, w) with
    | some j =>
      rw [insert_node_of_found t p w j hf] at hlen ⊢
      exact ih hlen
    | none =>
      have hl : t.m_nodeArray.length < 2 ^ 32 := by
        rw [insert_node_of_absent t p w hf] at hlen
        simp at hlen
        omega
      exact inv_insert_node t (ih (le_of_lt hl)) p w hl

theorem size_lt (t : WordTree) : t.size < 2 ^ 32 := Nat.mod_lt _ (by decide)

theorem reachable_of_reachableP {t : WordTree} (hr : ReachableP t) : Reachable t := by
  induction hr with
  | clear t0 => exact Reachable.clear t0
  | insert t p w _ hp hw ih => exact Reachable.insert t p w ih (lt_trans hp (size_lt t)) hw

theorem node_of_getters {t : WordTree} (hinv : Inv t) {i p w : Nat}
    (hpar : t.get_parent_node i = .ok p) (hword : t.get_last_word i = .ok w) :
    t.m_nodeArray[i]? = some (toInt32 p, w) := by
  unfold get_parent_node at hpar
  unfold get_last_word at hword
  cases h : t.m_nodeArray[i]? with
  | none => simp [h] at hpar
  | some nd =>
    simp only [h, Except.ok.injEq] at hpar hword
    have hr := hinv.int_range nd (List.mem_iff_getElem?.2 ⟨i, h⟩)
    rw [hpar] at hr
    obtain ⟨a, b⟩ := nd
    simp only at hr hword
    rw [hr, hword]

theorem getters_of_node {t : WordTree} {i p w : Nat} (hp : p < 2 ^ 32)
    (h : t.m_nodeArray[i]? = some (toInt32 p, w)) :
    t.get_parent_node i = .ok p ∧ t.get_last_word i = .ok w := by
  unfold get_parent_node get_last_word
  rw [h]
  simp only [toUInt32_toInt32, Nat.mod_eq_of_lt hp, and_self]

theorem size_eq_length {t : WordTree} (h : t.m_nodeArray.length < 2 ^ 32) :
    t.size = t.m_nodeArray.length := Nat.mod_eq_of_lt h

/-- C1: `insert_node` is find-or-create.  On a tree built from `clear()` by
`insert_node` calls, with room for one more node in the 32-bit index space,
`insert_node(parentIdx, lastWord)` returns an index `n < size()` whose node
has parent `parentIdx` and word `lastWord`; if some node already stored that
pair, `n` is that node's index and the tree (so `size()`) is unchanged;
otherwise `n` is the old `size()` and `size()` has grown by one.  Calling it
again with the same pair returns the same index and changes nothing. -/
theorem insert_node_find_or_create (t : WordTree) (hr : Reachable t) (p w : Nat)
    (hp : p < 2 ^ 32) (hroom : t.m_nodeArray.length + 1 < 2 ^ 32) :
    (insert_node t p w).2 < (insert_node t p w).1.size ∧
    (insert_node t p w).1.get_parent_node (insert_node t p w).2 = .ok p ∧
    (insert_node t p w).1.get_last_word (insert_node t p w).2 = .ok w ∧
    (∀ i, i < t.size → t.get_parent_node i = .ok p → t.get_last_word i = .ok w →
      (insert_node t p w).2 = i ∧ (insert_node t p w).1.size = t.size ∧
      (insert_node t p w).1 = t) ∧
    ((¬ ∃ i, i < t.size ∧ t.get_parent_node i = .ok p ∧ t.get_last_word i = .ok w) →
      (insert_node t p w).2 = t.size ∧ (insert_node t p w).1.size = t.size + 1) ∧
    insert_node (insert_node t p w).1 p w = insert_node t p w := by
  have hinv : Inv t := wordTree_inv_of_reachable hr (by omega)
  have hsz : t.size = t.m_nodeArray.length := size_eq_length (by omega)
  cases hf : mapFind t.m_nodeHash (toInt32 p, w) with
  | some j =>
    rw [insert_node_of_found t p w j hf]
    have hj := (hinv.find_iff _ _).1 hf
    have hjlt : j < t.m_nodeArray.length := (List.getElem?_eq_some.1 hj).1
    obtain ⟨h1, h2⟩ := getters_of_node hp hj
    refine ⟨by simpa [hsz] using hjlt, h1, h2, ?_, ?_, ?_⟩
    · intro i _ hpar hword
      have hi := (hinv.find_iff _ _).2 (node_of_getters hinv hpar hword)
      rw [hf] at hi
      exact ⟨Option.some.inj hi, rfl, rfl⟩
    · intro hne
      exact absurd ⟨j, by simpa [hsz] using hjlt, h1, h2⟩ hne
    · exact insert_node_of_found t p w j hf
  | none =>
    have hinv' : Inv (insert_node t p w).1 := inv_insert_node t hinv p w (by omega)
    rw [insert_node_of_absent t p w hf] at hinv' ⊢
    rw [Nat.mod_eq_of_lt (by omega : t.m_nodeArray.length < 2 ^ 32)] at hinv' ⊢
    have hnew : (t.m_nodeArray ++ [(toInt32 p, w)])[t.m_nodeArray.length]? =
        some (toInt32 p, w) := List.getElem?_concat_length _ _
    obtain ⟨h1, h2⟩ := getters_of_node (t := ⟨t.m_nodeArray ++ [(toInt32 p, w)],
      t.m_nodeHash ++ [((toInt32 p, w), t.m_nodeArray.length)]⟩) hp hnew
    have hsz' : size ⟨t.m_nodeArray ++ [(toInt32 p, w)],
        t.m_nodeHash ++ [((toInt32 p, w), t.m_nodeArray.length)]⟩ =
        t.m_nodeArray.length + 1 := by
      unfold size
      simp only [List.length_append, List.length_singleton]
      omega
    refine ⟨by rw [hsz']; omega, h1, h2, ?_, ?_, ?_⟩
    · intro i _ hpar hword
      have hi := (hinv.find_iff _ _).2 (node_of_getters hinv hpar hword)
      rw [hf] at hi
      exact absurd hi (by simp)
    · intro _
      exact ⟨hsz.symm, by rw [hsz', hsz]⟩
    · exact insert_node_of_found _ p w _ ((hinv'.find_iff _ _).2 hnew)

/-- Find-or-create at a concrete tree: the root and a child for word 7; the
pair `(0, 7)` is looked up. -/
theorem insert_node_find_or_create_witness :
    (insert_node (insert_node (clear ⟨[], []⟩) 0 7).1 0 7).2 <
      (insert_node (insert_node (clear ⟨[], []⟩) 0 7).1 0 7).1.size :=
  (insert_node_find_or_create (insert_node (clear ⟨[], []⟩) 0 7).1
    (Reachable.insert _ 0 7 (Reachable.clear _) (by decide) (by decide)) 0 7
    (by decide) (by decide)).1

/-- C3: the uniqueness invariant.  In a tree built from `clear()` by
`insert_node` calls (at most `2^32` nodes, the range of the `unsigned`
indices), two node indices whose nodes have the same parent and the same word
are equal; the lookup table sends a pair to `i` exactly when node `i` stores
that pair; the table has one entry per key and as many entries as the node
array. -/
theorem wordTree_uniqueness_invariant (t : WordTree) (hr : Reachable t)
    (hlen : t.m_nodeArray.length ≤ 2 ^ 32) :
    (∀ i j p w, t.get_parent_node i = .ok p → t.get_last_word i = .ok w →
      t.get_parent_node j = .ok p → t.get_last_word j = .ok w → i = j) ∧
    (∀ key i, mapFind t.m_nodeHash key = some i ↔ t.m_nodeArray[i]? = some key) ∧
    (t.m_nodeHash.map Prod.fst).Nodup ∧
    t.m_nodeHash.length = t.m_nodeArray.length := by
  have hinv : Inv t := wordTree_inv_of_reachable hr hlen
  refine ⟨?_, hinv.find_iff, hinv.keys_nodup, hinv.len_eq⟩
  intro i j p w hpi hwi hpj hwj
  have hi := (hinv.find_iff _ _).2 (node_of_getters hinv hpi hwi)
  have hj := (hinv.find_iff _ _).2 (node_of_getters hinv hpj hwj)
  rw [hi] at hj
  exact Option.some.inj hj

/-- The uniqueness invariant at a concrete tree: the root with children for
the words 7 and 8. -/
theorem wordTree_uniqueness_invariant_witness :
    (insert_node (insert_node (clear ⟨[], []⟩) 0 7).1 0 8).1.m_nodeHash.length =
      (insert_node (insert_node (clear ⟨[], []⟩) 0 7).1 0 8).1.m_nodeArray.length :=
  (wordTree_uniqueness_invariant (insert_node (insert_node (clear ⟨[], []⟩) 0 7).1 0 8).1
    (Reachable.insert _ 0 8 (Reachable.insert _ 0 7 (Reachable.clear _) (by decide) (by decide))
      (by decide) (by decide))
    (by decide)).2.2.2

/-- C5: `insert_node` never alters existing nodes.  For every tree and every
call `insert_node(p, w)`, each index below the size before the call has the
same parent and the same word after the call, and `size()` does not decrease
(the size before the call being below the largest `unsigned`). -/
theorem insert_node_frame (t : WordTree) (p w : Nat) (hroom : t.size + 1 < 2 ^ 32) :
    (∀ i, i < t.size →
      (insert_node t p w).1.get_parent_node i = t.get_parent_node i ∧
      (insert_node t p w).1.get_last_word i = t.get_last_word i) ∧
    t.size ≤ (insert_node t p w).1.size := by
  constructor
  · intro i hi
    have hil : i < t.m_nodeArray.length :=
      lt_of_lt_of_le hi (Nat.mod_le _ _)
    have h := getElem?_insert_node t p w i _ (List.getElem?_eq_getElem hil)
    unfold get_parent_node get_last_word
    rw [h, List.getElem?_eq_getElem hil]
    exact ⟨rfl, rfl⟩
  · cases hf : mapFind t.m_nodeHash (toInt32 p, w) with
    | some j => rw [insert_node_of_found t p w j hf]
    | none =>
      rw [insert_node_of_absent t p w hf]
      unfold size at hroom ⊢
      simp only [List.length_append, List.length_singleton]
      omega

/-- The frame property at the tree holding the root only. -/
theorem insert_node_frame_witness :
    (clear ⟨[], []⟩).size ≤ (insert_node (clear ⟨[], []⟩) 0 7).1.size :=
  (insert_node_frame (clear ⟨[], []⟩) 0 7 (by decide)).2

/-- C6: `clear` resets the tree to the root only.  After construction and
after `clear()` on any tree, `size()` is 1, the root is node 0, and node 0
stores parent and word `(unsigned)-1 = 2^32 - 1`; `insert_node(0, w)` then
returns 1, for every word `w`. -/
theorem clear_resets_to_root (t0 : WordTree) (w : Nat) :
    ctor = clear t0 ∧
    (clear t0).size = 1 ∧
    (clear t0).get_root_node = 0 ∧
    (clear t0).get_parent_node 0 = .ok (2 ^ 32 - 1) ∧
    (clear t0).get_last_word 0 = .ok (2 ^ 32 - 1) ∧
    unsignedMinusOne = 2 ^ 32 - 1 ∧
    (insert_node (clear t0) 0 w).2 = 1 := by
  refine ⟨rfl, ?_, rfl, ?_, ?_, by decide, ?_⟩
  · rw [clear_eq]; decide
  · rw [clear_eq]; rfl
  · rw [clear_eq]; rfl
  · rw [clear_eq]
    have hf : mapFind [(((-1 : Int), 2 ^ 32 - 1), 0)] (toInt32 0, w) = none := by
      have h0 : toInt32 0 = 0 := by decide
      simp [mapFind, h0]
    rw [insert_node_of_absent _ 0 w hf]
    rfl

/-! ### Paths to the root -/

theorem path_insert_node {t : WordTree} {n : Nat} {ws : List Nat} (h : Path t n ws)
    (p w : Nat) : Path (insert_node t p w).1 n ws := by
  induction h with
  | root => exact Path.root
  | step q n v ws _ hn hq hnode ih =>
    exact Path.step q n v ws ih hn hq (getElem?_insert_node t p w n _ hnode)

theorem path_of_extends {t t1 : WordTree} (he : Extends t t1) {n : Nat} {ws : List Nat}
    (h : Path t n ws) : Path t1 n ws := by
  induction he with
  | refl => exact h
  | insert t1 p w _ _ _ ih => exact path_insert_node ih p w

theorem path_extend_frame (ws : List Nat) :
    ∀ (t : WordTree) (m : Nat) {n : Nat} {rs : List Nat}, Path t n rs →
      Path (extend t m ws).1 n rs := by
  induction ws with
  | nil => intro t m n rs h; exact h
  | cons w ws ih =>
    intro t m n rs h
    exact ih _ _ (path_insert_node h m w)

theorem path_walk {t : WordTree} {n : Nat} {ws : List Nat} (h : Path t n ws) :
    ∀ fuel, ws.length ≤ fuel → backtraceWalk t fuel n = some ws := by
  induction h with
  | root =>
    intro fuel _
    cases fuel <;> simp [backtraceWalk, get_root_node]
  | step q n v ws _ hn hq hnode ih =>
    intro fuel hfuel
    cases fuel with
    | zero => simp at hfuel
    | succ fuel =>
      obtain ⟨h1, h2⟩ := getters_of_node hq hnode
      simp only [backtraceWalk, get_root_node, hn, if_false, h1, h2]
      rw [ih fuel (by simpa using hfuel)]
      rfl

theorem path_walk_short {t : WordTree} {n : Nat} {ws : List Nat} (h : Path t n ws) :
    ∀ fuel, fuel < ws.length → backtraceWalk t fuel n = none := by
  induction h with
  | root => intro fuel hfuel; simp at hfuel
  | step q n v ws _ hn hq hnode ih =>
    intro fuel hfuel
    cases fuel with
    | zero => simp [backtraceWalk, get_root_node, hn]
    | succ fuel =>
      obtain ⟨h1, h2⟩ := getters_of_node hq hnode
      simp only [backtraceWalk, get_root_node, hn, if_false, h1, h2]
      rw [ih fuel (by simpa using hfuel)]
      rfl

theorem path_words_unique {t : WordTree} {n : Nat} {ws1 : List Nat} (h1 : Path t n ws1) :
    ∀ {ws2 : List Nat}, Path t n ws2 → ws1 = ws2 := by
  induction h1 with
  | root =>
    intro ws2 h2
    cases h2 with
    | root => rfl
    | step q _ v ws _ hn _ _ => exact absurd rfl hn
  | step q n v ws _ hn hq hnode ih =>
    intro ws2 h2
    cases h2 with
    | root => exact absurd rfl hn
    | step q2 _ v2 ws2 hpath2 _ hq2 hnode2 =>
      rw [hnode] at hnode2
      have hkey := Option.some.inj hnode2
      have hv : v = v2 := congrArg Prod.snd hkey
      have hqq : q = q2 := toInt32_injective hq hq2 (congrArg Prod.fst hkey)
      subst hv hqq
      rw [ih hpath2]

theorem path_node_unique {t : WordTree} (hinv : Inv t) {n1 : Nat} {ws : List Nat}
    (h1 : Path t n1 ws) : ∀ {n2 : Nat}, Path t n2 ws → n1 = n2 := by
  induction h1 with
  | root =>
    intro n2 h2
    cases h2
    rfl
  | step q n v ws _ hn hq hnode ih =>
    intro n2 h2
    cases h2 with
    | step q2 _ _ _ hpath2 _ hq2 hnode2 =>
      have hqq : q = q2 := ih hpath2
      subst hqq
      have e1 := (hinv.find_iff _ _).2 hnode
      have e2 := (hinv.find_iff _ _).2 hnode2
      rw [e1] at e2
      exact Option.some.inj e2

theorem insert_node_stores (t : WordTree) (hinv : Inv t) (p w : Nat)
    (hroom : t.m_nodeArray.length < 2 ^ 32) :
    (insert_node t p w).1.m_nodeArray[(insert_node t p w).2]? = some (toInt32 p, w) := by
  cases hf : mapFind t.m_nodeHash (toInt32 p, w) with
  | some j =>
    rw [insert_node_of_found t p w j hf]
    exact (hinv.find_iff _ _).1 hf
  | none =>
    rw [insert_node_of_absent t p w hf, Nat.mod_eq_of_lt hroom]
    exact List.getElem?_concat_length _ _

theorem length_le_extend (ws : List Nat) :
    ∀ (t : WordTree) (n : Nat), t.m_nodeArray.length ≤ (extend t n ws).1.m_nodeArray.length := by
  induction ws with
  | nil => intro t n; exact le_refl _
  | cons w ws ih =>
    intro t n
    exact le_trans (length_le_insert_node t n w) (ih _ _)

theorem length_extend_le (ws : List Nat) :
    ∀ (t : WordTree) (n : Nat),
      (extend t n ws).1.m_nodeArray.length ≤ t.m_nodeArray.length + ws.length := by
  induction ws with
  | nil => intro t n; exact le_refl _
  | cons w ws ih =>
    intro t n
    have h1 := ih (insert_node t n w).1 (insert_node t n w).2
    have h2 := length_insert_node_le t n w
    simp only [extend, List.length_cons]
    omega

theorem length_le_of_extends {t t1 : WordTree} (he : Extends t t1) :
    t.m_nodeArray.length ≤ t1.m_nodeArray.length := by
  induction he with
  | refl => exact le_refl _
  | insert t1 p w _ _ _ ih => exact le_trans ih (length_le_insert_node t1 p w)

theorem inv_of_extends {t t1 : WordTree} (he : Extends t t1) (hinv : Inv t)
    (hlen : t1.m_nodeArray.length ≤ 2 ^ 32) : Inv t1 := by
  induction he with
  | refl => exact hinv
  | insert t1 p w _ _ _ ih =>
    cases hf : mapFind t1.m_nodeHash (toInt32 p, w) with
    | some j =>
      rw [insert_node_of_found t1 p w j hf] at hlen ⊢
      exact ih hlen
    | none =>
      have hl : t1.m_nodeArray.length < 2 ^ 32 := by
        rw [insert_node_of_absent t1 p w hf] at hlen
        simp at hlen
        omega
      exact inv_insert_node t1 (ih (le_of_lt hl)) p w hl

theorem path_extend (ws : List Nat) :
    ∀ (t : WordTree) (n : Nat) (rs : List Nat), Inv t → Path t n rs → n < t.size →
      (extend t n ws).1.m_nodeArray.length < 2 ^ 32 →
      Path (extend t n ws).1 (extend t n ws).2 (ws.reverse ++ rs) ∧ Inv (extend t n ws).1 := by
  induction ws with
  | nil =>
    intro t n rs hinv h _ _
    exact ⟨by simpa [extend] using h, hinv⟩
  | cons w ws ih =>
    intro t n rs hinv h hn hlen
    have hlen1 : (insert_node t n w).1.m_nodeArray.length < 2 ^ 32 :=
      lt_of_le_of_lt (length_le_extend ws _ _) hlen
    have hlen0 : t.m_nodeArray.length < 2 ^ 32 :=
      lt_of_le_of_lt (length_le_insert_node t n w) hlen1
    have hinv1 := inv_insert_node t hinv n w hlen0
    have hst := insert_node_stores t hinv n w hlen0
    have hn32 : n < 2 ^ 32 := lt_trans hn (size_lt t)
    have hne : (insert_node t n w).2 ≠ 0 := by
      intro h0
      rw [h0, hinv1.root] at hst
      have hk := congrArg Prod.fst (Option.some.inj hst)
      simp only at hk
      have hn1 : n = 2 ^ 32 - 1 := by
        apply toInt32_injective hn32 (by decide)
        rw [← hk]
        decide
      have := size_lt t
      omega
    have hm : (insert_node t n w).2 < (insert_node t n w).1.size := by
      rw [size_eq_length hlen1]
      exact (List.getElem?_eq_some.1 hst).1
    have hp1 : Path (insert_node t n w).1 (insert_node t n w).2 (w :: rs) :=
      Path.step n _ w rs (path_insert_node h n w) hne hn32 hst
    have := ih _ _ _ hinv1 hp1 hm hlen
    simpa [extend, List.reverse_cons, List.append_assoc] using this

theorem root_lt_size {t : WordTree} (hinv : Inv t) (hlen : t.m_nodeArray.length < 2 ^ 32) :
    t.get_root_node < t.size := by
  rw [size_eq_length hlen]
  exact (List.getElem?_eq_some.1 hinv.root).1

/-- C2: word-sequence recovery.  In a tree built from `clear()` by
`insert_node` calls with existing parents, let `n` be the node obtained from
the root by `insert_node(current, w_i)` for the words `w_1 .. w_k` (the tree
afterwards staying within the 32-bit index space).  Then the walk from `n`
along `get_parent_node`, collecting `get_last_word` at the non-root nodes,
reaches the root and, reversed, yields `[w_1, ..., w_k]`; it takes exactly `k`
steps: any bound of at least `k` steps gives this result, no smaller bound
lets the walk finish. -/
theorem backtrace_recovers_words (t : WordTree) (hr : ReachableP t) (ws : List Nat)
    (hroom : t.m_nodeArray.length + ws.length < 2 ^ 32) :
    (∀ fuel, ws.length ≤ fuel →
      (backtraceWalk (extend t t.get_root_node ws).1 fuel
        (extend t t.get_root_node ws).2).map List.reverse = some ws) ∧
    (∀ fuel, fuel < ws.length →
      backtraceWalk (extend t t.get_root_node ws).1 fuel
        (extend t t.get_root_node ws).2 = none) := by
  have hinv : Inv t := wordTree_inv_of_reachable (reachable_of_reachableP hr) (by omega)
  have hlen : (extend t t.get_root_node ws).1.m_nodeArray.length < 2 ^ 32 :=
    lt_of_le_of_lt (length_extend_le ws t _) hroom
  have hpath := (path_extend ws t t.get_root_node [] hinv Path.root
    (root_lt_size hinv (by omega)) hlen).1
  rw [List.append_nil] at hpath
  constructor
  · intro fuel hfuel
    rw [path_walk hpath fuel (by simpa using hfuel)]
    simp
  · intro fuel hfuel
    exact path_walk_short hpath fuel (by simpa using hfuel)

/-- Word recovery at the tree holding the root and a child for word 5, for
the word list `[5, 7]`. -/
theorem backtrace_recovers_words_witness :
    (backtraceWalk (extend (insert_node (clear ⟨[], []⟩) 0 5).1 0 [5, 7]).1 2
      (extend (insert_node (clear ⟨[], []⟩) 0 5).1 0 [5, 7]).2).map List.reverse
      = some [5, 7] :=
  (backtrace_recovers_words (insert_node (clear ⟨[], []⟩) 0 5).1
    (ReachableP.insert _ 0 5 (ReachableP.clear _) (by decide) (by decide)) [5, 7]
    (by decide)).1 2 (by decide)

/-- C4: canonical nodes for word sequences.  In a tree built from `clear()`
by `insert_node` calls with existing parents, extend the root by the words
`ws1`; let any further `insert_node` calls with existing parents follow; then
extend the root by the words `ws2` (the tree staying within the 32-bit index
space).  The second extension reaches the node of the first if and only if
`ws2 = ws1`; in particular extending by the same words again returns the same
node index whatever was inserted in between. -/
theorem extend_canonical (t : WordTree) (hr : ReachableP t) (ws1 ws2 : List Nat)
    (t2 : WordTree) (hext : Extends (extend t t.get_root_node ws1).1 t2)
    (hroom : t2.m_nodeArray.length + ws2.length < 2 ^ 32) :
    (extend t2 t2.get_root_node ws2).2 = (extend t t.get_root_node ws1).2 ↔ ws2 = ws1 := by
  have hlen3 : (extend t2 t2.get_root_node ws2).1.m_nodeArray.length < 2 ^ 32 :=
    lt_of_le_of_lt (length_extend_le ws2 t2 _) hroom
  have hlen2 : t2.m_nodeArray.length < 2 ^ 32 := by omega
  have hlen1 : (extend t t.get_root_node ws1).1.m_nodeArray.length < 2 ^ 32 :=
    lt_of_le_of_lt (length_le_of_extends hext) hlen2
  have hlen0 : t.m_nodeArray.length < 2 ^ 32 :=
    lt_of_le_of_lt (length_le_extend ws1 t _) hlen1
  have hinv : Inv t := wordTree_inv_of_reachable (reachable_of_reachableP hr) (le_of_lt hlen0)
  obtain ⟨hpath1, hinv1⟩ := path_extend ws1 t t.get_root_node [] hinv Path.root
    (root_lt_size hinv hlen0) hlen1
  have hinv2 : Inv t2 := inv_of_extends hext hinv1 (le_of_lt hlen2)
  obtain ⟨hpath2, hinv3⟩ := path_extend ws2 t2 t2.get_root_node [] hinv2 Path.root
    (root_lt_size hinv2 hlen2) hlen3
  rw [List.append_nil] at hpath1 hpath2
  have hpath1' : Path (extend t2 t2.get_root_node ws2).1 (extend t t.get_root_node ws1).2
      ws1.reverse := path_extend_frame ws2 t2 _ (path_of_extends hext hpath1)
  constructor
  · intro h
    rw [h] at hpath2
    exact List.reverse_injective (path_words_unique hpath2 hpath1')
  · intro h
    subst h
    exact path_node_unique hinv3 hpath2 hpath1'

/-- Canonical nodes at the empty tree: the words `[5, 7]` are entered, then
the word 9 under the root, then `[5, 7]` again. -/
theorem extend_canonical_witness :
    (extend (insert_node (extend (clear ⟨[], []⟩) 0 [5, 7]).1 0 9).1 0 [5, 7]).2 =
      (extend (clear ⟨[], []⟩) 0 [5, 7]).2 ↔ [5, 7] = [5, 7] :=
  extend_canonical (clear ⟨[], []⟩) (ReachableP.clear _) [5, 7] [5, 7]
    (insert_node (extend (clear ⟨[], []⟩) 0 [5, 7]).1 0 9).1
    (Extends.insert _ _ 0 9 (Extends.refl _) (by decide) (by decide)) (by decide)

/-! ### The root node and the order of the nodes -/

theorem root_node_stable {t : WordTree} (hr : Reachable t) :
    t.m_nodeArray[0]? = some (-1, 2 ^ 32 - 1) := by
  induction hr with
  | clear t0 => rw [clear_eq]; rfl
  | insert t p w _ _ _ ih => exact getElem?_insert_node t p w 0 _ ih

/-- C16 as stated fails on the code: on the tree just constructed,
`get_parent_node(get_root_node())` and `get_last_word(get_root_node())` return
the value `2^32 - 1`; neither call fails. -/
theorem root_getters_do_not_fail :
    get_parent_node ctor (get_root_node ctor) = .ok (2 ^ 32 - 1) ∧
    get_last_word ctor (get_root_node ctor) = .ok (2 ^ 32 - 1) ∧
    ¬ (∃ e, get_parent_node ctor (get_root_node ctor) = .error e) ∧
    ¬ (∃ e, get_last_word ctor (get_root_node ctor) = .error e) := by
  have h1 : get_parent_node ctor (get_root_node ctor) = .ok (2 ^ 32 - 1) := rfl
  have h2 : get_last_word ctor (get_root_node ctor) = .ok (2 ^ 32 - 1) := rfl
  refine ⟨h1, h2, ?_, ?_⟩
  · rintro ⟨e, he⟩
    rw [h1] at he
    exact absurd he (by simp)
  · rintro ⟨e, he⟩
    rw [h2] at he
    exact absurd he (by simp)

/-- C16, amended: `get_parent_node` and `get_last_word` hold no check of their
argument.  In every tree built from `clear()` by `insert_node` calls, called
on the root they return the sentinel stored in node 0: the parent
`(unsigned)-1 = 2^32 - 1` and the word `(unsigned)-1 = 2^32 - 1`. -/
theorem root_getters_return_sentinel (t : WordTree) (hr : Reachable t) :
    get_parent_node t (get_root_node t) = .ok (2 ^ 32 - 1) ∧
    get_last_word t (get_root_node t) = .ok (2 ^ 32 - 1) := by
  have h := root_node_stable hr
  unfold get_parent_node get_last_word get_root_node
  rw [h]
  exact ⟨rfl, rfl⟩

/-- The root's sentinel in a tree holding the root and a child for word 7. -/
theorem root_getters_return_sentinel_witness :
    get_parent_node (insert_node (clear ⟨[], []⟩) 0 7).1
        (get_root_node (insert_node (clear ⟨[], []⟩) 0 7).1) = .ok (2 ^ 32 - 1) ∧
      get_last_word (insert_node (clear ⟨[], []⟩) 0 7).1
        (get_root_node (insert_node (clear ⟨[], []⟩) 0 7).1) = .ok (2 ^ 32 - 1) :=
  root_getters_return_sentinel (insert_node (clear ⟨[], []⟩) 0 7).1
    (Reachable.insert _ 0 7 (Reachable.clear _) (by decide) (by decide))

theorem parent_lt_of_reachableP {t : WordTree} (hr : ReachableP t) :
    ∀ (i : Nat) (nd : Node), 0 < i → t.m_nodeArray[i]? = some nd → toUInt32 nd.1 < i := by
  induction hr with
  | clear t0 =>
    intro i nd hi h
    rw [clear_eq] at h
    cases i with
    | zero => omega
    | succ i => simp at h
  | insert t p w _ hp _ ih =>
    intro i nd hi h
    cases hf : mapFind t.m_nodeHash (toInt32 p, w) with
    | some j =>
      rw [insert_node_of_found t p w j hf] at h
      exact ih i nd hi h
    | none =>
      rw [insert_node_of_absent t p w hf] at h
      simp only at h
      by_cases hlt : i < t.m_nodeArray.length
      · rw [List.getElem?_append_left hlt] at h
        exact ih i nd hi h
      · have hlen : i - t.m_nodeArray.length < 1 := by
          have := (List.getElem?_eq_some.1 h).1
          simp only [List.length_append, List.length_singleton] at this
          omega
        have hi2 : i = t.m_nodeArray.length := by omega
        rw [hi2, List.getElem?_concat_length] at h
        rw [← Option.some.inj h, hi2]
        show toUInt32 (toInt32 p) < _
        rw [toUInt32_toInt32]
        have h1 : p % 2 ^ 32 ≤ p := Nat.mod_le _ _
        have h2 : t.size ≤ t.m_nodeArray.length := Nat.mod_le _ _
        omega

theorem backtraceWalk_mono (t : WordTree) (fuel : Nat) :
    ∀ (n : Nat) (ws : List Nat) (fuel1 : Nat), backtraceWalk t fuel n = some ws →
      fuel ≤ fuel1 → backtraceWalk t fuel1 n = some ws := by
  induction fuel with
  | zero =>
    intro n ws fuel1 h _
    by_cases hn : n = t.get_root_node
    · simp only [backtraceWalk, hn, if_true] at h
      cases fuel1 <;> simp [backtraceWalk, hn, h]
    · simp [backtraceWalk, hn] at h
  | succ fuel ih =>
    intro n ws fuel1 h hle
    obtain ⟨f1, rfl⟩ : ∃ f1, fuel1 = f1 + 1 := ⟨fuel1 - 1, by omega⟩
    by_cases hn : n = t.get_root_node
    · simp only [backtraceWalk, hn, if_true] at h ⊢
      exact h
    · simp only [backtraceWalk, hn, if_false] at h ⊢
      cases hw : t.get_last_word n with
      | error e => simp [hw] at h
      | ok w =>
        cases hp : t.get_parent_node n with
        | error e => simp [hw, hp] at h
        | ok p =>
          simp only [hw, hp] at h ⊢
          cases hrec : backtraceWalk t fuel p with
          | none => simp [hrec] at h
          | some ws1 =>
            rw [hrec] at h
            rw [ih p ws1 f1 hrec (by omega)]
            exact h

/-- C19: parents come before children.  In every tree built from `clear()`
by `insert_node` calls whose parent argument is an existing node index, every
node index `n` other than the root has `get_parent_node(n) < n`; and from
every node the walk along `get_parent_node` reaches the root within `n`
steps, so the backtrace walk terminates. -/
theorem parent_before_child (t : WordTree) (hr : ReachableP t) :
    (∀ n, 0 < n → n < t.m_nodeArray.length →
      ∃ p, get_parent_node t n = .ok p ∧ p < n) ∧
    (∀ n, n < t.m_nodeArray.length → ∃ ws, backtraceWalk t n n = some ws) := by
  have hpar : ∀ n, 0 < n → n < t.m_nodeArray.length →
      ∃ p, get_parent_node t n = .ok p ∧ p < n := by
    intro n hn hlt
    have hget := List.getElem?_eq_getElem hlt
    refine ⟨toUInt32 t.m_nodeArray[n].1, ?_, parent_lt_of_reachableP hr n _ hn hget⟩
    unfold get_parent_node
    rw [hget]
  refine ⟨hpar, ?_⟩
  intro n
  induction n using Nat.strong_induction_on with
  | _ n ih =>
    intro hlt
    rcases Nat.eq_zero_or_pos n with h0 | hpos
    · subst h0
      exact ⟨[], by simp [backtraceWalk, get_root_node]⟩
    · obtain ⟨p, hp, hpn⟩ := hpar n hpos hlt
      obtain ⟨ws, hws⟩ := ih p hpn (lt_trans hpn hlt)
      obtain ⟨f, rfl⟩ : ∃ f, n = f + 1 := ⟨n - 1, by omega⟩
      have hw : get_last_word t (f + 1) = .ok t.m_nodeArray[f + 1].2 := by
        unfold get_last_word
        rw [List.getElem?_eq_getElem hlt]
      refine ⟨t.m_nodeArray[f + 1].2 :: ws, ?_⟩
      have hne : ¬ (f + 1 = t.get_root_node) := by
        unfold get_root_node
        omega
      simp only [backtraceWalk, hne, if_false, hw, hp]
      rw [backtraceWalk_mono t p p ws f hws (by omega)]
      rfl

/-- Parents before children in the tree holding the words `[5, 7]`. -/
theorem parent_before_child_witness :
    ∃ ws, backtraceWalk (extend (clear ⟨[], []⟩) 0 [5, 7]).1 2 2 = some ws :=
  (parent_before_child (extend (clear ⟨[], []⟩) 0 [5, 7]).1
    (ReachableP.insert _ 1 7 (ReachableP.insert _ 0 5 (ReachableP.clear _) (by decide)
      (by decide)) (by decide) (by decide))).2 2 (by decide)

end WordTree

/-! ## Floating point: what survives the conversion to `float` -/

theorem read_back_iff (F : FloatModel) (hF : F.Exact) (d : F.Dbl) :
    F.toDouble (F.toFloat d) = d ↔ F.Representable d := by
  constructor
  · intro h
    exact ⟨F.toFloat d, h⟩
  · rintro ⟨x, rfl⟩
    exact hF x

theorem roundShift_exact (q shift : Nat) : roundShift (q * 2 ^ shift) shift = q := by
  have hp : 0 < 2 ^ shift := Nat.pow_pos (by decide)
  unfold roundShift
  simp only [Nat.mul_mod_left, Nat.mul_div_cancel _ hp]
  rw [if_neg]
  rintro (h | ⟨h, _⟩) <;> omega

theorem narrow_widen_normal (s e f : Nat) (hs : s < 2) (he0 : 0 < e) (he : e < 255)
    (hf : f < 2 ^ 23) :
    narrowBits (s * 2 ^ 63 + (e + 896) * 2 ^ 52 + f * 2 ^ 29) = s * 2 ^ 31 + e * 2 ^ 23 + f := by
  have h1 : (s * 2 ^ 63 + (e + 896) * 2 ^ 52 + f * 2 ^ 29) / 2 ^ 63 % 2 = s := by omega
  have h2 : (s * 2 ^ 63 + (e + 896) * 2 ^ 52 + f * 2 ^ 29) / 2 ^ 52 % 2 ^ 11 = e + 896 := by omega
  have h3 : (s * 2 ^ 63 + (e + 896) * 2 ^ 52 + f * 2 ^ 29) % 2 ^ 52 = f * 2 ^ 29 := by omega
  have h4 : 2 ^ 52 + f * 2 ^ 29 = (2 ^ 23 + f) * 2 ^ 29 := by omega
  unfold narrowBits
  simp only [h1, h2, h3]
  rw [if_neg (by omega), if_neg (by omega), if_pos (by omega), h4, roundShift_exact]
  omega

theorem narrow_widen_subnormal (s k f : Nat) (hs : s < 2) (hk : k ≤ 22)
    (hlo : 2 ^ k ≤ f) (hhi : f < 2 ^ (k + 1)) :
    narrowBits (s * 2 ^ 63 + (k + 874) * 2 ^ 52 + (f - 2 ^ k) * 2 ^ (52 - k)) =
      s * 2 ^ 31 + f := by
  have hP : 2 ^ k * 2 ^ (52 - k) = 2 ^ 52 := by
    rw [← Nat.pow_add]
    congr 1
    omega
  have hsum : (f - 2 ^ k) * 2 ^ (52 - k) + 2 ^ k * 2 ^ (52 - k) = f * 2 ^ (52 - k) := by
    rw [← Nat.add_mul, Nat.sub_add_cancel hlo]
  have hlt : (f - 2 ^ k) * 2 ^ (52 - k) < 2 ^ 52 := by
    rw [← hP]
    apply Nat.mul_lt_mul_of_pos_right
    · rw [Nat.pow_succ] at hhi
      omega
    · exact Nat.pow_pos (by decide)
  have hm : 2 ^ 52 + (f - 2 ^ k) * 2 ^ (52 - k) = f * 2 ^ (52 - k) := by
    rw [← hsum, hP, Nat.add_comm]
  have hsh : 926 - (k + 874) = 52 - k := by omega
  generalize hR : (f - 2 ^ k) * 2 ^ (52 - k) = R at hlt hm
  have h1 : (s * 2 ^ 63 + (k + 874) * 2 ^ 52 + R) / 2 ^ 63 % 2 = s := by omega
  have h2 : (s * 2 ^ 63 + (k + 874) * 2 ^ 52 + R) / 2 ^ 52 % 2 ^ 11 = k + 874 := by omega
  have h3 : (s * 2 ^ 63 + (k + 874) * 2 ^ 52 + R) % 2 ^ 52 = R := by omega
  unfold narrowBits
  simp only [h1, h2, h3]
  rw [if_neg (by omega), if_neg (by omega), if_neg (by omega), hm, hsh, roundShift_exact]

theorem narrow_widen_special (s : Nat) (hs : s < 2) :
    narrowBits (s * 2 ^ 63) = s * 2 ^ 31 ∧
    narrowBits (s * 2 ^ 63 + 2047 * 2 ^ 52) = s * 2 ^ 31 + 255 * 2 ^ 23 := by
  have hs2 : s = 0 ∨ s = 1 := by omega
  rcases hs2 with rfl | rfl <;> exact ⟨by decide, by decide⟩

theorem narrow_widen_nan (s f : Nat) (hs : s < 2) :
    narrowBits (s * 2 ^ 63 + 2047 * 2 ^ 52 + (f % 2 ^ 22 + 2 ^ 22) * 2 ^ 29) =
      s * 2 ^ 31 + 255 * 2 ^ 23 + 2 ^ 22 + f % 2 ^ 22 := by
  have h1 : (s * 2 ^ 63 + 2047 * 2 ^ 52 + (f % 2 ^ 22 + 2 ^ 22) * 2 ^ 29) / 2 ^ 63 % 2 = s := by
    omega
  have h2 : (s * 2 ^ 63 + 2047 * 2 ^ 52 + (f % 2 ^ 22 + 2 ^ 22) * 2 ^ 29) / 2 ^ 52 % 2 ^ 11
      = 2047 := by omega
  have h3 : (s * 2 ^ 63 + 2047 * 2 ^ 52 + (f % 2 ^ 22 + 2 ^ 22) * 2 ^ 29) % 2 ^ 52 =
      (f % 2 ^ 22 + 2 ^ 22) * 2 ^ 29 := by omega
  unfold narrowBits
  simp only [h1, h2, h3]
  rw [if_pos trivial, if_neg (by omega)]
  omega

/-- A `float` pattern that is not a NaN converts to `double` and back to itself. -/
theorem narrowBits_widenBits (x : Nat) (hx : x < 2 ^ 32)
    (hnum : ¬ ((x / 2 ^ 23) % 2 ^ 8 = 255 ∧ x % 2 ^ 23 ≠ 0)) :
    narrowBits (widenBits x) = x := by
  have hs : x / 2 ^ 31 % 2 < 2 := Nat.mod_lt _ (by decide)
  have hf : x % 2 ^ 23 < 2 ^ 23 := Nat.mod_lt _ (by decide)
  have he : x / 2 ^ 23 % 2 ^ 8 < 2 ^ 8 := Nat.mod_lt _ (by decide)
  have hx2 : x = x / 2 ^ 31 % 2 * 2 ^ 31 + x / 2 ^ 23 % 2 ^ 8 * 2 ^ 23 + x % 2 ^ 23 := by omega
  unfold widenBits
  dsimp only
  split
  · rename_i h255
    split
    · rename_i hf0
      rw [(narrow_widen_special _ hs).2]
      omega
    · rename_i hf0
      exact absurd ⟨h255, hf0⟩ hnum
  · rename_i h255
    split
    · rename_i he0
      split
      · rename_i hf0
        rw [(narrow_widen_special _ hs).1]
        omega
      · rename_i hf0
        have hlog : Nat.log2 (x % 2 ^ 23) < 23 := (Nat.log2_lt hf0).2 hf
        rw [narrow_widen_subnormal _ _ _ hs (by omega) (Nat.log2_self_le hf0) Nat.lt_log2_self]
        omega
    · rename_i he0
      rw [narrow_widen_normal _ _ _ hs (by omega) (by omega) hf]
      omega

theorem widenBits_mod (x : Nat) : widenBits (x % 2 ^ 32) = widenBits x := by
  have h1 : x % 2 ^ 32 / 2 ^ 31 % 2 = x / 2 ^ 31 % 2 := by omega
  have h2 : x % 2 ^ 32 / 2 ^ 23 % 2 ^ 8 = x / 2 ^ 23 % 2 ^ 8 := by omega
  have h3 : x % 2 ^ 32 % 2 ^ 23 = x % 2 ^ 23 := by omega
  unfold widenBits
  simp only [h1, h2, h3]

/-- The conversion to `float` is exact on the values of `float`. -/
theorem narrowBits_exact (x : Nat) : widenBits (narrowBits (widenBits x)) = widenBits x := by
  rw [← widenBits_mod x]
  have hx : x % 2 ^ 32 < 2 ^ 32 := Nat.mod_lt _ (by decide)
  generalize x % 2 ^ 32 = y at hx
  by_cases hnum : (y / 2 ^ 23) % 2 ^ 8 = 255 ∧ y % 2 ^ 23 ≠ 0
  · have hs : y / 2 ^ 31 % 2 < 2 := Nat.mod_lt _ (by decide)
    have hw : widenBits y = y / 2 ^ 31 % 2 * 2 ^ 63 + 2047 * 2 ^ 52 +
        (y % 2 ^ 23 % 2 ^ 22 + 2 ^ 22) * 2 ^ 29 := by
      unfold widenBits
      simp only [hnum.1, if_true, if_neg hnum.2]
    rw [hw, narrow_widen_nan _ _ hs]
    have h1 : (y / 2 ^ 31 % 2 * 2 ^ 31 + 255 * 2 ^ 23 + 2 ^ 22 + y % 2 ^ 23 % 2 ^ 22) / 2 ^ 31 % 2
        = y / 2 ^ 31 % 2 := by omega
    have h2 : (y / 2 ^ 31 % 2 * 2 ^ 31 + 255 * 2 ^ 23 + 2 ^ 22 + y % 2 ^ 23 % 2 ^ 22) / 2 ^ 23
        % 2 ^ 8 = 255 := by omega
    have h3 : (y / 2 ^ 31 % 2 * 2 ^ 31 + 255 * 2 ^ 23 + 2 ^ 22 + y % 2 ^ 23 % 2 ^ 22) % 2 ^ 23
        = 2 ^ 22 + y % 2 ^ 23 % 2 ^ 22 := by omega
    unfold widenBits
    simp only [h1, h2, h3]
    rw [if_pos trivial, if_neg (by omega)]
    have h4 : (2 ^ 22 + y % 2 ^ 23 % 2 ^ 22) % 2 ^ 22 = y % 2 ^ 23 % 2 ^ 22 := by omega
    rw [h4]
  · rw [narrowBits_widenBits y hx hnum]

theorem ieeeModel_exact : ieeeModel.Exact := narrowBits_exact

theorem ieee_conversions :
    widenBits (narrowBits doubleOne) = doubleOne ∧
    widenBits (narrowBits doublePointOne) = floatPointOne ∧
    widenBits (narrowBits doubleMinus1e30) = floatMinus1e30 := by
  decide

/-! ## Heaps -/

theorem isHeap_nil : IsHeap [] := by
  intro i _ hi
  simp at hi

theorem isHeap_root_le {x : Nat} {l : List Nat} (h : IsHeap (x :: l)) :
    ∀ i, i < (x :: l).length → x ≤ (x :: l).getD i 0 := by
  intro i
  induction i using Nat.strong_induction_on with
  | _ i ih =>
    intro hi
    rcases Nat.eq_zero_or_pos i with h0 | hpos
    · subst h0
      simp
    · have hpar : (i - 1) / 2 < i := by omega
      have h1 := ih ((i - 1) / 2) hpar (lt_trans hpar hi)
      have h2 := h i hpos hi
      omega

theorem isHeap_head_le {x : Nat} {l : List Nat} (h : IsHeap (x :: l)) :
    ∀ y ∈ l, x ≤ y := by
  intro y hy
  obtain ⟨n, hn, rfl⟩ := List.getElem_of_mem hy
  have := isHeap_root_le h (n + 1) (by simpa using hn)
  rw [List.getD_cons_succ, List.getD_eq_getElem _ _ hn] at this
  exact this

theorem length_swapAt (l : List Nat) (i j : Nat) : (swapAt l i j).length = l.length := by
  simp [swapAt]

theorem getD_swapAt (l : List Nat) {i j : Nat} (hi : i < l.length) (hj : j < l.length) (k : Nat) :
    (swapAt l i j).getD k 0 =
      if k = j then l.getD i 0 else if k = i then l.getD j 0 else l.getD k 0 := by
  unfold swapAt
  simp only [List.getD_eq_getElem?_getD, List.getElem?_set, List.length_set]
  by_cases h1 : k = j
  · subst h1
    simp [hj]
  · by_cases h2 : k = i
    · subst h2
      have : ¬ j = k := fun h => h1 h.symm
      simp [this, hi, h1]
    · have e1 : ¬ j = k := fun h => h1 h.symm
      have e2 : ¬ i = k := fun h => h2 h.symm
      simp [e1, e2, h1, h2]

theorem swapAt_perm (l : List Nat) {i j : Nat} (hi : i < l.length) (hj : j < l.length) :
    (swapAt l i j).Perm l := by
  rw [List.perm_iff_count]
  intro a
  unfold swapAt
  rw [List.count_set _ _ _ _ (by simpa using hj), List.count_set _ _ _ _ hi]
  simp only [List.getD_eq_getElem _ _ hi, List.getD_eq_getElem _ _ hj, List.getElem_set]
  have h1 : 0 < List.count l[i] l := List.count_pos_iff.2 (List.getElem_mem _)
  have h2 : 0 < List.count l[j] l := List.count_pos_iff.2 (List.getElem_mem _)
  by_cases hij : i = j
  · subst hij
    simp only [if_true, beq_iff_eq]
    split <;> rename_i h
    · rw [h] at h1; omega
    · omega
  · simp only [hij, if_false, beq_iff_eq]
    by_cases ha : l[i] = a
    · by_cases hb : l[j] = a
      · simp only [ha, hb, if_true]
        rw [ha] at h1
        omega
      · simp only [ha, hb, if_true, if_false]
        rw [ha] at h1
        omega
    · by_cases hb : l[j] = a
      · simp only [ha, hb, if_true, if_false]
        rw [hb] at h2
        omega
      · simp only [ha, hb, if_false]
        omega

theorem siftUp_length (fuel : Nat) : ∀ (l : List Nat) (i : Nat),
    (siftUp fuel l i).length = l.length := by
  induction fuel with
  | zero => intro l i; rfl
  | succ fuel ih =>
    intro l i
    unfold siftUp
    split
    · rw [ih, length_swapAt]
    · rfl

theorem siftUp_perm (fuel : Nat) : ∀ (l : List Nat) (i : Nat), i < l.length →
    (siftUp fuel l i).Perm l := by
  induction fuel with
  | zero => intro l i _; exact List.Perm.refl _
  | succ fuel ih =>
    intro l i hi
    unfold siftUp
    split
    · have hp : (i - 1) / 2 < l.length := by omega
      exact (ih _ _ (by rw [length_swapAt]; exact hp)).trans (swapAt_perm l hi hp)
    · exact List.Perm.refl _

theorem upInv_swap {l : List Nat} {i : Nat} (hi : i < l.length) (h0 : 0 < i)
    (hgt : l.getD ((i - 1) / 2) 0 > l.getD i 0) (hinv : UpInv l i) :
    UpInv (swapAt l i ((i - 1) / 2)) ((i - 1) / 2) := by
  have hp : (i - 1) / 2 < l.length := by omega
  have hpi : (i - 1) / 2 ≠ i := by omega
  constructor
  · intro j hj0 hjlt hjp
    rw [length_swapAt] at hjlt
    have A := hinv.1 j hj0 hjlt
    have B := hinv.2 j hj0 hjlt
    rw [getD_swapAt l hi hp, getD_swapAt l hi hp, if_neg hjp]
    by_cases hji : j = i
    · subst hji
      rw [if_pos rfl, if_pos rfl]
      omega
    · rw [if_neg hji]
      have A1 := A hji
      by_cases hq : (j - 1) / 2 = (i - 1) / 2
      · rw [if_pos hq]
        rw [hq] at A1
        omega
      · rw [if_neg hq]
        by_cases hq2 : (j - 1) / 2 = i
        · rw [if_pos hq2]
          exact B hq2 h0
        · rw [if_neg hq2]
          exact A1
  · intro j hj0 hjlt hjp hp0
    rw [length_swapAt] at hjlt
    have A := hinv.1 j hj0 hjlt
    have C := hinv.1 ((i - 1) / 2) hp0 hp hpi
    have hr1 : ((i - 1) / 2 - 1) / 2 ≠ (i - 1) / 2 := by omega
    have hr2 : ((i - 1) / 2 - 1) / 2 ≠ i := by omega
    have hjp2 : j ≠ (i - 1) / 2 := by omega
    rw [getD_swapAt l hi hp, getD_swapAt l hi hp, if_neg hr1, if_neg hr2, if_neg hjp2]
    by_cases hji : j = i
    · rw [if_pos hji]
      exact C
    · rw [if_neg hji]
      have A1 := A hji
      rw [hjp] at A1
      omega

theorem isHeap_of_upInv_zero {l : List Nat} (h : UpInv l 0) : IsHeap l := by
  intro j hj0 hjlt
  have := h.1 j hj0 hjlt (by omega)
  omega

theorem siftUp_isHeap (fuel : Nat) : ∀ (l : List Nat) (i : Nat), i ≤ fuel → i < l.length →
    UpInv l i → IsHeap (siftUp fuel l i) := by
  induction fuel with
  | zero =>
    intro l i hif _ hinv
    have : i = 0 := by omega
    subst this
    exact isHeap_of_upInv_zero hinv
  | succ fuel ih =>
    intro l i hif hi hinv
    unfold siftUp
    split
    · rename_i hc
      have hp : (i - 1) / 2 < l.length := by omega
      exact ih _ _ (by omega) (by rw [length_swapAt]; exact hp) (upInv_swap hi hc.1 hc.2 hinv)
    · rename_i hc
      intro j hj0 hjlt
      by_cases hji : j = i
      · subst hji
        have : ¬ l.getD ((j - 1) / 2) 0 > l.getD j 0 := fun h => hc ⟨hj0, h⟩
        exact this
      · have := hinv.1 j hj0 hjlt hji
        omega

theorem binPush_perm (l : List Nat) (x : Nat) : (binPush (l ++ [x])).Perm (l ++ [x]) :=
  siftUp_perm _ _ _ (by simp)

theorem binPush_isHeap (l : List Nat) (x : Nat) (h : IsHeap l) : IsHeap (binPush (l ++ [x])) := by
  apply siftUp_isHeap
  · omega
  · simp
  · have hlen : (l ++ [x]).length - 1 = l.length := by simp
    rw [hlen]
    constructor
    · intro j hj0 hjlt hji
      have hj : j < l.length := by
        simp only [List.length_append, List.length_singleton] at hjlt
        omega
      have hq : (j - 1) / 2 < l.length := by omega
      have := h j hj0 hj
      rw [List.getD_eq_getElem?_getD, List.getD_eq_getElem?_getD,
        List.getElem?_append_left hq, List.getElem?_append_left hj,
        ← List.getD_eq_getElem?_getD, ← List.getD_eq_getElem?_getD]
      omega
    · intro j hj0 hjlt hji _
      simp only [List.length_append, List.length_singleton] at hjlt
      omega

theorem smallest_eq_self {l : List Nat} {i : Nat} (h : smallest l i = i) :
    ∀ j, 0 < j → j < l.length → (j - 1) / 2 = i → l.getD i 0 ≤ l.getD j 0 := by
  intro j hj0 hjlt hji
  have hj : j = 2 * i + 1 ∨ j = 2 * i + 2 := by omega
  unfold smallest at h
  dsimp only at h
  by_cases hc1 : 2 * i + 1 < l.length ∧ l.getD i 0 > l.getD (2 * i + 1) 0
  · rw [if_pos hc1] at h
    by_cases hc2 : 2 * i + 2 < l.length ∧ l.getD (2 * i + 1) 0 > l.getD (2 * i + 2) 0
    · rw [if_pos hc2] at h
      omega
    · rw [if_neg hc2] at h
      omega
  · rw [if_neg hc1] at h
    by_cases hc2 : 2 * i + 2 < l.length ∧ l.getD i 0 > l.getD (2 * i + 2) 0
    · rw [if_pos hc2] at h
      omega
    · rcases hj with hj | hj
      · subst hj
        have : ¬ l.getD i 0 > l.getD (2 * i + 1) 0 := fun hgt => hc1 ⟨hjlt, hgt⟩
        omega
      · subst hj
        have : ¬ l.getD i 0 > l.getD (2 * i + 2) 0 := fun hgt => hc2 ⟨hjlt, hgt⟩
        omega

theorem smallest_ne_self {l : List Nat} {i : Nat} (h : smallest l i ≠ i) :
    smallest l i < l.length ∧ (smallest l i - 1) / 2 = i ∧ 0 < smallest l i ∧
    l.getD (smallest l i) 0 < l.getD i 0 ∧
    ∀ j, 0 < j → j < l.length → (j - 1) / 2 = i → l.getD (smallest l i) 0 ≤ l.getD j 0 := by
  unfold smallest at h ⊢
  dsimp only at h ⊢
  by_cases hc1 : 2 * i + 1 < l.length ∧ l.getD i 0 > l.getD (2 * i + 1) 0
  · rw [if_pos hc1] at h ⊢
    by_cases hc2 : 2 * i + 2 < l.length ∧ l.getD (2 * i + 1) 0 > l.getD (2 * i + 2) 0
    · rw [if_pos hc2]
      refine ⟨hc2.1, by omega, by omega, by omega, ?_⟩
      intro j hj0 hjlt hji
      have hj : j = 2 * i + 1 ∨ j = 2 * i + 2 := by omega
      rcases hj with hj | hj <;> subst hj <;> omega
    · rw [if_neg hc2]
      refine ⟨hc1.1, by omega, by omega, by omega, ?_⟩
      intro j hj0 hjlt hji
      have hj : j = 2 * i + 1 ∨ j = 2 * i + 2 := by omega
      rcases hj with hj | hj
      · subst hj; omega
      · subst hj
        have : ¬ l.getD (2 * i + 1) 0 > l.getD (2 * i + 2) 0 := fun hgt => hc2 ⟨hjlt, hgt⟩
        omega
  · rw [if_neg hc1] at h ⊢
    by_cases hc2 : 2 * i + 2 < l.length ∧ l.getD i 0 > l.getD (2 * i + 2) 0
    · rw [if_pos hc2]
      refine ⟨hc2.1, by omega, by omega, by omega, ?_⟩
      intro j hj0 hjlt hji
      have hj : j = 2 * i + 1 ∨ j = 2 * i + 2 := by omega
      rcases hj with hj | hj
      · subst hj
        have : ¬ l.getD i 0 > l.getD (2 * i + 1) 0 := fun hgt => hc1 ⟨hjlt, hgt⟩
        omega
      · subst hj; omega
    · rw [if_neg hc2] at h
      exact absurd rfl h

theorem downInv_swap {k : Nat} {l : List Nat} {i m : Nat} (hm : m < l.length)
    (hmi : (m - 1) / 2 = i) (hm0 : 0 < m) (hlt : l.getD m 0 < l.getD i 0)
    (hmin : ∀ j, 0 < j → j < l.length → (j - 1) / 2 = i → l.getD m 0 ≤ l.getD j 0)
    (hk : k ≤ i) (hinv : DownInv k l i) : DownInv k (swapAt l i m) m := by
  have hi : i < l.length := by omega
  have him : i ≠ m := by omega
  constructor
  · intro j hj0 hjlt hkj hjm
    rw [length_swapAt] at hjlt
    rw [getD_swapAt l hi hm, getD_swapAt l hi hm, if_neg hjm]
    by_cases hq : (j - 1) / 2 = i
    · rw [if_pos hq]
      by_cases hjm2 : j = m
      · rw [if_pos hjm2]
        omega
      · rw [if_neg hjm2, if_neg (by omega : ¬ j = i)]
        exact hmin j hj0 hjlt hq
    · rw [if_neg hq]
      have hjm2 : ¬ j = m := by
        intro h
        rw [h] at hq
        exact hq hmi
      rw [if_neg hjm2]
      by_cases hji : j = i
      · rw [if_pos hji]
        subst hji
        exact hinv.2 m hm0 hm hmi hj0 hkj
      · rw [if_neg hji]
        exact hinv.1 j hj0 hjlt hkj hq
  · intro j hj0 hjlt hjm _ _
    rw [length_swapAt] at hjlt
    rw [getD_swapAt l hi hm, getD_swapAt l hi hm, hmi, if_neg him, if_pos rfl,
      if_neg (by omega : ¬ j = m), if_neg (by omega : ¬ j = i)]
    have := hinv.1 j hj0 hjlt (by omega) (by omega)
    rw [hjm] at this
    exact this

theorem siftDown_length (fuel : Nat) : ∀ (l : List Nat) (i : Nat),
    (siftDown fuel l i).length = l.length := by
  induction fuel with
  | zero => intro l i; rfl
  | succ fuel ih =>
    intro l i
    unfold siftDown
    split
    · rfl
    · rw [ih, length_swapAt]

theorem siftDown_perm (fuel : Nat) : ∀ (l : List Nat) (i : Nat),
    (siftDown fuel l i).Perm l := by
  induction fuel with
  | zero => intro l i; exact List.Perm.refl _
  | succ fuel ih =>
    intro l i
    unfold siftDown
    split
    · exact List.Perm.refl _
    · rename_i hne
      obtain ⟨h1, h2, h3, _, _⟩ := smallest_ne_self hne
      exact (ih _ _).trans (swapAt_perm l (by omega) h1)

theorem siftDown_heapFrom (k : Nat) (fuel : Nat) : ∀ (l : List Nat) (i : Nat),
    l.length ≤ fuel + i → k ≤ i → DownInv k l i → HeapFrom k (siftDown fuel l i) := by
  induction fuel with
  | zero =>
    intro l i hlen _ hinv
    simp only [siftDown]
    intro j hj0 hjlt hkj
    exact hinv.1 j hj0 hjlt hkj (by omega)
  | succ fuel ih =>
    intro l i hlen hk hinv
    unfold siftDown
    split
    · rename_i heq
      intro j hj0 hjlt hkj
      by_cases hq : (j - 1) / 2 = i
      · rw [hq]
        exact smallest_eq_self heq j hj0 hjlt hq
      · exact hinv.1 j hj0 hjlt hkj hq
    · rename_i hne
      obtain ⟨h1, h2, h3, h4, h5⟩ := smallest_ne_self hne
      exact ih _ _ (by rw [length_swapAt]; omega) (by omega)
        (downInv_swap h1 h2 h3 h4 h5 hk hinv)

theorem makeLoop_length (k : Nat) : ∀ l : List Nat, (makeLoop k l).length = l.length := by
  induction k with
  | zero => intro l; rfl
  | succ k ih => intro l; simp only [makeLoop]; rw [ih, siftDown_length]

theorem makeLoop_perm (k : Nat) : ∀ l : List Nat, (makeLoop k l).Perm l := by
  induction k with
  | zero => intro l; exact List.Perm.refl _
  | succ k ih => intro l; exact (ih _).trans (siftDown_perm _ _ _)

theorem makeLoop_isHeap (k : Nat) : ∀ l : List Nat, HeapFrom k l → IsHeap (makeLoop k l) := by
  induction k with
  | zero =>
    intro l h j hj0 hjlt
    have := h j hj0 hjlt (Nat.zero_le _)
    simp only [makeLoop]
    omega
  | succ k ih =>
    intro l h
    simp only [makeLoop]
    apply ih
    apply siftDown_heapFrom k l.length l k (by omega) (le_refl _)
    constructor
    · intro j hj0 hjlt hkj hne
      exact h j hj0 hjlt (by omega)
    · intro j _ _ _ h0 hk
      omega

theorem binMake_perm (l : List Nat) : (binMake l).Perm l := makeLoop_perm _ _

theorem binMake_isHeap (l : List Nat) : IsHeap (binMake l) := by
  apply makeLoop_isHeap
  intro j hj0 hjlt hk
  omega

theorem binPop_spec (x : Nat) (l : List Nat) (h : IsHeap (x :: l)) :
    ∃ r, binPop (x :: l) = r ++ [x] ∧ r.Perm l ∧ IsHeap r := by
  cases hl : l.getLast? with
  | none =>
    have : l = [] := List.getLast?_eq_none_iff.1 hl
    subst this
    exact ⟨[], rfl, List.Perm.refl _, fun i _ hi => by simp at hi⟩
  | some y =>
    have hsplit : l.dropLast ++ [y] = l := List.dropLast_append_getLast? y hl
    refine ⟨siftDown l.length (y :: l.dropLast) 0, by simp only [binPop, hl], ?_, ?_⟩
    · refine (siftDown_perm _ _ _).trans ?_
      have : (y :: l.dropLast).Perm (l.dropLast ++ [y]) := (List.perm_append_singleton _ _).symm
      rw [hsplit] at this
      exact this
    · have hlen : (y :: l.dropLast).length = l.length := by
        rw [← hsplit]
        simp
      have hheap : HeapFrom 0 (siftDown l.length (y :: l.dropLast) 0) := by
        apply siftDown_heapFrom 0 l.length _ 0 (by omega) (le_refl _)
        constructor
        · intro j hj0 hjlt _ hq
          rw [hlen] at hjlt
          have hq0 : 0 < (j - 1) / 2 := by omega
          have hx := h j hj0 (by simp; omega)
          obtain ⟨j1, rfl⟩ : ∃ j1, j = j1 + 1 := ⟨j - 1, by omega⟩
          obtain ⟨q1, hq1⟩ : ∃ q1, (j1 + 1 - 1) / 2 = q1 + 1 := ⟨(j1 + 1 - 1) / 2 - 1, by omega⟩
          rw [hq1] at hx ⊢
          rw [List.getD_cons_succ, List.getD_cons_succ] at hx ⊢
          have e1 : l.dropLast.getD j1 0 = l.getD j1 0 := by
            rw [List.getD_eq_getElem?_getD, List.getD_eq_getElem?_getD]
            conv_rhs => rw [← hsplit]
            rw [List.getElem?_append_left (by simp; omega)]
          have e2 : l.dropLast.getD q1 0 = l.getD q1 0 := by
            rw [List.getD_eq_getElem?_getD, List.getD_eq_getElem?_getD]
            conv_rhs => rw [← hsplit]
            rw [List.getElem?_append_left (by simp; omega)]
          rw [e1, e2]
          omega
        · intro j _ _ _ h0 _
          omega
      intro j hj0 hjlt
      have := hheap j hj0 hjlt (Nat.zero_le _)
      omega

/-- The binary heap does what the standard promises. -/
theorem binaryHeapAlgo_conforms : binaryHeapAlgo.Conforms :=
  ⟨binMake_perm, binMake_isHeap, fun l x _ => binPush_perm l x, binPush_isHeap, binPop_spec⟩

theorem swapAt_append_last (a : List Nat) (s : Nat) :
    ∀ hs, hs ≤ a.length →
      swapAt (a ++ [s]) a.length hs =
        a.take hs ++ s :: (a.drop (hs + 1) ++ (a.drop hs).take 1) := by
  induction a with
  | nil =>
    intro hs h
    have h0 : hs = 0 := by simpa using h
    subst h0
    simp [swapAt]
  | cons y a ih =>
    intro hs h
    cases hs with
    | zero => simp [swapAt]
    | succ hs =>
      have h1 := ih hs (by simpa using h)
      simp only [swapAt] at h1 ⊢
      simpa using h1

namespace FrameData

variable {F : FloatModel}

/-! ## `FrameData`: the invariant of the representation -/

theorem inv_ctor (n : Nat) (hn : n < 2 ^ 31) : Inv (ctor F n) := by
  have hrep : ∀ (s : Nat) (v : Int), (List.replicate n (-1 : Int))[s]? = some v → v = -1 := by
    intro s v h
    rw [List.getElem?_replicate] at h
    split at h
    · exact (Option.some.inj h).symm
    · exact absurd h (by simp)
  refine ⟨List.nodup_nil, ?_, rfl, ?_, ?_, Or.inl rfl, by simpa [ctor] using hn⟩
  · intro s
    constructor
    · intro h
      simp [ctor] at h
    · rintro ⟨v, hv, h0⟩
      have := hrep s v hv
      omega
  · intro s v hv
    exact Or.inl (hrep s v hv)
  · intro s s1 v hv _ h0
    have := hrep s v hv
    omega

theorem active_lt {fd : FrameData F} (hinv : Inv fd) {s : Nat} (hs : s ∈ fd.m_activeStates) :
    s < fd.m_stateMap.length := by
  obtain ⟨v, hv, _⟩ := (hinv.active_iff s).1 hs
  exact (List.getElem?_eq_some.1 hv).1

theorem length_active_succ_le {fd : FrameData F} (hinv : Inv fd) {s : Nat}
    (hs : s < fd.m_stateMap.length) (hnot : s ∉ fd.m_activeStates) :
    fd.m_activeStates.length + 1 ≤ fd.m_stateMap.length := by
  have hnd : (s :: fd.m_activeStates).Nodup := List.nodup_cons.2 ⟨hnot, hinv.nodup⟩
  have hsub : (s :: fd.m_activeStates) ⊆ List.range fd.m_stateMap.length := by
    intro x hx
    rw [List.mem_range]
    rcases List.mem_cons.1 hx with h | h
    · rw [h]; exact hs
    · exact active_lt hinv h
  have := (List.subperm_of_subset hnd hsub).length_le
  simpa using this

theorem length_active_le {fd : FrameData F} (hinv : Inv fd) :
    fd.m_activeStates.length ≤ fd.m_stateMap.length := by
  have hsub : fd.m_activeStates ⊆ List.range fd.m_stateMap.length := by
    intro x hx
    rw [List.mem_range]
    exact active_lt hinv hx
  have := (List.subperm_of_subset hinv.nodup hsub).length_le
  simpa using this

theorem drop_succ_append_perm (a : List Nat) (k : Nat) :
    (a.drop (k + 1) ++ (a.drop k).take 1).Perm (a.drop k) := by
  have h1 : (a.drop k).take 1 ++ (a.drop k).drop 1 = a.drop k := List.take_append_drop 1 _
  have h2 : (a.drop k).drop 1 = a.drop (k + 1) := by
    rw [List.drop_drop, Nat.add_comm]
  rw [h2] at h1
  exact List.perm_append_comm.trans (by rw [h1])

/-- What `insert_cell` does for an inactive state. -/
theorem insert_cell_inactive (H : HeapAlgo) (hH : H.Conforms)
    (fd : FrameData F) (hinv : Inv fd) (s : Nat)
    (v : Int) (hv : fd.m_stateMap[s]? = some v) (hneg : v < 0) :
    ∃ act2 hs2, insert_cell H fd s = .ok (⟨act2, fd.m_cellArray ++ [FrameCell.ctor F],
        fd.m_stateMap.set s (fd.m_cellArray.length : Int), hs2⟩, fd.m_cellArray.length) ∧
      List.Perm act2 (s :: fd.m_activeStates) ∧
      ((fd.m_heapSize = -1 ∧ hs2 = -1) ∨
       (0 ≤ fd.m_heapSize ∧ hs2 = fd.m_heapSize + 1 ∧
         List.Perm (act2.take hs2.toNat) (s :: fd.pending) ∧
         IsHeap (act2.take hs2.toNat))) := by
  have hsnot : s ∉ fd.m_activeStates := by
    intro h
    obtain ⟨v1, hv1, h0⟩ := (hinv.active_iff s).1 h
    rw [hv] at hv1
    have := Option.some.inj hv1
    omega
  have hslt : s < fd.m_stateMap.length := (List.getElem?_eq_some.1 hv).1
  have hlen := length_active_succ_le hinv hslt hsnot
  have hbound := hinv.bound
  have hcl := hinv.cells_len
  have hidx2 : (fd.m_cellArray ++ [FrameCell.ctor F]).length - 1 = fd.m_cellArray.length := by
    simp
  have hidx : toInt32 fd.m_cellArray.length = (fd.m_cellArray.length : Int) :=
    toInt32_of_lt (by omega)
  unfold insert_cell
  simp only [hv]
  rw [if_neg (not_le.2 hneg)]
  simp only [hidx2, hidx]
  rcases hinv.heap with hh | ⟨h0, hle, hheap⟩
  · rw [if_neg (by omega)]
    exact ⟨_, _, rfl, List.perm_append_singleton _ _, Or.inl ⟨hh, hh⟩⟩
  · have hk : fd.m_heapSize.toNat ≤ fd.m_activeStates.length := by omega
    have hk1 : (fd.m_heapSize + 1).toNat = fd.m_heapSize.toNat + 1 := by omega
    rw [if_pos h0, if_pos ⟨by simp; omega, by omega⟩]
    have hlast : (fd.m_activeStates ++ [s]).length - 1 = fd.m_activeStates.length := by simp
    rw [hlast, swapAt_append_last _ _ _ hk, hk1]
    have hsplit : List.take fd.m_heapSize.toNat fd.m_activeStates ++
        s :: (List.drop (fd.m_heapSize.toNat + 1) fd.m_activeStates ++
          List.take 1 (List.drop fd.m_heapSize.toNat fd.m_activeStates)) =
        (List.take fd.m_heapSize.toNat fd.m_activeStates ++ [s]) ++
          (List.drop (fd.m_heapSize.toNat + 1) fd.m_activeStates ++
            List.take 1 (List.drop fd.m_heapSize.toNat fd.m_activeStates)) := by simp
    have hlt : (List.take fd.m_heapSize.toNat fd.m_activeStates ++ [s]).length =
        fd.m_heapSize.toNat + 1 := by
      simp [List.length_take, hk]
    rw [hsplit, List.take_left' hlt, List.drop_left' hlt]
    have hperm := hH.push_heap_perm _ s hheap
    have hhp := hH.push_heap_isHeap _ s hheap
    unfold pending at hperm hhp
    have hplen : (H.push_heap (List.take fd.m_heapSize.toNat fd.m_activeStates ++ [s])).length
        = fd.m_heapSize.toNat + 1 := by rw [hperm.length_eq, hlt]
    refine ⟨_, _, rfl, ?_, Or.inr ⟨h0, rfl, ?_, ?_⟩⟩
    · refine (List.Perm.append hperm (drop_succ_append_perm _ _)).trans ?_
      rw [List.append_assoc]
      refine (List.perm_middle).trans ?_
      show (s :: (List.take fd.m_heapSize.toNat fd.m_activeStates ++
        ([] ++ List.drop fd.m_heapSize.toNat fd.m_activeStates))).Perm (s :: fd.m_activeStates)
      rw [List.nil_append, List.take_append_drop]
    · rw [hk1, List.take_left' hplen]
      exact hperm.trans (List.perm_append_singleton _ _)
    · rw [hk1, List.take_left' hplen]
      exact hhp

theorem inv_insert_cell (H : HeapAlgo) (hH : H.Conforms)
    {fd fd1 : FrameData F} (hinv : Inv fd) {s i : Nat}
    (h : insert_cell H fd s = .ok (fd1, i)) : Inv fd1 := by
  cases hv : fd.m_stateMap[s]? with
  | none => simp [insert_cell, hv] at h
  | some v =>
    by_cases hneg : v < 0
    · obtain ⟨act2, hs2, heq, hperm, hheap⟩ := insert_cell_inactive H hH fd hinv s v hv hneg
      rw [heq] at h
      have h1 := (Prod.mk.inj (Except.ok.inj h)).1
      subst h1
      have hsnot : s ∉ fd.m_activeStates := by
        intro hmem
        obtain ⟨v1, hv1, h0⟩ := (hinv.active_iff s).1 hmem
        rw [hv] at hv1
        have := Option.some.inj hv1
        omega
      have hslt : s < fd.m_stateMap.length := (List.getElem?_eq_some.1 hv).1
      have hset : ∀ s1 : Nat, (fd.m_stateMap.set s (fd.m_cellArray.length : Int))[s1]? =
          if s = s1 then some (fd.m_cellArray.length : Int) else fd.m_stateMap[s1]? := by
        intro s1
        rw [List.getElem?_set]
        by_cases hss : s = s1
        · subst hss
          simp [hslt]
        · simp [hss]
      refine ⟨?_, ?_, ?_, ?_, ?_, ?_, ?_⟩
      · exact (hperm.nodup_iff).2 (List.nodup_cons.2 ⟨hsnot, hinv.nodup⟩)
      · intro s1
        show s1 ∈ act2 ↔ ∃ v1 : Int,
          (fd.m_stateMap.set s (fd.m_cellArray.length : Int))[s1]? = some v1 ∧ 0 ≤ v1
        rw [hperm.mem_iff, hset s1, List.mem_cons]
        by_cases hss : s = s1
        · subst hss
          simp
        · rw [if_neg hss, hinv.active_iff s1]
          constructor
          · rintro (h1 | h1)
            · exact absurd h1.symm hss
            · exact h1
          · intro h1
            exact Or.inr h1
      · show (fd.m_cellArray ++ [FrameCell.ctor F]).length = act2.length
        rw [hperm.length_eq]
        simp [hinv.cells_len]
      · intro s1 v1
        show (fd.m_stateMap.set s (fd.m_cellArray.length : Int))[s1]? = some v1 →
          v1 = -1 ∨ (0 ≤ v1 ∧ v1 < ((fd.m_cellArray ++ [FrameCell.ctor F]).length : Int))
        rw [hset s1]
        intro h1
        by_cases hss : s = s1
        · rw [if_pos hss] at h1
          have := Option.some.inj h1
          right
          simp only [List.length_append, List.length_singleton]
          omega
        · rw [if_neg hss] at h1
          rcases hinv.map_range s1 v1 h1 with h2 | h2
          · exact Or.inl h2
          · right
            simp only [List.length_append, List.length_singleton]
            omega
      · intro s1 s2 v1
        show (fd.m_stateMap.set s (fd.m_cellArray.length : Int))[s1]? = some v1 →
          (fd.m_stateMap.set s (fd.m_cellArray.length : Int))[s2]? = some v1 → 0 ≤ v1 → s1 = s2
        rw [hset s1, hset s2]
        intro h1 h2 h0
        by_cases hs1 : s = s1
        · by_cases hs2 : s = s2
          · rw [← hs1, ← hs2]
          · rw [if_pos hs1] at h1
            rw [if_neg hs2] at h2
            have e1 := Option.some.inj h1
            rcases hinv.map_range s2 v1 h2 with h3 | h3 <;> omega
        · by_cases hs2 : s = s2
          · rw [if_neg hs1] at h1
            rw [if_pos hs2] at h2
            have e2 := Option.some.inj h2
            rcases hinv.map_range s1 v1 h1 with h3 | h3 <;> omega
          · rw [if_neg hs1] at h1
            rw [if_neg hs2] at h2
            exact hinv.map_inj s1 s2 v1 h1 h2 h0
      · rcases hheap with ⟨_, h2⟩ | ⟨h0, h2, _, h4⟩
        · exact Or.inl h2
        · right
          have hl := hperm.length_eq
          have hle : fd.m_heapSize ≤ (fd.m_activeStates.length : Int) := by
            rcases hinv.heap with h5 | h5
            · omega
            · exact h5.2.1
          refine ⟨by show 0 ≤ hs2; omega, ?_, h4⟩
          show hs2 ≤ (act2.length : Int)
          rw [hl]
          simp only [List.length_cons]
          omega
      · show (fd.m_stateMap.set s (fd.m_cellArray.length : Int)).length < 2 ^ 31
        rw [List.length_set]
        exact hinv.bound
    · have hge : v ≥ 0 := not_lt.1 hneg
      simp only [insert_cell, hv, hge, if_true] at h
      split at h
      · have h1 := (Prod.mk.inj (Except.ok.inj h)).1
        rw [← h1]
        exact hinv
      · exact absurd h (by simp)

theorem get_next_state_zero (H : HeapAlgo) (fd : FrameData F) (h0 : fd.m_heapSize = 0) :
    get_next_state H fd = .ok (fd, -1) := by
  simp [get_next_state, h0]

/-- What `get_next_state` does while states are pending. -/
theorem get_next_state_pos (H : HeapAlgo) (hH : H.Conforms) (fd : FrameData F) (hinv : Inv fd)
    (hpos : 0 < fd.m_heapSize) :
    ∃ x l r, fd.pending = x :: l ∧ r.Perm l ∧ IsHeap r ∧
      get_next_state H fd = .ok (⟨r ++ x :: fd.m_activeStates.drop fd.m_heapSize.toNat,
        fd.m_cellArray, fd.m_stateMap, fd.m_heapSize - 1⟩, (x : Int)) := by
  rcases hinv.heap with hh | ⟨h0, hle, hheap⟩
  · omega
  have hk : fd.m_heapSize.toNat ≤ fd.m_activeStates.length := by omega
  have hplen : fd.pending.length = fd.m_heapSize.toNat := by
    simp [pending, List.length_take, hk]
  cases hp : fd.pending with
  | nil =>
    rw [hp] at hplen
    simp at hplen
    omega
  | cons x l =>
    rw [hp] at hheap hplen
    obtain ⟨r, hpop, hperm, hr⟩ := hH.pop_heap_spec x l hheap
    have hxmem : x ∈ fd.m_activeStates := by
      have : x ∈ fd.pending := by rw [hp]; exact List.mem_cons_self _ _
      exact List.mem_of_mem_take this
    have hxlt : x < 2 ^ 31 := lt_trans (active_lt hinv hxmem) hinv.bound
    have hrlen : r.length = (fd.m_heapSize - 1).toNat := by
      rw [hperm.length_eq]
      simp only [List.length_cons] at hplen
      omega
    refine ⟨x, l, r, rfl, hperm, hr, ?_⟩
    unfold get_next_state
    rw [if_pos (le_of_lt hpos), if_neg (by omega), if_pos hk]
    unfold pending at hp
    simp only [hp, hpop]
    have hget : (r ++ [x] ++ List.drop fd.m_heapSize.toNat fd.m_activeStates)[
        (fd.m_heapSize - 1).toNat]? = some x := by
      rw [List.append_assoc, List.getElem?_append_right (by omega), hrlen]
      simp
    rw [hget]
    simp [toInt32_of_lt hxlt]

theorem inv_get_next_state (H : HeapAlgo) (hH : H.Conforms)
    {fd fd1 : FrameData F} (hinv : Inv fd) {r : Int}
    (h : get_next_state H fd = .ok (fd1, r)) : Inv fd1 := by
  rcases hinv.heap with hh | ⟨h0, hle, hheap⟩
  · simp [get_next_state, hh] at h
  rcases eq_or_lt_of_le h0 with hz | hpos
  · rw [get_next_state_zero H fd hz.symm] at h
    rw [← (Prod.mk.inj (Except.ok.inj h)).1]
    exact hinv
  · obtain ⟨x, l, q, hp, hperm, hq, heq⟩ := get_next_state_pos H hH fd hinv hpos
    rw [heq] at h
    have h1 := (Prod.mk.inj (Except.ok.inj h)).1
    subst h1
    have hk : fd.m_heapSize.toNat ≤ fd.m_activeStates.length := by omega
    have hplen : fd.pending.length = fd.m_heapSize.toNat := by
      simp [pending, List.length_take, hk]
    have hqlen : q.length = (fd.m_heapSize - 1).toNat := by
      rw [hperm.length_eq]
      rw [hp] at hplen
      simp only [List.length_cons] at hplen
      omega
    have hact : (q ++ x :: fd.m_activeStates.drop fd.m_heapSize.toNat).Perm
        fd.m_activeStates := by
      have h2 : (q ++ x :: fd.m_activeStates.drop fd.m_heapSize.toNat).Perm
          (x :: l ++ fd.m_activeStates.drop fd.m_heapSize.toNat) :=
        List.perm_middle.trans (List.Perm.cons x (List.Perm.append_right _ hperm))
      rw [← hp] at h2
      unfold pending at h2
      rwa [List.take_append_drop] at h2
    refine ⟨(hact.nodup_iff).2 hinv.nodup, ?_, ?_, hinv.map_range, hinv.map_inj, ?_, hinv.bound⟩
    · intro s
      show s ∈ (q ++ x :: fd.m_activeStates.drop fd.m_heapSize.toNat) ↔ _
      rw [hact.mem_iff]
      exact hinv.active_iff s
    · show fd.m_cellArray.length = (q ++ x :: fd.m_activeStates.drop fd.m_heapSize.toNat).length
      rw [hact.length_eq]
      exact hinv.cells_len
    · right
      refine ⟨by show 0 ≤ fd.m_heapSize - 1; omega, ?_, ?_⟩
      · show fd.m_heapSize - 1 ≤
          ((q ++ x :: fd.m_activeStates.drop fd.m_heapSize.toNat).length : Int)
        rw [hact.length_eq]
        omega
      · show IsHeap ((q ++ x :: fd.m_activeStates.drop fd.m_heapSize.toNat).take
          (fd.m_heapSize - 1).toNat)
        rw [List.take_left' hqlen]
        exact hq

theorem inv_reset_iteration (H : HeapAlgo) (hH : H.Conforms) {fd : FrameData F} (hinv : Inv fd) :
    Inv (reset_iteration H fd) := by
  have hperm := hH.make_heap_perm fd.m_activeStates
  have hlen : (H.make_heap fd.m_activeStates).length < 2 ^ 31 := by
    rw [hperm.length_eq]
    exact lt_of_le_of_lt (length_active_le hinv) hinv.bound
  have hhs : (reset_iteration H fd).m_heapSize = ((H.make_heap fd.m_activeStates).length : Int) :=
    toInt32_of_lt hlen
  refine ⟨(hperm.nodup_iff).2 hinv.nodup, ?_, ?_, hinv.map_range, hinv.map_inj, ?_, hinv.bound⟩
  · intro s
    show s ∈ H.make_heap fd.m_activeStates ↔ _
    rw [hperm.mem_iff]
    exact hinv.active_iff s
  · show fd.m_cellArray.length = (H.make_heap fd.m_activeStates).length
    rw [hperm.length_eq]
    exact hinv.cells_len
  · right
    refine ⟨by rw [hhs]; omega, by rw [hhs]; exact le_refl _, ?_⟩
    unfold pending
    rw [hhs]
    show IsHeap ((H.make_heap fd.m_activeStates).take
      ((H.make_heap fd.m_activeStates).length : Int).toNat)
    rw [Int.toNat_ofNat, List.take_length]
    exact hH.make_heap_isHeap _

theorem pending_reset_iteration (H : HeapAlgo) (hH : H.Conforms)
    {fd : FrameData F} (hinv : Inv fd) :
    (reset_iteration H fd).pending = H.make_heap fd.m_activeStates := by
  have hperm := hH.make_heap_perm fd.m_activeStates
  have hlen : (H.make_heap fd.m_activeStates).length < 2 ^ 31 := by
    rw [hperm.length_eq]
    exact lt_of_le_of_lt (length_active_le hinv) hinv.bound
  have hhs : (reset_iteration H fd).m_heapSize = ((H.make_heap fd.m_activeStates).length : Int) :=
    toInt32_of_lt hlen
  unfold pending
  rw [hhs]
  show (H.make_heap fd.m_activeStates).take
    ((H.make_heap fd.m_activeStates).length : Int).toNat = _
  rw [Int.toNat_ofNat, List.take_length]

theorem clearLoop_length (L : List Nat) :
    ∀ (m m1 : List Int), clearLoop L m = .ok m1 → m1.length = m.length := by
  induction L with
  | nil =>
    intro m m1 h
    simp only [clearLoop, Except.ok.injEq] at h
    rw [h]
  | cons s L ih =>
    intro m m1 h
    unfold clearLoop at h
    split at h
    · exact absurd h (by simp)
    · split at h
      · rw [ih _ _ h, List.length_set]
      · exact absurd h (by simp)

theorem clearLoop_ok (L : List Nat) :
    ∀ (m : List Int), L.Nodup → (∀ s ∈ L, ∃ v : Int, m[s]? = some v ∧ 0 ≤ v) →
      ∃ m1, clearLoop L m = .ok m1 ∧
        ∀ s : Nat, m1[s]? = if s ∈ L then some (-1) else m[s]? := by
  induction L with
  | nil =>
    intro m _ _
    exact ⟨m, rfl, by simp⟩
  | cons s0 L ih =>
    intro m hnd hall
    obtain ⟨v, hv, h0⟩ := hall s0 (List.mem_cons_self _ _)
    have hs0 : s0 < m.length := (List.getElem?_eq_some.1 hv).1
    have hnd1 := List.nodup_cons.1 hnd
    have hall1 : ∀ s ∈ L, ∃ v : Int, (m.set s0 (-1))[s]? = some v ∧ 0 ≤ v := by
      intro s hs
      have hne : s0 ≠ s := by
        intro h
        rw [h] at hnd1
        exact hnd1.1 hs
      rw [List.getElem?_set, if_neg hne]
      exact hall s (List.mem_cons_of_mem _ hs)
    obtain ⟨m1, hm1, hget⟩ := ih (m.set s0 (-1)) hnd1.2 hall1
    refine ⟨m1, ?_, ?_⟩
    · unfold clearLoop
      simp only [hv]
      rw [if_pos h0]
      exact hm1
    · intro s
      rw [hget s, List.getElem?_set]
      by_cases hss : s0 = s
      · subst hss
        simp [hs0]
      · have hss1 : ¬ s = s0 := fun h => hss h.symm
        simp [hss, hss1]

theorem chart_inv_clear {fd fd1 : FrameData F} (hinv : Inv fd) (h : clear fd = .ok fd1) :
    Inv fd1 := by
  obtain ⟨m1, hm1, hget⟩ := clearLoop_ok fd.m_activeStates fd.m_stateMap hinv.nodup
    (fun s hs => (hinv.active_iff s).1 hs)
  have hlen := clearLoop_length _ _ _ hm1
  unfold clear at h
  rw [hm1] at h
  have h1 := Except.ok.inj h
  subst h1
  have hall : ∀ (s : Nat) (v : Int), m1[s]? = some v → v = -1 := by
    intro s v hv
    rw [hget s] at hv
    by_cases hs : s ∈ fd.m_activeStates
    · rw [if_pos hs] at hv
      exact (Option.some.inj hv).symm
    · rw [if_neg hs] at hv
      rcases hinv.map_range s v hv with h2 | h2
      · exact h2
      · exact absurd ((hinv.active_iff s).2 ⟨v, hv, h2.1⟩) hs
  refine ⟨List.nodup_nil, ?_, rfl, ?_, ?_, Or.inl rfl, ?_⟩
  · intro s
    constructor
    · intro hmem
      simp at hmem
    · rintro ⟨v, hv, h0⟩
      have := hall s v hv
      omega
  · intro s v hv
    exact Or.inl (hall s v hv)
  · intro s s1 v hv _ h0
    have := hall s v hv
    omega
  · show m1.length < 2 ^ 31
    rw [hlen]
    exact hinv.bound

theorem inv_assign_cell {fd fd1 : FrameData F} (hinv : Inv fd) {i : Nat} {lp : F.Dbl} {n : Nat}
    (h : assign_cell fd i lp n = .ok fd1) : Inv fd1 := by
  unfold assign_cell at h
  split at h
  · have h1 := Except.ok.inj h
    subst h1
    refine ⟨hinv.nodup, hinv.active_iff, ?_, ?_, hinv.map_inj, hinv.heap, hinv.bound⟩
    · show (fd.m_cellArray.set i _).length = _
      rw [List.length_set]
      exact hinv.cells_len
    · intro s v hv
      show v = -1 ∨ (0 ≤ v ∧ v < ((fd.m_cellArray.set i _).length : Int))
      rw [List.length_set]
      exact hinv.map_range s v hv
  · exact absurd h (by simp)

theorem stateMap_length_insert_cell (H : HeapAlgo) {fd fd1 : FrameData F} {s i : Nat}
    (h : insert_cell H fd s = .ok (fd1, i)) : fd1.m_stateMap.length = fd.m_stateMap.length := by
  unfold insert_cell at h
  split at h
  · exact absurd h (by simp)
  · split at h
    · split at h
      · rw [← (Prod.mk.inj (Except.ok.inj h)).1]
      · exact absurd h (by simp)
    · split at h
      · dsimp only at h
        split at h
        · rw [← (Prod.mk.inj (Except.ok.inj h)).1]
          simp
        · exact absurd h (by simp)
      · rw [← (Prod.mk.inj (Except.ok.inj h)).1]
        simp

theorem stateMap_get_next_state (H : HeapAlgo) {fd fd1 : FrameData F} {r : Int}
    (h : get_next_state H fd = .ok (fd1, r)) : fd1.m_stateMap = fd.m_stateMap := by
  unfold get_next_state at h
  split at h
  · split at h
    · rw [← (Prod.mk.inj (Except.ok.inj h)).1]
    · split at h
      · dsimp only at h
        split at h
        · rw [← (Prod.mk.inj (Except.ok.inj h)).1]
        · exact absurd h (by simp)
      · exact absurd h (by simp)
  · exact absurd h (by simp)

theorem stateMap_length_clear {fd fd1 : FrameData F} (h : clear fd = .ok fd1) :
    fd1.m_stateMap.length = fd.m_stateMap.length := by
  unfold clear at h
  split at h
  · rename_i m hm
    rw [← Except.ok.inj h]
    exact clearLoop_length _ _ _ hm
  · exact absurd h (by simp)

theorem stateMap_assign_cell {fd fd1 : FrameData F} {i : Nat} {lp : F.Dbl} {n : Nat}
    (h : assign_cell fd i lp n = .ok fd1) : fd1.m_stateMap = fd.m_stateMap := by
  unfold assign_cell at h
  split at h
  · rw [← Except.ok.inj h]
  · exact absurd h (by simp)

theorem inv_of_reachable (H : HeapAlgo) (hH : H.Conforms) {fd : FrameData F} (hr : Reachable H fd)
    (hb : fd.m_stateMap.length < 2 ^ 31) : Inv fd := by
  induction hr with
  | ctor n _ => exact inv_ctor n (by simpa [ctor] using hb)
  | insert_cell fd fd1 s i _ h ih =>
    exact inv_insert_cell H hH (ih (by rw [← stateMap_length_insert_cell H h]; exact hb)) h
  | assign_cell fd fd1 i lp n _ h ih =>
    exact inv_assign_cell (ih (by rw [← stateMap_assign_cell h]; exact hb)) h
  | reset_iteration fd _ ih => exact inv_reset_iteration H hH (ih hb)
  | get_next_state fd fd1 r _ h ih =>
    exact inv_get_next_state H hH (ih (by rw [← stateMap_get_next_state H h]; exact hb)) h
  | clear fd fd1 _ h ih =>
    exact chart_inv_clear (ih (by rw [← stateMap_length_clear h]; exact hb)) h
  | swap_fst a b _ _ _ ihb => exact ihb hb
  | swap_snd a b _ _ iha _ => exact iha hb

theorem stateMap_length_lt (H : HeapAlgo) {fd : FrameData F} (hr : Reachable H fd) :
    fd.m_stateMap.length < 2 ^ 32 := by
  induction hr with
  | ctor n hn => simpa [ctor] using hn
  | insert_cell fd fd1 s i _ h ih => rw [stateMap_length_insert_cell H h]; exact ih
  | assign_cell fd fd1 i lp n _ h ih => rw [stateMap_assign_cell h]; exact ih
  | reset_iteration fd _ ih => exact ih
  | get_next_state fd fd1 r _ h ih => rw [stateMap_get_next_state H h]; exact ih
  | clear fd fd1 _ h ih => rw [stateMap_length_clear h]; exact ih
  | swap_fst a b _ _ _ ihb => exact ihb
  | swap_snd a b _ _ iha _ => exact iha

/-- The invariant holds in every reachable chart whose state count fits the
type `int`. -/
theorem inv_of_state_count (H : HeapAlgo) (hH : H.Conforms) {fd : FrameData F} (hr : Reachable H fd)
    (hb : fd.get_state_count < 2 ^ 31) : Inv fd := by
  apply inv_of_reachable H hH hr
  unfold get_state_count at hb
  rwa [Nat.mod_eq_of_lt (stateMap_length_lt H hr)] at hb

theorem reachable_of_byInsert (H : HeapAlgo) {fd : FrameData F} (hr : ReachableByInsert H fd) :
    Reachable H fd := by
  induction hr with
  | ctor n hn => exact Reachable.ctor n hn
  | insert_cell fd fd1 s i _ h ih => exact Reachable.insert_cell fd fd1 s i ih h

/-! ## `FrameData`: iteration -/

theorem sortAsc_perm (l : List Nat) : (sortAsc l).Perm l := List.perm_insertionSort _ l

theorem sortAsc_sorted (l : List Nat) : (sortAsc l).Sorted (· ≤ ·) :=
  List.sorted_insertionSort _ l

theorem sortAsc_cons_of_le {x : Nat} {l r : List Nat} (hperm : r.Perm l)
    (hmin : ∀ y ∈ l, x ≤ y) : sortAsc (x :: l) = x :: sortAsc r := by
  apply List.eq_of_perm_of_sorted (r := (· ≤ ·))
  · exact (sortAsc_perm _).trans (List.Perm.cons x ((sortAsc_perm r).trans hperm).symm)
  · exact sortAsc_sorted _
  · refine List.sorted_cons.2 ⟨?_, sortAsc_sorted r⟩
    intro y hy
    exact hmin y (hperm.mem_iff.1 ((sortAsc_perm r).mem_iff.1 hy))

theorem sortAsc_strict {l : List Nat} (h : l.Nodup) : (sortAsc l).Sorted (· < ·) :=
  (sortAsc_sorted l).lt_of_le (((sortAsc_perm l).nodup_iff).2 h)

theorem pending_length {fd : FrameData F} (hinv : Inv fd) (h0 : 0 ≤ fd.m_heapSize) :
    fd.pending.length = fd.m_heapSize.toNat := by
  rcases hinv.heap with hh | ⟨_, hle, _⟩
  · omega
  · have hk : fd.m_heapSize.toNat ≤ fd.m_activeStates.length := by omega
    simp [pending, List.length_take, hk]

theorem pending_nodup {fd : FrameData F} (hinv : Inv fd) : fd.pending.Nodup :=
  List.Nodup.sublist (List.take_sublist _ _) hinv.nodup

theorem pending_subset {fd : FrameData F} {s : Nat} (h : s ∈ fd.pending) :
    s ∈ fd.m_activeStates := List.mem_of_mem_take h

/-- While states are pending, `get_next_state` returns the least of them and
removes it from the pending states; nothing else changes. -/
theorem get_next_state_spec (H : HeapAlgo) (hH : H.Conforms) (fd : FrameData F) (hinv : Inv fd)
    (hpos : 0 < fd.m_heapSize) :
    ∃ x l fd1, fd.pending = x :: l ∧ get_next_state H fd = .ok (fd1, (x : Int)) ∧
      fd1.pending.Perm l ∧ (∀ y ∈ l, x ≤ y) ∧ Inv fd1 ∧
      fd1.m_heapSize = fd.m_heapSize - 1 ∧ fd1.m_stateMap = fd.m_stateMap ∧
      fd1.m_cellArray = fd.m_cellArray ∧ fd1.m_activeStates.Perm fd.m_activeStates := by
  obtain ⟨x, l, q, hp, hperm, hq, heq⟩ := get_next_state_pos H hH fd hinv hpos
  have hinv1 := inv_get_next_state H hH hinv heq
  have hheap : IsHeap (x :: l) := by
    rcases hinv.heap with hh | ⟨_, _, hheap⟩
    · omega
    · rwa [hp] at hheap
  have hplen := pending_length hinv (le_of_lt hpos)
  have hqlen : q.length = (fd.m_heapSize - 1).toNat := by
    rw [hperm.length_eq]
    rw [hp] at hplen
    simp only [List.length_cons] at hplen
    omega
  refine ⟨x, l, _, hp, heq, ?_, isHeap_head_le hheap, hinv1, rfl, rfl, rfl, ?_⟩
  · show ((q ++ x :: fd.m_activeStates.drop fd.m_heapSize.toNat).take
      (fd.m_heapSize - 1).toNat).Perm l
    rw [List.take_left' hqlen]
    exact hperm
  · show (q ++ x :: fd.m_activeStates.drop fd.m_heapSize.toNat).Perm fd.m_activeStates
    have h2 : (q ++ x :: fd.m_activeStates.drop fd.m_heapSize.toNat).Perm
        (x :: l ++ fd.m_activeStates.drop fd.m_heapSize.toNat) :=
      List.perm_middle.trans (List.Perm.cons x (List.Perm.append_right _ hperm))
    rw [← hp] at h2
    unfold pending at h2
    rwa [List.take_append_drop] at h2

theorem expected_nil_succ (n : Nat) : expected [] (n + 1) = -1 :: expected [] n := by
  simp [expected, List.replicate_succ]

theorem expected_cons_succ (x : Nat) (l : List Nat) (n : Nat) :
    expected (x :: l) (n + 1) = (x : Int) :: expected l n := by
  simp [expected]

/-- Successive `get_next_state()` calls return the pending states in
increasing order and then -1. -/
theorem drain_spec (H : HeapAlgo) (hH : H.Conforms) (n : Nat) :
    ∀ (fd : FrameData F), Inv fd → 0 ≤ fd.m_heapSize →
      ∃ fd1, drain H n fd = .ok (fd1, expected (sortAsc fd.pending) n) ∧ Inv fd1 ∧
        0 ≤ fd1.m_heapSize ∧ fd1.m_stateMap = fd.m_stateMap ∧
        fd1.m_cellArray = fd.m_cellArray ∧ fd1.m_activeStates.Perm fd.m_activeStates ∧
        (fd.pending.length ≤ n → fd1.m_heapSize = 0) := by
  induction n with
  | zero =>
    intro fd hinv h0
    refine ⟨fd, by simp [drain, expected], hinv, h0, rfl, rfl, List.Perm.refl _, ?_⟩
    intro hle
    have := pending_length hinv h0
    omega
  | succ n ih =>
    intro fd hinv h0
    rcases eq_or_lt_of_le h0 with hz | hpos
    · have hp : fd.pending = [] := by
        have := pending_length hinv h0
        rw [← hz] at this
        exact List.length_eq_zero.1 (by simpa using this)
      obtain ⟨fd1, hd, hinv1, h01, hm, hc, ha, hfin⟩ := ih fd hinv h0
      refine ⟨fd1, ?_, hinv1, h01, hm, hc, ha, ?_⟩
      · simp only [drain, get_next_state_zero H fd hz.symm, hd]
        rw [hp]
        show Except.ok (fd1, -1 :: expected (sortAsc []) n) = _
        rw [show sortAsc [] = [] from rfl, expected_nil_succ]
      · intro _
        exact hfin (by rw [hp]; simp)
    · obtain ⟨x, l, fd2, hp, hnext, hperm, hmin, hinv2, hhs2, hm2, hc2, ha2⟩ :=
        get_next_state_spec H hH fd hinv hpos
      obtain ⟨fd1, hd, hinv1, h01, hm, hc, ha, hfin⟩ := ih fd2 hinv2 (by omega)
      refine ⟨fd1, ?_, hinv1, h01, hm.trans hm2, hc.trans hc2, ha.trans ha2, ?_⟩
      · simp only [drain, hnext, hd]
        rw [hp, sortAsc_cons_of_le hperm hmin, expected_cons_succ]
      · intro hle
        apply hfin
        rw [hperm.length_eq]
        rw [hp] at hle
        simpa using hle

theorem has_cell_true_iff {fd : FrameData F} (hinv : Inv fd) (s : Nat) :
    has_cell fd s = .ok true ↔ s ∈ fd.m_activeStates := by
  rw [hinv.active_iff s]
  unfold has_cell
  cases h : fd.m_stateMap[s]? with
  | none => simp
  | some v => simp

theorem not_mem_active_of_neg {fd : FrameData F} (hinv : Inv fd) {s : Nat} {v : Int}
    (hv : fd.m_stateMap[s]? = some v) (hneg : v < 0) : s ∉ fd.m_activeStates := by
  intro hmem
  obtain ⟨v1, hv1, h0⟩ := (hinv.active_iff s).1 hmem
  rw [hv] at hv1
  have := Option.some.inj hv1
  omega

theorem insert_cell_active (H : HeapAlgo) (fd : FrameData F) (hinv : Inv fd) (s : Nat)
    (v : Int) (hv : fd.m_stateMap[s]? = some v) (h0 : 0 ≤ v) :
    insert_cell H fd s = .ok (fd, v.toNat) := by
  have hlt : v.toNat < fd.m_cellArray.length := by
    rcases hinv.map_range s v hv with h | h <;> omega
  simp [insert_cell, hv, h0, hlt]

theorem step_insert_active (H : HeapAlgo) (fd : FrameData F) (hinv : Inv fd) (s : Nat)
    (v : Int) (hv : fd.m_stateMap[s]? = some v) (h0 : 0 ≤ v) :
    step H fd (.insert_cell s) = .ok (fd, .found s) := by
  simp [step, has_cell, hv, h0, insert_cell_active H fd hinv s v hv h0]

theorem step_insert_inactive (H : HeapAlgo) (hH : H.Conforms)
    (fd : FrameData F) (hinv : Inv fd) (s : Nat)
    (v : Int) (hv : fd.m_stateMap[s]? = some v) (hneg : v < 0) (hhs : 0 ≤ fd.m_heapSize) :
    ∃ fd1 i, insert_cell H fd s = .ok (fd1, i) ∧
      step H fd (.insert_cell s) = .ok (fd1, .activated s) ∧ Inv fd1 ∧
      fd1.m_heapSize = fd.m_heapSize + 1 ∧ fd1.m_activeStates.Perm (s :: fd.m_activeStates) ∧
      fd1.pending.Perm (s :: fd.pending) ∧
      fd1.m_stateMap.length = fd.m_stateMap.length := by
  obtain ⟨act2, hs2, heq, hperm, hheap⟩ := insert_cell_inactive H hH fd hinv s v hv hneg
  have hinv1 := inv_insert_cell H hH hinv heq
  rcases hheap with ⟨h1, _⟩ | ⟨_, h2, h3, _⟩
  · omega
  · refine ⟨_, _, heq, ?_, hinv1, h2, hperm, h3, by simp⟩
    simp [step, has_cell, hv, not_le.2 hneg, heq]

theorem step_next_zero (H : HeapAlgo) (fd : FrameData F) (h0 : fd.m_heapSize = 0) :
    step H fd .get_next_state = .ok (fd, .returned (-1)) := by
  simp [step, get_next_state_zero H fd h0]

theorem pending_eq_nil {fd : FrameData F} (hinv : Inv fd) (h0 : fd.m_heapSize = 0) :
    fd.pending = [] := by
  have := pending_length hinv (by omega)
  rw [h0] at this
  exact List.length_eq_zero.1 (by simpa using this)

theorem cast_ne_neg_one (s : Nat) : (s : Int) ≠ -1 := by omega

/-- Any interleaving of `insert_cell` (of states in range) and
`get_next_state` calls in a started iteration returns, and keeps the pending
states in step with the events. -/
theorem run_spec (H : HeapAlgo) (hH : H.Conforms) (ops : List Op) :
    ∀ (fd : FrameData F), Inv fd → 0 ≤ fd.m_heapSize →
      (∀ s, Op.insert_cell s ∈ ops → s < fd.m_stateMap.length) →
      ∃ fd1 evs, run H fd ops = .ok (fd1, evs) ∧ Inv fd1 ∧ 0 ≤ fd1.m_heapSize ∧
        fd1.m_stateMap.length = fd.m_stateMap.length ∧
        (∀ s, s ∈ fd1.m_activeStates ↔ s ∈ fd.m_activeStates ∨ s ∈ activatedOf evs) ∧
        (∀ s, s ∈ activatedOf evs → s ∉ fd.m_activeStates) ∧
        (∀ s : Nat, s ∈ fd1.pending ↔
          (s ∈ fd.pending ∨ s ∈ activatedOf evs) ∧ (s : Int) ∉ returnedOf evs) ∧
        (∀ s : Nat, (s : Int) ∈ returnedOf evs → s ∈ fd.pending ∨ s ∈ activatedOf evs) ∧
        (returnedStates evs).Nodup := by
  induction ops with
  | nil =>
    intro fd hinv h0 _
    refine ⟨fd, [], rfl, hinv, h0, rfl, ?_, ?_, ?_, ?_, ?_⟩ <;>
      simp [activatedOf, returnedOf, returnedStates]
  | cons op ops ih =>
    intro fd hinv h0 hin
    have hin1 : ∀ s, Op.insert_cell s ∈ ops → s < fd.m_stateMap.length :=
      fun s hs => hin s (List.mem_cons_of_mem _ hs)
    cases op with
    | insert_cell s =>
      have hs : s < fd.m_stateMap.length := hin s (List.mem_cons_self _ _)
      obtain ⟨v, hv⟩ : ∃ v, fd.m_stateMap[s]? = some v :=
        ⟨_, List.getElem?_eq_getElem hs⟩
      by_cases hneg : v < 0
      · obtain ⟨fd2, _, _, hstep, hinv2, hhs2, hact2, hpend2, hlen2⟩ :=
          step_insert_inactive H hH fd hinv s v hv hneg h0
        have hsnot := not_mem_active_of_neg hinv hv hneg
        obtain ⟨fd1, evs, hrun, hinv1, h01, hlen1, hA, hB, hC, hD, hE⟩ :=
          ih fd2 hinv2 (by omega) (by rw [hlen2]; exact hin1)
        refine ⟨fd1, .activated s :: evs, ?_, hinv1, h01, hlen1.trans hlen2, ?_, ?_, ?_, ?_, ?_⟩
        · simp only [run, hstep, hrun]
        · intro s1
          rw [hA s1, hact2.mem_iff]
          simp only [activatedOf, List.mem_cons]
          tauto
        · intro s1 hs1
          simp only [activatedOf, List.mem_cons] at hs1
          rcases hs1 with h | h
          · rw [h]; exact hsnot
          · intro hmem
            exact hB s1 h (hact2.mem_iff.2 (List.mem_cons_of_mem _ hmem))
        · intro s1
          rw [hC s1, hpend2.mem_iff]
          simp only [activatedOf, returnedOf, List.mem_cons]
          tauto
        · intro s1 hs1
          simp only [returnedOf] at hs1
          rcases hD s1 hs1 with h | h
          · rcases List.mem_cons.1 (hpend2.mem_iff.1 h) with h2 | h2
            · right
              simp only [activatedOf, List.mem_cons]
              exact Or.inl h2
            · exact Or.inl h2
          · right
            simp only [activatedOf, List.mem_cons]
            exact Or.inr h
        · simpa [returnedStates, returnedOf] using hE
      · have hge : 0 ≤ v := not_lt.1 hneg
        have hstep := step_insert_active H fd hinv s v hv hge
        obtain ⟨fd1, evs, hrun, hinv1, h01, hlen1, hA, hB, hC, hD, hE⟩ := ih fd hinv h0 hin1
        refine ⟨fd1, .found s :: evs, ?_, hinv1, h01, hlen1, ?_, ?_, ?_, ?_, ?_⟩
        · simp only [run, hstep, hrun]
        · simpa [activatedOf] using hA
        · simpa [activatedOf] using hB
        · simpa [activatedOf, returnedOf] using hC
        · simpa [activatedOf, returnedOf] using hD
        · simpa [returnedStates, returnedOf] using hE
    | get_next_state =>
      rcases eq_or_lt_of_le h0 with hz | hpos
      · have hstep := step_next_zero H fd hz.symm
        obtain ⟨fd1, evs, hrun, hinv1, h01, hlen1, hA, hB, hC, hD, hE⟩ := ih fd hinv h0 hin1
        refine ⟨fd1, .returned (-1) :: evs, ?_, hinv1, h01, hlen1, ?_, ?_, ?_, ?_, ?_⟩
        · simp only [run, hstep, hrun]
        · simpa [activatedOf] using hA
        · simpa [activatedOf] using hB
        · intro s1
          rw [hC s1]
          simp only [activatedOf, returnedOf, List.mem_cons, not_or]
          have := cast_ne_neg_one s1
          tauto
        · intro s1 hs1
          simp only [returnedOf, List.mem_cons] at hs1
          rcases hs1 with h | h
          · exact absurd h (cast_ne_neg_one s1)
          · simpa [activatedOf] using hD s1 h
        · simpa [returnedStates, returnedOf] using hE
      · obtain ⟨x, l, fd2, hp, hnext, hperm, hmin, hinv2, hhs2, hm2, hc2, ha2⟩ :=
          get_next_state_spec H hH fd hinv hpos
        have hstep : step H fd .get_next_state = .ok (fd2, .returned (x : Int)) := by
          simp [step, hnext]
        obtain ⟨fd1, evs, hrun, hinv1, h01, hlen1, hA, hB, hC, hD, hE⟩ :=
          ih fd2 hinv2 (by omega) (by rw [hm2]; exact hin1)
        have hnd : (x :: l).Nodup := by
          rw [← hp]; exact pending_nodup hinv
        have hxl : x ∉ l := (List.nodup_cons.1 hnd).1
        have hxact : x ∈ fd.m_activeStates :=
          pending_subset (by rw [hp]; exact List.mem_cons_self _ _)
        have hxA : x ∉ activatedOf evs := fun h => hB x h (ha2.mem_iff.2 hxact)
        have hxR : (x : Int) ∉ returnedOf evs := by
          intro h
          rcases hD x h with h1 | h1
          · exact hxl (hperm.mem_iff.1 h1)
          · exact hxA h1
        refine ⟨fd1, .returned (x : Int) :: evs, ?_, hinv1, h01, ?_, ?_, ?_, ?_, ?_, ?_⟩
        · simp only [run, hstep, hrun]
        · rw [hlen1, hm2]
        · intro s1
          rw [hA s1, ha2.mem_iff]
          simp [activatedOf]
        · intro s1 hs1
          simp only [activatedOf] at hs1
          exact fun hmem => hB s1 hs1 (ha2.mem_iff.2 hmem)
        · intro s1
          rw [hC s1, hperm.mem_iff, hp]
          simp only [activatedOf, returnedOf, List.mem_cons, not_or, Nat.cast_inj]
          constructor
          · rintro ⟨h1 | h1, h2⟩
            · exact ⟨Or.inl (Or.inr h1), fun h => hxl (h ▸ h1), h2⟩
            · exact ⟨Or.inr h1, fun h => hxA (h ▸ h1), h2⟩
          · rintro ⟨(h1 | h1) | h1, h2, h3⟩
            · exact absurd h1 h2
            · exact ⟨Or.inl h1, h3⟩
            · exact ⟨Or.inr h1, h3⟩
        · intro s1 hs1
          simp only [returnedOf, List.mem_cons, Nat.cast_inj] at hs1
          rw [hp]
          rcases hs1 with h | h
          · left; rw [h]; exact List.mem_cons_self _ _
          · rcases hD s1 h with h1 | h1
            · left; exact List.mem_cons_of_mem _ (hperm.mem_iff.1 h1)
            · right; simpa [activatedOf] using h1
        · have hx1 : decide ((x : Int) ≠ -1) = true := by
            simp [cast_ne_neg_one x]
          simp only [returnedStates, returnedOf, List.filter_cons, hx1, if_true]
          refine List.nodup_cons.2 ⟨?_, hE⟩
          intro h
          exact hxR (List.mem_of_mem_filter h)

theorem expected_length (l : List Nat) :
    expected l l.length = List.map (fun s : Nat => (s : Int)) l := by
  unfold expected
  rw [Nat.sub_self, List.replicate_zero, List.append_nil]
  exact List.take_of_length_le (by rw [List.length_map])

theorem exampleChart_reachable : Reachable binaryHeapAlgo exampleChart :=
  Reachable.insert_cell ⟨[2], [FrameCell.ctor intFloats], [-1, -1, 0, -1], -1⟩ exampleChart 0 1
    (Reachable.insert_cell (ctor intFloats 4) _ 2 0 (Reachable.ctor 4 (by decide)) rfl) rfl

theorem ieeeChart_reachable : Reachable binaryHeapAlgo ieeeChart :=
  Reachable.insert_cell (ctor ieeeModel 4) ieeeChart 2 0 (Reachable.ctor 4 (by decide)) rfl

/-- C7: ascending iteration.  Whatever conforming heap algorithms are used:
for a chart reachable from construction (by `insert_cell` calls or any other
calls that return) whose state count fits the type `int`, there is a strictly
increasing list `L` of exactly the active states such that, after
`reset_iteration()`, `n` successive `get_next_state()` calls return the first
`n` entries of `L` followed by -1 on every further call, for every `n`. -/
theorem ascending_iteration (H : HeapAlgo) (hH : H.Conforms)
    (fd : FrameData F) (hr : Reachable H fd)
    (hb : fd.get_state_count < 2 ^ 31) :
    ∃ L : List Nat, L.Sorted (· < ·) ∧ (∀ s, s ∈ L ↔ has_cell fd s = .ok true) ∧
      ∀ n, ∃ fd1, drain H n (reset_iteration H fd) =
        .ok (fd1, (List.map (fun s : Nat => (s : Int)) L ++
            List.replicate (n - L.length) (-1)).take n) := by
  have hinv := inv_of_state_count H hH hr hb
  have hinv1 := inv_reset_iteration H hH hinv
  have hp := pending_reset_iteration H hH hinv
  have h0 : 0 ≤ (reset_iteration H fd).m_heapSize := by
    rcases hinv1.heap with h | h
    · have hlen : (H.make_heap fd.m_activeStates).length < 2 ^ 31 := by
        rw [(hH.make_heap_perm _).length_eq]
        exact lt_of_le_of_lt (length_active_le hinv) hinv.bound
      have : (reset_iteration H fd).m_heapSize =
          ((H.make_heap fd.m_activeStates).length : Int) := toInt32_of_lt hlen
      omega
    · exact h.1
  refine ⟨sortAsc (reset_iteration H fd).pending, sortAsc_strict (pending_nodup hinv1), ?_, ?_⟩
  · intro s
    rw [(sortAsc_perm _).mem_iff, hp, (hH.make_heap_perm _).mem_iff, has_cell_true_iff hinv]
  · intro n
    obtain ⟨fd1, hd, _⟩ := drain_spec H hH n (reset_iteration H fd) hinv1 h0
    exact ⟨fd1, hd⟩

/-- Ascending iteration over the example chart, with the binary heap. -/
theorem ascending_iteration_witness :
    ∃ L : List Nat, L.Sorted (· < ·) ∧ (∀ s, s ∈ L ↔ has_cell exampleChart s = .ok true) ∧
      ∀ n, ∃ fd1, drain binaryHeapAlgo n (reset_iteration binaryHeapAlgo exampleChart) =
        .ok (fd1, (List.map (fun s : Nat => (s : Int)) L ++
            List.replicate (n - L.length) (-1)).take n) :=
  ascending_iteration binaryHeapAlgo binaryHeapAlgo_conforms
    exampleChart exampleChart_reachable (by decide)

/-- C10 as stated fails on the code when `g_zeroLogProb` is not representable
as a `float`.  With `g_zeroLogProb = -1e30` in the IEEE 754 model:
`insert_cell(3)` on the freshly constructed chart of four states, where
`has_cell(3)` is false, returns a cell whose log prob is
-1.0000000150474662e30, the `float` nearest to -1e30, and not
`g_zeroLogProb`. -/
theorem fresh_cell_log_prob_rounded :
    has_cell (ctor ieeeModel 4) 3 = .ok false ∧
    ∃ fd1 i c, insert_cell binaryHeapAlgo (ctor ieeeModel 4) 3 = .ok (fd1, i) ∧
      get_cell_by_index fd1 i = .ok c ∧
      c.get_log_prob = floatMinus1e30 ∧ c.get_log_prob ≠ ieeeModel.g_zeroLogProb := by
  refine ⟨rfl, _, _, _, rfl, rfl, ieee_conversions.2.2, ?_⟩
  intro h
  have h1 : floatMinus1e30 = doubleMinus1e30 := ieee_conversions.2.2.symm.trans h
  exact absurd h1 (by decide)

/-- C10, amended: `insert_cell` on an inactive state creates a fresh cell.
For a reachable chart (state count within the type `int`) and a state `s` in
range with `has_cell(s)` false, `insert_cell(s)` returns a reference to a cell
that is the default-constructed `FrameCell()`: node index 0 and, as log prob,
`g_zeroLogProb` converted to `float` and back, which is `g_zeroLogProb`
exactly if `g_zeroLogProb` is representable as a `float` (for every
conversion `double → float` that is exact on the values of `float`).
Afterwards this is the cell of `s`, `has_cell(s)` is true, `size()` has grown
by exactly 1, and for every other state `t` both `has_cell(t)` and
`get_cell_by_state(t)` are as before. -/
theorem insert_cell_creates_fresh (H : HeapAlgo) (hH : H.Conforms) (hF : F.Exact)
    (fd : FrameData F) (hr : Reachable H fd)
    (hb : fd.get_state_count < 2 ^ 31) (s : Nat) (hin : has_cell fd s = .ok false) :
    ∃ fd1 i, insert_cell H fd s = .ok (fd1, i) ∧
      get_cell_by_index fd1 i = .ok (FrameCell.ctor F) ∧
      (FrameCell.ctor F).m_logProb = F.toFloat F.g_zeroLogProb ∧
      (FrameCell.ctor F).get_log_prob = F.toDouble (F.toFloat F.g_zeroLogProb) ∧
      ((FrameCell.ctor F).get_log_prob = F.g_zeroLogProb ↔
        F.Representable F.g_zeroLogProb) ∧
      (FrameCell.ctor F).get_node_index = 0 ∧
      get_cell_by_state fd1 s = .ok (FrameCell.ctor F) ∧
      has_cell fd1 s = .ok true ∧
      fd1.size = fd.size + 1 ∧
      ∀ t, t ≠ s → has_cell fd1 t = has_cell fd t ∧
        get_cell_by_state fd1 t = get_cell_by_state fd t := by
  have hinv := inv_of_state_count H hH hr hb
  obtain ⟨v, hv, hneg⟩ : ∃ v : Int, fd.m_stateMap[s]? = some v ∧ v < 0 := by
    unfold has_cell at hin
    cases h : fd.m_stateMap[s]? with
    | none => simp [h] at hin
    | some v =>
      simp only [h, Except.ok.injEq, decide_eq_false_iff_not, not_le] at hin
      exact ⟨v, rfl, hin⟩
  obtain ⟨act2, hs2, heq, hperm, _⟩ := insert_cell_inactive H hH fd hinv s v hv hneg
  have hslt : s < fd.m_stateMap.length := (List.getElem?_eq_some.1 hv).1
  have hsnot := not_mem_active_of_neg hinv hv hneg
  have hlen := length_active_succ_le hinv hslt hsnot
  have hcl := hinv.cells_len
  have hnew : (fd.m_cellArray ++ [FrameCell.ctor F])[fd.m_cellArray.length]? =
      some (FrameCell.ctor F) := List.getElem?_concat_length _ _
  have hmap_s : (fd.m_stateMap.set s (fd.m_cellArray.length : Int))[s]? =
      some (fd.m_cellArray.length : Int) := by
    rw [List.getElem?_set]
    simp [hslt]
  refine ⟨_, _, heq, ?_, rfl, rfl, read_back_iff F hF _, rfl, ?_, ?_, ?_, ?_⟩
  · simp only [get_cell_by_index, hnew]
  · simp only [get_cell_by_state, hmap_s]
    rw [if_pos (by omega), Int.toNat_ofNat, hnew]
  · simp only [has_cell, hmap_s]
    simp
  · unfold size
    simp only [List.length_append, List.length_singleton]
    have := hinv.bound
    omega
  · intro t ht
    have hmap_t : (fd.m_stateMap.set s (fd.m_cellArray.length : Int))[t]? =
        fd.m_stateMap[t]? := by
      rw [List.getElem?_set, if_neg (fun h => ht h.symm)]
    constructor
    · simp only [has_cell, hmap_t]
    · simp only [get_cell_by_state, hmap_t]
      cases hvt : fd.m_stateMap[t]? with
      | none => rfl
      | some w =>
        by_cases hw : w ≥ 0
        · have hwlt : w.toNat < fd.m_cellArray.length := by
            rcases hinv.map_range t w hvt with h | h <;> omega
          simp only [hw, if_true]
          rw [List.getElem?_append_left hwlt]
        · simp only [hw, if_false]

/-- A fresh cell for state 3 of the example chart of the IEEE 754 model. -/
theorem insert_cell_creates_fresh_witness :
    ∃ fd1 i, insert_cell binaryHeapAlgo ieeeChart 3 = .ok (fd1, i) ∧
      get_cell_by_index fd1 i = .ok (FrameCell.ctor ieeeModel) ∧
      (FrameCell.ctor ieeeModel).m_logProb = ieeeModel.toFloat ieeeModel.g_zeroLogProb ∧
      (FrameCell.ctor ieeeModel).get_log_prob =
        ieeeModel.toDouble (ieeeModel.toFloat ieeeModel.g_zeroLogProb) ∧
      ((FrameCell.ctor ieeeModel).get_log_prob = ieeeModel.g_zeroLogProb ↔
        ieeeModel.Representable ieeeModel.g_zeroLogProb) ∧
      (FrameCell.ctor ieeeModel).get_node_index = 0 ∧
      get_cell_by_state fd1 3 = .ok (FrameCell.ctor ieeeModel) ∧
      has_cell fd1 3 = .ok true ∧
      fd1.size = ieeeChart.size + 1 ∧
      ∀ t, t ≠ 3 → has_cell fd1 t = has_cell ieeeChart t ∧
        get_cell_by_state fd1 t = get_cell_by_state ieeeChart t :=
  insert_cell_creates_fresh binaryHeapAlgo binaryHeapAlgo_conforms ieeeModel_exact
    ieeeChart ieeeChart_reachable (by decide) 3 rfl

theorem min?_eq_some_of {l : List Nat} {x : Nat} (hx : x ∈ l) (hmin : ∀ y ∈ l, x ≤ y) :
    l.min? = some x :=
  (List.min?_eq_some_iff (fun a => le_refl a) (fun a b => by omega)
    (fun a b c => by omega)).2 ⟨hx, hmin⟩

theorem specNext_of_min {l : List Nat} {x : Nat} (hx : x ∈ l) (hmin : ∀ y ∈ l, x ≤ y) :
    specNext l = (x : Int) := by
  simp [specNext, min?_eq_some_of hx hmin]

theorem specNext_eq_neg_one_iff (l : List Nat) : specNext l = -1 ↔ l = [] := by
  cases l with
  | nil => simp [specNext]
  | cons a l =>
    have hne : (a :: l).min? ≠ none := by simp
    unfold specNext
    cases h : (a :: l).min? with
    | none => exact absurd h hne
    | some m =>
      simp only [List.cons_ne_nil, iff_false]
      exact cast_ne_neg_one m

theorem mem_activeSet {fd : FrameData F} (hinv : Inv fd) (s : Nat) :
    s ∈ activeSet fd ↔ s ∈ fd.m_activeStates := by
  unfold activeSet
  rw [List.mem_filter, List.mem_range]
  constructor
  · rintro ⟨_, h⟩
    unfold isActive at h
    cases hc : has_cell fd s with
    | error e => simp [hc] at h
    | ok b =>
      simp only [hc] at h
      rw [h] at hc
      exact (has_cell_true_iff hinv s).1 hc
  · intro h
    refine ⟨active_lt hinv h, ?_⟩
    unfold isActive
    rw [(has_cell_true_iff hinv s).2 h]

theorem heapSize_reset_nonneg (H : HeapAlgo) (hH : H.Conforms) {fd : FrameData F} (hinv : Inv fd) :
    0 ≤ (reset_iteration H fd).m_heapSize := by
  have hlen : (H.make_heap fd.m_activeStates).length < 2 ^ 31 := by
    rw [(hH.make_heap_perm _).length_eq]
    exact lt_of_le_of_lt (length_active_le hinv) hinv.bound
  have : (reset_iteration H fd).m_heapSize =
      ((H.make_heap fd.m_activeStates).length : Int) := toInt32_of_lt hlen
  omega

/-- After `reset_iteration()` and any interleaving of calls, the pending
states of the chart are those of the documented pending set. -/
theorem mem_pending_iff_spec (H : HeapAlgo) (hH : H.Conforms) {fd0 : FrameData F} (hinv : Inv fd0)
    (ops : List Op) (hops : ∀ s, Op.insert_cell s ∈ ops → s < fd0.m_stateMap.length) :
    ∃ fd1 evs, run H (reset_iteration H fd0) ops = .ok (fd1, evs) ∧ Inv fd1 ∧
      0 ≤ fd1.m_heapSize ∧ fd1.m_stateMap.length = fd0.m_stateMap.length ∧
      (returnedStates evs).Nodup ∧
      ∀ s, s ∈ fd1.pending ↔ s ∈ specPending (activeSet fd0) evs := by
  have hinv1 := inv_reset_iteration H hH hinv
  obtain ⟨fd1, evs, hrun, hinv2, h0, hlen, _, _, hC, _, hE⟩ :=
    run_spec H hH ops (reset_iteration H fd0) hinv1 (heapSize_reset_nonneg H hH hinv) hops
  refine ⟨fd1, evs, hrun, hinv2, h0, hlen, hE, ?_⟩
  intro s
  rw [hC s, pending_reset_iteration H hH hinv, (hH.make_heap_perm _).mem_iff]
  unfold specPending
  rw [List.mem_filter, List.mem_append, mem_activeSet hinv]
  simp

theorem run_append_next (H : HeapAlgo) (ops : List Op) :
    ∀ (fd fd1 fd2 : FrameData F) (evs : List Event) (r : Int),
      run H fd ops = .ok (fd1, evs) → get_next_state H fd1 = .ok (fd2, r) →
      run H fd (ops ++ [.get_next_state]) = .ok (fd2, evs ++ [.returned r]) := by
  induction ops with
  | nil =>
    intro fd fd1 fd2 evs r hrun hnext
    simp only [run, Except.ok.injEq, Prod.mk.injEq] at hrun
    obtain ⟨h1, h2⟩ := hrun
    subst h1 h2
    simp [run, step, hnext]
  | cons op ops ih =>
    intro fd fd1 fd2 evs r hrun hnext
    simp only [run, List.cons_append] at hrun ⊢
    cases hstep : step H fd op with
    | error e => simp [hstep] at hrun
    | ok pr =>
      obtain ⟨fdm, ev⟩ := pr
      simp only [hstep] at hrun ⊢
      cases hrest : run H fdm ops with
      | error e => simp [hrest] at hrun
      | ok pr2 =>
        obtain ⟨fdn, evs2⟩ := pr2
        simp only [hrest, Except.ok.injEq, Prod.mk.injEq] at hrun
        obtain ⟨h1, h2⟩ := hrun
        subst h1 h2
        have hih := ih fdm fdn fd2 evs2 r hrest hnext
        show (match run H fdm (ops ++ [Op.get_next_state]) with
          | Except.error e => Except.error e
          | Except.ok (fd2, evs) => Except.ok (fd2, ev :: evs)) = _
        rw [hih]
        rfl

/-- C8: insertion during iteration joins the pending set.  Let a reachable
chart (state count within `int`) be reset with `reset_iteration()` and let
any sequence of `insert_cell` calls (states in range) and `get_next_state()`
calls follow.  The calls all return; no state is returned twice; and at that
point `get_next_state()` returns the lowest-numbered state of the pending set
(the states active at the reset plus the states newly activated since, minus
the states already returned), or -1, which it returns exactly when the pending
set is empty; the value returned joins the events, so the state is no longer
pending afterwards.  If only `get_next_state()` calls follow, they return the
pending states in increasing order, each once, and then -1. -/
theorem insertion_joins_pending (H : HeapAlgo) (hH : H.Conforms)
    (fd0 : FrameData F) (hr : Reachable H fd0)
    (hb : fd0.get_state_count < 2 ^ 31) (ops : List Op)
    (hops : ∀ s, Op.insert_cell s ∈ ops → s < fd0.get_state_count) :
    ∃ fd1 evs fd2, run H (reset_iteration H fd0) ops = .ok (fd1, evs) ∧
      get_next_state H fd1 = .ok (fd2, specNext (specPending (activeSet fd0) evs)) ∧
      run H (reset_iteration H fd0) (ops ++ [.get_next_state]) =
        .ok (fd2, evs ++ [.returned (specNext (specPending (activeSet fd0) evs))]) ∧
      (specNext (specPending (activeSet fd0) evs) = -1 ↔
        specPending (activeSet fd0) evs = []) ∧
      (returnedStates evs).Nodup ∧
      ∃ L : List Nat, L.Sorted (· < ·) ∧
        (∀ s, s ∈ L ↔ s ∈ specPending (activeSet fd0) evs) ∧
        ∀ n, ∃ fd3, drain H n fd1 = .ok (fd3,
          (List.map (fun s : Nat => (s : Int)) L ++ List.replicate (n - L.length) (-1)).take n) := by
  have hinv := inv_of_state_count H hH hr hb
  have hops1 : ∀ s, Op.insert_cell s ∈ ops → s < fd0.m_stateMap.length := by
    intro s hs
    have := hops s hs
    unfold get_state_count at this
    exact lt_of_lt_of_le this (Nat.mod_le _ _)
  obtain ⟨fd1, evs, hrun, hinv1, h0, _, hnd, hmem⟩ := mem_pending_iff_spec H hH hinv ops hops1
  have hdrain : ∃ L : List Nat, L.Sorted (· < ·) ∧
      (∀ s, s ∈ L ↔ s ∈ specPending (activeSet fd0) evs) ∧
      ∀ n, ∃ fd3, drain H n fd1 = .ok (fd3,
        (List.map (fun s : Nat => (s : Int)) L ++ List.replicate (n - L.length) (-1)).take n) := by
    refine ⟨sortAsc fd1.pending, sortAsc_strict (pending_nodup hinv1), ?_, ?_⟩
    · intro s
      rw [(sortAsc_perm _).mem_iff, hmem s]
    · intro n
      obtain ⟨fd3, hd, _⟩ := drain_spec H hH n fd1 hinv1 h0
      exact ⟨fd3, hd⟩
  rcases eq_or_lt_of_le h0 with hz | hpos
  · have hp := pending_eq_nil hinv1 hz.symm
    have hspec : specPending (activeSet fd0) evs = [] := by
      apply List.eq_nil_iff_forall_not_mem.2
      intro s hs
      have := (hmem s).2 hs
      rw [hp] at this
      simp at this
    have hnext : get_next_state H fd1 =
        .ok (fd1, specNext (specPending (activeSet fd0) evs)) := by
      rw [hspec, get_next_state_zero H fd1 hz.symm]
      rfl
    exact ⟨fd1, evs, fd1, hrun, hnext, run_append_next H ops _ _ _ _ _ hrun hnext,
      specNext_eq_neg_one_iff _, hnd, hdrain⟩
  · obtain ⟨x, l, fd2, hp, hnext, _, hmin, _⟩ := get_next_state_spec H hH fd1 hinv1 hpos
    have hx : x ∈ specPending (activeSet fd0) evs :=
      (hmem x).1 (by rw [hp]; exact List.mem_cons_self _ _)
    have hxmin : ∀ y ∈ specPending (activeSet fd0) evs, x ≤ y := by
      intro y hy
      have := (hmem y).2 hy
      rw [hp] at this
      rcases List.mem_cons.1 this with h | h
      · omega
      · exact hmin y h
    have hnext1 : get_next_state H fd1 =
        .ok (fd2, specNext (specPending (activeSet fd0) evs)) := by
      rw [specNext_of_min hx hxmin]
      exact hnext
    exact ⟨fd1, evs, fd2, hrun, hnext1, run_append_next H ops _ _ _ _ _ hrun hnext1,
      specNext_eq_neg_one_iff _, hnd, hdrain⟩

/-- Insertions during a pass over the example chart: state 3 is inserted, a state is
dequeued, state 1 is inserted and state 3 is inserted again. -/
theorem insertion_joins_pending_witness :
    ∃ fd1 evs fd2, run binaryHeapAlgo (reset_iteration binaryHeapAlgo exampleChart)
        [.insert_cell 3, .get_next_state, .insert_cell 1, .insert_cell 3] = .ok (fd1, evs) ∧
      get_next_state binaryHeapAlgo fd1 =
        .ok (fd2, specNext (specPending (activeSet exampleChart) evs)) ∧
      run binaryHeapAlgo (reset_iteration binaryHeapAlgo exampleChart)
          ([.insert_cell 3, .get_next_state, .insert_cell 1, .insert_cell 3] ++
            [.get_next_state]) =
        .ok (fd2, evs ++ [.returned (specNext (specPending (activeSet exampleChart) evs))]) ∧
      (specNext (specPending (activeSet exampleChart) evs) = -1 ↔
        specPending (activeSet exampleChart) evs = []) ∧
      (returnedStates evs).Nodup ∧
      ∃ L : List Nat, L.Sorted (· < ·) ∧
        (∀ s, s ∈ L ↔ s ∈ specPending (activeSet exampleChart) evs) ∧
        ∀ n, ∃ fd3, drain binaryHeapAlgo n fd1 = .ok (fd3,
          (List.map (fun s : Nat => (s : Int)) L ++ List.replicate (n - L.length) (-1)).take n) :=
  insertion_joins_pending binaryHeapAlgo binaryHeapAlgo_conforms
    exampleChart exampleChart_reachable (by decide)
    [.insert_cell 3, .get_next_state, .insert_cell 1, .insert_cell 3]
    (by
      intro s hs
      simp only [List.mem_cons, Op.insert_cell.injEq, List.mem_singleton, reduceCtorEq,
        List.not_mem_nil, or_false, false_or] at hs
      have h4 : exampleChart.get_state_count = 4 := by decide
      rw [h4]
      omega)

theorem le_getLast_of_sorted {l : List Int} (h : l.Sorted (· < ·)) (hne : l ≠ []) :
    ∀ a ∈ l, a ≤ l.getLast hne := by
  intro a ha
  have hsplit := List.dropLast_append_getLast hne
  rw [← hsplit] at ha h
  rcases List.mem_append.1 ha with h1 | h1
  · exact le_of_lt ((List.pairwise_append.1 h).2.2 a h1 _ (List.mem_singleton_self _))
  · rw [List.mem_singleton.1 h1]

theorem drain_all (H : HeapAlgo) (hH : H.Conforms)
    (fd : FrameData F) (hinv : Inv fd) (h0 : 0 ≤ fd.m_heapSize) :
    ∃ fd1, drain H fd.m_heapSize.toNat fd =
        .ok (fd1, List.map (fun s : Nat => (s : Int)) (sortAsc fd.pending)) ∧
      get_next_state H fd1 = .ok (fd1, -1) := by
  obtain ⟨fd1, hd, _, _, _, _, _, hfin⟩ := drain_spec H hH fd.m_heapSize.toNat fd hinv h0
  have hlen := pending_length hinv h0
  have hl2 : (sortAsc fd.pending).length = fd.m_heapSize.toNat := by
    rw [(sortAsc_perm _).length_eq, hlen]
  rw [← hl2, expected_length] at hd
  rw [← hl2] at hfin
  exact ⟨fd1, by rw [← hl2]; exact hd,
    get_next_state_zero H fd1 (hfin (by rw [hl2, hlen]))⟩

/-- C9: when an insertion is visited in order.  Let a reachable chart (state
count within `int`) be reset with `reset_iteration()` and let calls of
`insert_cell` (states in range) and `get_next_state()` follow such that at
least one state has been dequeued and the pass is ascending: completed by
`get_next_state()` calls alone, the pass returns a strictly increasing
sequence of states.  Let `insert_cell` now activate an inactive state `s` and
let the pass be completed.  Then `s` is returned exactly once by the later
calls; and `s` is returned once with the whole sequence of the pass strictly
increasing if and only if `s` exceeds the most recently dequeued state. -/
theorem insertion_in_order_iff (H : HeapAlgo) (hH : H.Conforms)
    (fd0 : FrameData F) (hr : Reachable H fd0)
    (hb : fd0.get_state_count < 2 ^ 31) (ops : List Op)
    (hops : ∀ s, Op.insert_cell s ∈ ops → s < fd0.get_state_count)
    (fd : FrameData F) (evs : List Event)
    (hrun : run H (reset_iteration H fd0) ops = .ok (fd, evs))
    (hne : returnedStates evs ≠ [])
    (hasc : ∀ fdE rest, drain H fd.m_heapSize.toNat fd = .ok (fdE, rest) →
      (returnedStates evs ++ rest).Sorted (· < ·))
    (s : Nat) (hin : has_cell fd s = .ok false) :
    ∃ fd1 i fd2 rest, insert_cell H fd s = .ok (fd1, i) ∧
      drain H fd1.m_heapSize.toNat fd1 = .ok (fd2, rest) ∧
      get_next_state H fd2 = .ok (fd2, -1) ∧
      rest.count (s : Int) = 1 ∧
      ((rest.count (s : Int) = 1 ∧ (returnedStates evs ++ rest).Sorted (· < ·)) ↔
        (returnedStates evs).getLast hne < (s : Int)) := by
  have hinv0 := inv_of_state_count H hH hr hb
  have hops1 : ∀ s, Op.insert_cell s ∈ ops → s < fd0.m_stateMap.length := by
    intro s hs
    have := hops s hs
    unfold get_state_count at this
    exact lt_of_lt_of_le this (Nat.mod_le _ _)
  obtain ⟨fdx, evsx, hrunx, hinv, h0, _, _, _⟩ := mem_pending_iff_spec H hH hinv0 ops hops1
  rw [hrun] at hrunx
  have hpair := Except.ok.inj hrunx
  have e1 : fd = fdx := congrArg Prod.fst hpair
  subst e1
  obtain ⟨v, hv, hneg⟩ : ∃ v : Int, fd.m_stateMap[s]? = some v ∧ v < 0 := by
    unfold has_cell at hin
    cases h : fd.m_stateMap[s]? with
    | none => simp [h] at hin
    | some v =>
      simp only [h, Except.ok.injEq, decide_eq_false_iff_not, not_le] at hin
      exact ⟨v, rfl, hin⟩
  obtain ⟨fd1, i, heq, _, hinv1, hhs1, _, hpend1, _⟩ :=
    step_insert_inactive H hH fd hinv s v hv hneg h0
  obtain ⟨fdE, hdE, _⟩ := drain_all H hH fd hinv h0
  have hsorted0 := hasc fdE _ hdE
  obtain ⟨fd2, hd2, hnext2⟩ := drain_all H hH fd1 hinv1 (by omega)
  have hsP : s ∉ fd.pending := fun h =>
    not_mem_active_of_neg hinv hv hneg (pending_subset h)
  have hmem1 : ∀ y, y ∈ sortAsc fd1.pending ↔ y = s ∨ y ∈ sortAsc fd.pending := by
    intro y
    rw [(sortAsc_perm _).mem_iff, hpend1.mem_iff, List.mem_cons, (sortAsc_perm _).mem_iff]
  have hnd1 : (List.map (fun s : Nat => (s : Int)) (sortAsc fd1.pending)).Nodup :=
    List.Nodup.map Nat.cast_injective
      (((sortAsc_perm _).nodup_iff).2 (pending_nodup hinv1))
  have hs1 : (s : Int) ∈ List.map (fun s : Nat => (s : Int)) (sortAsc fd1.pending) :=
    List.mem_map.2 ⟨s, (hmem1 s).2 (Or.inl rfl), rfl⟩
  have hcount := List.count_eq_one_of_mem hnd1 hs1
  refine ⟨fd1, i, fd2, _, heq, hd2, hnext2, hcount, ?_⟩
  have hpw0 := List.pairwise_append.1 hsorted0
  constructor
  · rintro ⟨_, hsorted⟩
    exact (List.pairwise_append.1 hsorted).2.2 _ (List.getLast_mem hne) _ hs1
  · intro hlt
    refine ⟨hcount, List.pairwise_append.2 ⟨hpw0.1, ?_, ?_⟩⟩
    · have hst := sortAsc_strict (pending_nodup hinv1)
      exact List.pairwise_map.2 (hst.imp (fun h => by exact_mod_cast h))
    · intro a ha b hb
      obtain ⟨y, hy, rfl⟩ := List.mem_map.1 hb
      rcases (hmem1 y).1 hy with h | h
      · rw [h]
        exact lt_of_le_of_lt (le_getLast_of_sorted hpw0.1 hne a ha) hlt
      · exact hpw0.2.2 a ha _ (List.mem_map.2 ⟨y, h, rfl⟩)

theorem examplePass_dequeued : returnedStates [Event.returned 0] ≠ [] := by decide

/-- An insertion in order during a pass over the example chart: after state 0 has been dequeued, state 3
is inserted. -/
theorem insertion_in_order_iff_witness :
    ∃ fd1 i fd2 rest, insert_cell binaryHeapAlgo examplePass 3 = .ok (fd1, i) ∧
      drain binaryHeapAlgo fd1.m_heapSize.toNat fd1 = .ok (fd2, rest) ∧
      rest.count (3 : Int) = 1 ∧
      (returnedStates [Event.returned 0] ++ rest).Sorted (· < ·) := by
  obtain ⟨fd1, i, fd2, rest, h1, h2, _, h4, h5⟩ :=
    insertion_in_order_iff binaryHeapAlgo binaryHeapAlgo_conforms
    exampleChart exampleChart_reachable (by decide)
      [.get_next_state] (by intro s hs; simp at hs) examplePass [Event.returned 0] rfl
      examplePass_dequeued
      (by
        intro fdE rest h
        have h2 : rest = [2] := (congrArg Prod.snd (Except.ok.inj h)).symm
        rw [h2]
        decide)
      3 rfl
  exact ⟨fd1, i, fd2, rest, h1, h2, h4, (h5.2 (by decide)).2⟩

/-! ## `FrameData`: swap, cells -/

theorem sameObservations_refl (H : HeapAlgo) (x : FrameData F) : SameObservations H x x :=
  ⟨rfl, rfl, rfl, fun _ => rfl, fun _ => rfl, fun _ => rfl, fun _ => rfl, fun _ => rfl⟩

/-- C17: `swap` exchanges the two charts completely.  After `a.swap(b)` the
first chart is what `b` was and the second what `a` was, member for member,
so every observation of the one equals the corresponding observation of the
other before the call (the pending iteration included); swapping twice
restores both charts. -/
theorem swap_exchanges (H : HeapAlgo) (a b : FrameData F) :
    (swap a b).1 = b ∧ (swap a b).2 = a ∧
    SameObservations H (swap a b).1 b ∧ SameObservations H (swap a b).2 a ∧
    swap (swap a b).1 (swap a b).2 = (a, b) :=
  ⟨rfl, rfl, sameObservations_refl H b, sameObservations_refl H a, rfl⟩

/-! ## `FrameData`: clear -/

theorem clear_eq_ctor {fd : FrameData F} (hinv : Inv fd) :
    clear fd = .ok (ctor F fd.m_stateMap.length) := by
  obtain ⟨m1, hm1, hget⟩ := clearLoop_ok fd.m_activeStates fd.m_stateMap hinv.nodup
    (fun s hs => (hinv.active_iff s).1 hs)
  have hlen := clearLoop_length _ _ _ hm1
  have hm : m1 = List.replicate fd.m_stateMap.length (-1) := by
    apply List.ext_getElem?
    intro s
    rw [hget s, List.getElem?_replicate]
    by_cases hmem : s ∈ fd.m_activeStates
    · rw [if_pos hmem, if_pos (active_lt hinv hmem)]
    · rw [if_neg hmem]
      by_cases hlt : s < fd.m_stateMap.length
      · rw [if_pos hlt]
        obtain ⟨v, hv⟩ : ∃ v, fd.m_stateMap[s]? = some v :=
          ⟨fd.m_stateMap[s], List.getElem?_eq_getElem hlt⟩
        rw [hv]
        rcases hinv.map_range s v hv with h | ⟨h0, _⟩
        · rw [h]
        · exact absurd ((hinv.active_iff s).2 ⟨v, hv, h0⟩) hmem
      · rw [if_neg hlt]
        exact List.getElem?_eq_none (Nat.le_of_not_lt hlt)
  unfold clear
  rw [hm1, hm]
  rfl

theorem has_cell_ctor (n s : Nat) (hs : s < n) : has_cell (ctor F n) s = .ok false := by
  unfold has_cell ctor
  simp [List.getElem?_replicate, hs]

/-- C15: `clear()` completes and leaves a blank chart.  For a chart reachable
from construction whose state count fits the type `int`, `clear()` returns
without tripping its assertion; afterwards `size()` is 0, `empty()` is true,
`has_cell(s)` is false for every `s` below `get_state_count()`, the state
count is what it was, and no iteration is in progress (`get_next_state()`
fails its assertion).  The chart is the one `FrameData(get_state_count())`
constructs, so the two agree in every observation. -/
theorem clear_resets_chart (H : HeapAlgo) (hH : H.Conforms) (fd : FrameData F)
    (hr : Reachable H fd) (hb : fd.get_state_count < 2 ^ 31) :
    ∃ fd1, clear fd = .ok fd1 ∧
      fd1.size = 0 ∧ fd1.empty = true ∧
      (∀ s, s < fd.get_state_count → has_cell fd1 s = .ok false) ∧
      fd1.get_state_count = fd.get_state_count ∧
      get_next_state H fd1 = .error .assertion ∧
      fd1 = ctor F fd.get_state_count ∧
      SameObservations H fd1 (ctor F fd.get_state_count) := by
  have hinv := inv_of_state_count H hH hr hb
  have hcnt : fd.get_state_count = fd.m_stateMap.length :=
    Nat.mod_eq_of_lt (stateMap_length_lt H hr)
  refine ⟨ctor F fd.get_state_count, ?_, rfl, rfl, ?_, ?_, rfl, rfl, ?_⟩
  · rw [hcnt]
    exact clear_eq_ctor hinv
  · intro s hs
    exact has_cell_ctor _ s hs
  · show (List.replicate fd.get_state_count (-1 : Int)).length % 2 ^ 32 = fd.get_state_count
    rw [List.length_replicate]
    exact Nat.mod_eq_of_lt (lt_trans hb (by decide))
  · exact sameObservations_refl H _

/-- Clearing the example chart. -/
theorem clear_resets_chart_witness :
    ∃ fd1, clear exampleChart = .ok fd1 ∧
      fd1.size = 0 ∧ fd1.empty = true ∧
      (∀ s, s < exampleChart.get_state_count → has_cell fd1 s = .ok false) ∧
      fd1.get_state_count = exampleChart.get_state_count ∧
      get_next_state binaryHeapAlgo fd1 = .error .assertion ∧
      fd1 = ctor intFloats exampleChart.get_state_count ∧
      SameObservations binaryHeapAlgo fd1 (ctor intFloats exampleChart.get_state_count) :=
  clear_resets_chart binaryHeapAlgo binaryHeapAlgo_conforms exampleChart
    exampleChart_reachable (by decide)

/-! ## `FrameData`: the active states and their cells -/

theorem size_eq_active_length {fd : FrameData F} (hinv : Inv fd) :
    fd.size = fd.m_activeStates.length := by
  unfold size
  rw [hinv.cells_len]
  apply Nat.mod_eq_of_lt
  have h1 := length_active_le hinv
  have h2 := hinv.bound
  have h3 : (2 : Nat) ^ 31 < 2 ^ 32 := by decide
  omega

theorem get_next_state_frame (H : HeapAlgo) (hH : H.Conforms) {fd fd1 : FrameData F}
    (hinv : Inv fd) {r : Int} (h : get_next_state H fd = .ok (fd1, r)) :
    fd1.m_activeStates.Perm fd.m_activeStates ∧ fd1.m_cellArray = fd.m_cellArray ∧
      fd1.m_stateMap = fd.m_stateMap := by
  rcases hinv.heap with hh | ⟨h0, _, _⟩
  · simp [get_next_state, hh] at h
  rcases eq_or_lt_of_le h0 with hz | hpos
  · rw [get_next_state_zero H fd hz.symm] at h
    rw [← (Prod.mk.inj (Except.ok.inj h)).1]
    exact ⟨List.Perm.refl _, rfl, rfl⟩
  · obtain ⟨x, l, fd2, _, heq, _, _, _, _, hmap, hcells, hperm⟩ :=
      get_next_state_spec H hH fd hinv hpos
    rw [heq] at h
    rw [← (Prod.mk.inj (Except.ok.inj h)).1]
    exact ⟨hperm, hcells, hmap⟩

theorem observers_congr {fd fd1 : FrameData F} (hcells : fd1.m_cellArray = fd.m_cellArray)
    (hmap : fd1.m_stateMap = fd.m_stateMap) :
    fd1.size = fd.size ∧ (∀ s, has_cell fd1 s = has_cell fd s) ∧
      (∀ s, get_cell_by_state fd1 s = get_cell_by_state fd s) ∧
      (∀ i, get_cell_by_index fd1 i = get_cell_by_index fd i) := by
  refine ⟨?_, ?_, ?_, ?_⟩
  · unfold size
    rw [hcells]
  · intro s
    unfold has_cell
    rw [hmap]
  · intro s
    unfold get_cell_by_state
    rw [hmap, hcells]
  · intro i
    unfold get_cell_by_index
    rw [hcells]

theorem state_by_index_iff {fd : FrameData F} (hinv : Inv fd) (s : Nat) :
    (∃ i, i < fd.size ∧ get_state_by_index fd i = .ok s) ↔ has_cell fd s = .ok true := by
  rw [has_cell_true_iff hinv s, List.mem_iff_getElem?, size_eq_active_length hinv]
  constructor
  · rintro ⟨i, _, h⟩
    refine ⟨i, ?_⟩
    unfold get_state_by_index at h
    cases ha : fd.m_activeStates[i]? with
    | none => simp [ha] at h
    | some x =>
      simp only [ha, Except.ok.injEq] at h
      rw [h]
  · rintro ⟨i, h⟩
    refine ⟨i, (List.getElem?_eq_some.1 h).1, ?_⟩
    unfold get_state_by_index
    rw [h]

/-- C13: a state appears at most once per chart.  In every chart reachable
from construction (by `insert_cell`, `assign`, `reset_iteration`,
`get_next_state`, `clear` and `swap` calls that return) whose state count fits
the type `int`: the list of active states has no duplicates; its length is
`size()`; a state `s` is `get_state_by_index(i)` for some `i < size()` exactly
if `has_cell(s)` is true.  `reset_iteration()` and a `get_next_state()` call
only permute that list: `size()`, `has_cell` of every state and every cell (by
state and by index) are as before. -/
theorem active_states_at_most_once (H : HeapAlgo) (hH : H.Conforms) (fd : FrameData F)
    (hr : Reachable H fd) (hb : fd.get_state_count < 2 ^ 31) :
    fd.m_activeStates.Nodup ∧
    fd.m_activeStates.length = fd.size ∧
    (∀ s, (∃ i, i < fd.size ∧ get_state_by_index fd i = .ok s) ↔ has_cell fd s = .ok true) ∧
    ((reset_iteration H fd).m_activeStates.Perm fd.m_activeStates ∧
      (reset_iteration H fd).size = fd.size ∧
      (∀ s, has_cell (reset_iteration H fd) s = has_cell fd s) ∧
      (∀ s, get_cell_by_state (reset_iteration H fd) s = get_cell_by_state fd s) ∧
      (∀ i, get_cell_by_index (reset_iteration H fd) i = get_cell_by_index fd i)) ∧
    (∀ fd1 r, get_next_state H fd = .ok (fd1, r) →
      fd1.m_activeStates.Perm fd.m_activeStates ∧
      fd1.size = fd.size ∧
      (∀ s, has_cell fd1 s = has_cell fd s) ∧
      (∀ s, get_cell_by_state fd1 s = get_cell_by_state fd s) ∧
      (∀ i, get_cell_by_index fd1 i = get_cell_by_index fd i)) := by
  have hinv := inv_of_state_count H hH hr hb
  refine ⟨hinv.nodup, (size_eq_active_length hinv).symm, state_by_index_iff hinv,
    ⟨hH.make_heap_perm fd.m_activeStates, rfl, fun _ => rfl, fun _ => rfl, fun _ => rfl⟩, ?_⟩
  intro fd1 r h
  obtain ⟨hperm, hcells, hmap⟩ := get_next_state_frame H hH hinv h
  exact ⟨hperm, observers_congr hcells hmap⟩

/-- The invariant on the example chart. -/
theorem active_states_at_most_once_witness :
    exampleChart.m_activeStates.Nodup ∧
    exampleChart.m_activeStates.length = exampleChart.size ∧
    (∀ s, (∃ i, i < exampleChart.size ∧ get_state_by_index exampleChart i = .ok s) ↔
      has_cell exampleChart s = .ok true) ∧
    ((reset_iteration binaryHeapAlgo exampleChart).m_activeStates.Perm
        exampleChart.m_activeStates ∧
      (reset_iteration binaryHeapAlgo exampleChart).size = exampleChart.size ∧
      (∀ s, has_cell (reset_iteration binaryHeapAlgo exampleChart) s = has_cell exampleChart s) ∧
      (∀ s, get_cell_by_state (reset_iteration binaryHeapAlgo exampleChart) s =
        get_cell_by_state exampleChart s) ∧
      (∀ i, get_cell_by_index (reset_iteration binaryHeapAlgo exampleChart) i =
        get_cell_by_index exampleChart i)) ∧
    (∀ fd1 r, get_next_state binaryHeapAlgo exampleChart = .ok (fd1, r) →
      fd1.m_activeStates.Perm exampleChart.m_activeStates ∧
      fd1.size = exampleChart.size ∧
      (∀ s, has_cell fd1 s = has_cell exampleChart s) ∧
      (∀ s, get_cell_by_state fd1 s = get_cell_by_state exampleChart s) ∧
      (∀ i, get_cell_by_index fd1 i = get_cell_by_index exampleChart i)) :=
  active_states_at_most_once binaryHeapAlgo binaryHeapAlgo_conforms exampleChart
    exampleChart_reachable (by decide)

theorem cell_of_active {fd : FrameData F} (hinv : Inv fd) {s : Nat}
    (hs : s ∈ fd.m_activeStates) :
    ∃ i : Nat, fd.m_stateMap[s]? = some (i : Int) ∧ i < fd.m_cellArray.length ∧
      cellIndexOf fd s = i ∧
      get_cell_by_state fd s = get_cell_by_index fd i ∧
      ∃ c, get_cell_by_index fd i = .ok c := by
  obtain ⟨v, hv, h0⟩ := (hinv.active_iff s).1 hs
  have hlt : v < (fd.m_cellArray.length : Int) := by
    rcases hinv.map_range s v hv with h | h <;> omega
  obtain ⟨i, rfl⟩ := Int.eq_ofNat_of_zero_le h0
  have hi : i < fd.m_cellArray.length := by omega
  refine ⟨i, hv, hi, ?_, ?_, ?_⟩
  · simp [cellIndexOf, hv]
  · simp [get_cell_by_state, get_cell_by_index, hv]
  · exact ⟨fd.m_cellArray[i], by simp [get_cell_by_index, List.getElem?_eq_getElem hi]⟩

theorem activeSet_nodup (fd : FrameData F) : (activeSet fd).Nodup :=
  List.Nodup.filter _ (List.nodup_range _)

theorem activeSet_perm {fd : FrameData F} (hinv : Inv fd) :
    (activeSet fd).Perm fd.m_activeStates :=
  (List.perm_ext_iff_of_nodup (activeSet_nodup fd) hinv.nodup).2 (fun s => mem_activeSet hinv s)

theorem cellIndexOf_perm_range {fd : FrameData F} (hinv : Inv fd) :
    ((activeSet fd).map (cellIndexOf fd)).Perm (List.range fd.size) := by
  have hnd2 : ((activeSet fd).map (cellIndexOf fd)).Nodup := by
    apply List.Nodup.map_on _ (activeSet_nodup fd)
    intro x hx y hy hxy
    obtain ⟨i, hi, _, hxi, _⟩ := cell_of_active hinv ((mem_activeSet hinv x).1 hx)
    obtain ⟨j, hj, _, hyj, _⟩ := cell_of_active hinv ((mem_activeSet hinv y).1 hy)
    rw [hxi, hyj] at hxy
    subst hxy
    exact hinv.map_inj x y _ hi hj (by omega)
  have hsub : (activeSet fd).map (cellIndexOf fd) ⊆ List.range fd.size := by
    intro k hk
    obtain ⟨s, hs, rfl⟩ := List.mem_map.1 hk
    obtain ⟨i, _, hlt, hsi, _⟩ := cell_of_active hinv ((mem_activeSet hinv s).1 hs)
    rw [List.mem_range, size_eq_active_length hinv, ← hinv.cells_len, hsi]
    exact hlt
  apply (List.subperm_of_subset hnd2 hsub).perm_of_length_le
  rw [List.length_range, List.length_map, (activeSet_perm hinv).length_eq, size_eq_active_length hinv]

/-- C14: the cells by index are the cells of the active states, each once.
In every chart reachable from construction whose state count fits the type
`int`: for an active state `s` the entry `m_stateMap[s]` is a cell index
below `size()` and `get_cell_by_state(s)` is the cell
`get_cell_by_index(m_stateMap[s])`, which exists; different active states
have different entries; every index below `size()` is the entry of an active
state.  So the entries of the active states are the indices
`0 .. size()-1` rearranged, and the cells `get_cell_by_index(0)`, ...,
`get_cell_by_index(size()-1)` are the cells of the active states
rearranged. -/
theorem cells_cover_active_once (H : HeapAlgo) (hH : H.Conforms) (fd : FrameData F)
    (hr : Reachable H fd) (hb : fd.get_state_count < 2 ^ 31) :
    (∀ s, has_cell fd s = .ok true →
      fd.m_stateMap[s]? = some (cellIndexOf fd s : Int) ∧ cellIndexOf fd s < fd.size ∧
      get_cell_by_state fd s = get_cell_by_index fd (cellIndexOf fd s) ∧
      ∃ c, get_cell_by_state fd s = .ok c) ∧
    (∀ s1 s2, has_cell fd s1 = .ok true → has_cell fd s2 = .ok true →
      cellIndexOf fd s1 = cellIndexOf fd s2 → s1 = s2) ∧
    (∀ i, i < fd.size → ∃ s, has_cell fd s = .ok true ∧ cellIndexOf fd s = i) ∧
    ((activeSet fd).map (cellIndexOf fd)).Perm (List.range fd.size) ∧
    ((activeSet fd).map (get_cell_by_state fd)).Perm
      ((List.range fd.size).map (get_cell_by_index fd)) := by
  have hinv := inv_of_state_count H hH hr hb
  have hperm := cellIndexOf_perm_range hinv
  refine ⟨?_, ?_, ?_, hperm, ?_⟩
  · intro s hs
    obtain ⟨i, hi, hlt, hsi, hget, c, hc⟩ :=
      cell_of_active hinv ((has_cell_true_iff hinv s).1 hs)
    rw [hsi]
    refine ⟨hi, ?_, hget, c, by rw [hget, hc]⟩
    rw [size_eq_active_length hinv, ← hinv.cells_len]
    exact hlt
  · intro s1 s2 h1 h2 heq
    obtain ⟨i, hi, _, hsi, _⟩ := cell_of_active hinv ((has_cell_true_iff hinv s1).1 h1)
    obtain ⟨j, hj, _, hsj, _⟩ := cell_of_active hinv ((has_cell_true_iff hinv s2).1 h2)
    rw [hsi, hsj] at heq
    subst heq
    exact hinv.map_inj s1 s2 _ hi hj (by omega)
  · intro i hi
    have hmem : i ∈ (activeSet fd).map (cellIndexOf fd) :=
      hperm.mem_iff.2 (List.mem_range.2 hi)
    obtain ⟨s, hs, hsi⟩ := List.mem_map.1 hmem
    exact ⟨s, (has_cell_true_iff hinv s).2 ((mem_activeSet hinv s).1 hs), hsi⟩
  · have hmap : (activeSet fd).map (get_cell_by_state fd) =
        ((activeSet fd).map (cellIndexOf fd)).map (get_cell_by_index fd) := by
      rw [List.map_map]
      apply List.map_congr_left
      intro s hs
      obtain ⟨i, _, _, hsi, hget, _⟩ := cell_of_active hinv ((mem_activeSet hinv s).1 hs)
      show get_cell_by_state fd s = get_cell_by_index fd (cellIndexOf fd s)
      rw [hsi, hget]
    rw [hmap]
    exact hperm.map _

/-- The cells of the example chart. -/
theorem cells_cover_active_once_witness :
    (∀ s, has_cell exampleChart s = .ok true →
      exampleChart.m_stateMap[s]? = some (cellIndexOf exampleChart s : Int) ∧
      cellIndexOf exampleChart s < exampleChart.size ∧
      get_cell_by_state exampleChart s = get_cell_by_index exampleChart (cellIndexOf exampleChart s) ∧
      ∃ c, get_cell_by_state exampleChart s = .ok c) ∧
    (∀ s1 s2, has_cell exampleChart s1 = .ok true → has_cell exampleChart s2 = .ok true →
      cellIndexOf exampleChart s1 = cellIndexOf exampleChart s2 → s1 = s2) ∧
    (∀ i, i < exampleChart.size →
      ∃ s, has_cell exampleChart s = .ok true ∧ cellIndexOf exampleChart s = i) ∧
    ((activeSet exampleChart).map (cellIndexOf exampleChart)).Perm
      (List.range exampleChart.size) ∧
    ((activeSet exampleChart).map (get_cell_by_state exampleChart)).Perm
      ((List.range exampleChart.size).map (get_cell_by_index exampleChart)) :=
  cells_cover_active_once binaryHeapAlgo binaryHeapAlgo_conforms exampleChart
    exampleChart_reachable (by decide)

/-! ## `FrameData`: looking cells up -/

theorem insert_cell_keeps (H : HeapAlgo) (hH : H.Conforms) {fd fd1 : FrameData F}
    (hinv : Inv fd) {s i : Nat} (h : insert_cell H fd s = .ok (fd1, i)) {t : Nat}
    (ht : t ∈ fd.m_activeStates) :
    t ∈ fd1.m_activeStates ∧ get_cell_by_state fd1 t = get_cell_by_state fd t := by
  cases hv : fd.m_stateMap[s]? with
  | none => simp [insert_cell, hv] at h
  | some v =>
    by_cases hneg : v < 0
    · obtain ⟨act2, hs2, heq, hperm, _⟩ := insert_cell_inactive H hH fd hinv s v hv hneg
      rw [heq] at h
      have h1 := (Prod.mk.inj (Except.ok.inj h)).1
      subst h1
      have hts : t ≠ s := fun e => not_mem_active_of_neg hinv hv hneg (e ▸ ht)
      refine ⟨hperm.mem_iff.2 (List.mem_cons_of_mem _ ht), ?_⟩
      obtain ⟨j, hj, hlt, _, _, _⟩ := cell_of_active hinv ht
      have hset : (fd.m_stateMap.set s (fd.m_cellArray.length : Int))[t]? = some (j : Int) := by
        rw [List.getElem?_set, if_neg (fun e => hts e.symm)]
        exact hj
      have h0 : (j : Int) ≥ 0 := by omega
      simp only [get_cell_by_state, hset, hj, h0, if_true, Int.toNat_ofNat,
        List.getElem?_append_left hlt]
    · rw [insert_cell_active H fd hinv s v hv (by omega)] at h
      have h1 := (Prod.mk.inj (Except.ok.inj h)).1
      subst h1
      exact ⟨ht, rfl⟩

theorem insert_cell_returns (H : HeapAlgo) (hH : H.Conforms) {fd : FrameData F}
    (hinv : Inv fd) {s : Nat} (hs : s < fd.m_stateMap.length) :
    ∃ fd1 i, insert_cell H fd s = .ok (fd1, i) ∧ s ∈ fd1.m_activeStates ∧
      fd1.m_stateMap[s]? = some (i : Int) ∧ i < fd1.m_cellArray.length := by
  obtain ⟨v, hv⟩ : ∃ v, fd.m_stateMap[s]? = some v :=
    ⟨fd.m_stateMap[s], List.getElem?_eq_getElem hs⟩
  by_cases hneg : v < 0
  · obtain ⟨act2, hs2, heq, hperm, _⟩ := insert_cell_inactive H hH fd hinv s v hv hneg
    refine ⟨_, _, heq, hperm.mem_iff.2 (List.mem_cons_self _ _), ?_, ?_⟩
    · show (fd.m_stateMap.set s (fd.m_cellArray.length : Int))[s]? = _
      rw [List.getElem?_set]
      simp [hs]
    · show fd.m_cellArray.length < (fd.m_cellArray ++ [FrameCell.ctor F]).length
      simp
  · have h0 : 0 ≤ v := by omega
    have hlt : v < (fd.m_cellArray.length : Int) := by
      rcases hinv.map_range s v hv with h | h <;> omega
    refine ⟨fd, v.toNat, insert_cell_active H fd hinv s v hv h0,
      (hinv.active_iff s).2 ⟨v, hv, h0⟩, ?_, by omega⟩
    rw [hv, Int.toNat_of_nonneg h0]

theorem assign_cell_of_active {fd : FrameData F} {s i : Nat}
    (hi : fd.m_stateMap[s]? = some (i : Int)) (hlt : i < fd.m_cellArray.length)
    (lp : F.Dbl) (n : Nat) :
    ∃ fd1, assign_cell fd i lp n = .ok fd1 ∧
      fd1.m_activeStates = fd.m_activeStates ∧ fd1.m_stateMap = fd.m_stateMap ∧
      get_cell_by_state fd1 s = .ok ((FrameCell.ctor F).assign lp n) := by
  have hc : fd.m_cellArray[i]? = some fd.m_cellArray[i] := List.getElem?_eq_getElem hlt
  refine ⟨⟨fd.m_activeStates, fd.m_cellArray.set i (fd.m_cellArray[i].assign lp n),
    fd.m_stateMap, fd.m_heapSize⟩, by simp only [assign_cell, hc], rfl, rfl, ?_⟩
  have h0 : (i : Int) ≥ 0 := by omega
  simp only [get_cell_by_state, hi, h0, if_true, Int.toNat_ofNat, List.getElem?_set]
  simp [hlt, FrameCell.assign]

theorem insertMany_keeps (H : HeapAlgo) (hH : H.Conforms) (s : Nat) (ss : List Nat) :
    ∀ fd : FrameData F, Inv fd → (∀ t ∈ ss, t < fd.m_stateMap.length) →
      s ∈ fd.m_activeStates →
      ∃ fd1, insertMany H fd ss = .ok fd1 ∧ Inv fd1 ∧ s ∈ fd1.m_activeStates ∧
        get_cell_by_state fd1 s = get_cell_by_state fd s := by
  induction ss with
  | nil =>
    intro fd hinv _ hs
    exact ⟨fd, rfl, hinv, hs, rfl⟩
  | cons t ss ih =>
    intro fd hinv hin hs
    obtain ⟨fd1, i, heq, _, _, _⟩ :=
      insert_cell_returns H hH hinv (hin t (List.mem_cons_self _ _))
    have hinv1 := inv_insert_cell H hH hinv heq
    obtain ⟨hs1, hget1⟩ := insert_cell_keeps H hH hinv heq hs
    have hlen := stateMap_length_insert_cell H heq
    obtain ⟨fd2, h2, hinv2, hs2, hget2⟩ := ih fd1 hinv1
      (fun u hu => by rw [hlen]; exact hin u (List.mem_cons_of_mem _ hu)) hs1
    refine ⟨fd2, ?_, hinv2, hs2, hget2.trans hget1⟩
    simp only [insertMany, heq]
    exact h2

/-- C11 as stated fails on the code for a score that is not representable
as a `float`.  In the IEEE 754 model, on the freshly constructed chart of
four states: after `insert_cell(2).assign(0.1, 7)`, `get_cell_by_state(2)`
reads node index 7 and the score 0.100000001490116, the `float` nearest to
0.1, and not the score 0.1 that was written. -/
theorem assigned_point_one_read_rounded :
    ∃ fd1 i fd2 c, insert_cell binaryHeapAlgo (ctor ieeeModel 4) 2 = .ok (fd1, i) ∧
      assign_cell fd1 i doublePointOne 7 = .ok fd2 ∧
      get_cell_by_state fd2 2 = .ok c ∧ c.get_node_index = 7 ∧
      c.get_log_prob = floatPointOne ∧ c.get_log_prob ≠ doublePointOne := by
  refine ⟨_, _, _, _, rfl, rfl, rfl, rfl, ieee_conversions.2.1, ?_⟩
  intro h
  have h1 : floatPointOne = doublePointOne := ieee_conversions.2.1.symm.trans h
  exact absurd h1 (by decide)

/-- C11, amended: `insert_cell` on an active state is a pure lookup.  For a
chart reachable from construction whose state count fits the type `int`: if
`has_cell(s)` is true, `insert_cell(s)` returns a reference to the cell that
`get_cell_by_state(s)` returns and the chart after the call is the chart
before it, in every member.  And for every state `s` below the state count:
`insert_cell(s).assign(logProb, nodeIdx)` returns, and the cell that
`get_cell_by_state(s)` then reads has node index `nodeIdx` and, as log prob,
`logProb` converted to `float` and back, which is `logProb` exactly if
`logProb` is representable as a `float` (for every conversion
`double → float` that is exact on the values of `float`).
`get_cell_by_state(s)` still reads this cell after `insert_cell` calls for any
further states (below the state count), as does `insert_cell(s)` itself, which
then changes nothing. -/
theorem insert_cell_active_is_lookup (H : HeapAlgo) (hH : H.Conforms) (hF : F.Exact)
    (fd : FrameData F) (hr : Reachable H fd) (hb : fd.get_state_count < 2 ^ 31) :
    (∀ s, has_cell fd s = .ok true →
      ∃ i c, insert_cell H fd s = .ok (fd, i) ∧ get_cell_by_state fd s = .ok c ∧
        get_cell_by_index fd i = .ok c) ∧
    (∀ (s : Nat) (logProb : F.Dbl) (nodeIdx : Nat) (ss : List Nat),
      s < fd.get_state_count → (∀ t ∈ ss, t < fd.get_state_count) →
      ∃ fd1 i fd2 fd3 j c, insert_cell H fd s = .ok (fd1, i) ∧
        assign_cell fd1 i logProb nodeIdx = .ok fd2 ∧
        get_cell_by_state fd2 s = .ok c ∧
        insertMany H fd2 ss = .ok fd3 ∧
        has_cell fd3 s = .ok true ∧
        get_cell_by_state fd3 s = .ok c ∧
        insert_cell H fd3 s = .ok (fd3, j) ∧
        get_cell_by_index fd3 j = .ok c ∧
        c.get_node_index = nodeIdx ∧
        c.get_log_prob = F.toDouble (F.toFloat logProb) ∧
        (c.get_log_prob = logProb ↔ F.Representable logProb)) := by
  have hinv := inv_of_state_count H hH hr hb
  have hcnt : fd.get_state_count = fd.m_stateMap.length :=
    Nat.mod_eq_of_lt (stateMap_length_lt H hr)
  constructor
  · intro s hs
    obtain ⟨i, hi, _, _, hget, c, hc⟩ :=
      cell_of_active hinv ((has_cell_true_iff hinv s).1 hs)
    have hins := insert_cell_active H fd hinv s i hi (by omega)
    rw [Int.toNat_ofNat] at hins
    exact ⟨i, c, hins, by rw [hget, hc], hc⟩
  · intro s lp n ss hs hss
    rw [hcnt] at hs hss
    obtain ⟨fd1, i, heq, _, hi, hlt⟩ := insert_cell_returns H hH hinv hs
    have hinv1 := inv_insert_cell H hH hinv heq
    obtain ⟨fd2, ha, hact, hmap, hget2⟩ := assign_cell_of_active hi hlt lp n
    have hinv2 := inv_assign_cell hinv1 ha
    have hs2 : s ∈ fd2.m_activeStates := (hinv2.active_iff s).2 ⟨i, by rw [hmap]; exact hi, by omega⟩
    obtain ⟨fd3, h3, hinv3, hs3, hget3⟩ := insertMany_keeps H hH s ss fd2 hinv2
      (fun t ht => by rw [hmap, stateMap_length_insert_cell H heq]; exact hss t ht) hs2
    obtain ⟨j, hj, _, _, hgetj, _⟩ := cell_of_active hinv3 hs3
    have hins := insert_cell_active H fd3 hinv3 s j hj (by omega)
    rw [Int.toNat_ofNat] at hins
    exact ⟨fd1, i, fd2, fd3, j, (FrameCell.ctor F).assign lp n, heq, ha, hget2, h3,
      (has_cell_true_iff hinv3 s).2 hs3, hget3.trans hget2, hins,
      by rw [← hgetj, hget3, hget2], rfl, rfl, read_back_iff F hF lp⟩

/-- Lookups in the example chart of the IEEE 754 model. -/
theorem insert_cell_active_is_lookup_witness :
    (∀ s, has_cell ieeeChart s = .ok true →
      ∃ i c, insert_cell binaryHeapAlgo ieeeChart s = .ok (ieeeChart, i) ∧
        get_cell_by_state ieeeChart s = .ok c ∧
        get_cell_by_index ieeeChart i = .ok c) ∧
    (∀ (s : Nat) (logProb : ieeeModel.Dbl) (nodeIdx : Nat) (ss : List Nat),
      s < ieeeChart.get_state_count → (∀ t ∈ ss, t < ieeeChart.get_state_count) →
      ∃ fd1 i fd2 fd3 j c, insert_cell binaryHeapAlgo ieeeChart s = .ok (fd1, i) ∧
        assign_cell fd1 i logProb nodeIdx = .ok fd2 ∧
        get_cell_by_state fd2 s = .ok c ∧
        insertMany binaryHeapAlgo fd2 ss = .ok fd3 ∧
        has_cell fd3 s = .ok true ∧
        get_cell_by_state fd3 s = .ok c ∧
        insert_cell binaryHeapAlgo fd3 s = .ok (fd3, j) ∧
        get_cell_by_index fd3 j = .ok c ∧
        c.get_node_index = nodeIdx ∧
        c.get_log_prob = ieeeModel.toDouble (ieeeModel.toFloat logProb) ∧
        (c.get_log_prob = logProb ↔ ieeeModel.Representable logProb)) :=
  insert_cell_active_is_lookup binaryHeapAlgo binaryHeapAlgo_conforms ieeeModel_exact
    ieeeChart ieeeChart_reachable (by decide)

/-! ## `FrameData`: charts and their histories -/

theorem insert_cell_effect (H : HeapAlgo) (hH : H.Conforms) {fd fd1 : FrameData F}
    (hinv : Inv fd) {s i : Nat} (h : insert_cell H fd s = .ok (fd1, i)) :
    (∀ t, t ∈ fd1.m_activeStates ↔ t = s ∨ t ∈ fd.m_activeStates) ∧
      (0 ≤ fd1.m_heapSize ↔ 0 ≤ fd.m_heapSize) := by
  cases hv : fd.m_stateMap[s]? with
  | none => simp [insert_cell, hv] at h
  | some v =>
    by_cases hneg : v < 0
    · obtain ⟨act2, hs2, heq, hperm, hheap⟩ := insert_cell_inactive H hH fd hinv s v hv hneg
      rw [heq] at h
      have h1 := (Prod.mk.inj (Except.ok.inj h)).1
      subst h1
      constructor
      · intro t
        rw [hperm.mem_iff, List.mem_cons]
      · show 0 ≤ hs2 ↔ 0 ≤ fd.m_heapSize
        rcases hheap with ⟨h1, h2⟩ | ⟨h1, h2, _⟩ <;> omega
    · have h0 : 0 ≤ v := by omega
      rw [insert_cell_active H fd hinv s v hv h0] at h
      have h1 := (Prod.mk.inj (Except.ok.inj h)).1
      subst h1
      refine ⟨fun t => ⟨Or.inr, ?_⟩, Iff.rfl⟩
      rintro (rfl | ht)
      · exact (hinv.active_iff t).2 ⟨v, hv, h0⟩
      · exact ht

theorem get_next_state_heapSize (H : HeapAlgo) (hH : H.Conforms) {fd fd1 : FrameData F}
    (hinv : Inv fd) {r : Int} (h : get_next_state H fd = .ok (fd1, r)) :
    0 ≤ fd.m_heapSize ∧ 0 ≤ fd1.m_heapSize := by
  rcases hinv.heap with hh | ⟨h0, _, _⟩
  · simp [get_next_state, hh] at h
  rcases eq_or_lt_of_le h0 with hz | hpos
  · rw [get_next_state_zero H fd hz.symm] at h
    rw [← (Prod.mk.inj (Except.ok.inj h)).1]
    exact ⟨h0, h0⟩
  · obtain ⟨x, l, fd2, _, heq, _, _, _, hhs, _⟩ := get_next_state_spec H hH fd hinv hpos
    rw [heq] at h
    rw [← (Prod.mk.inj (Except.ok.inj h)).1]
    exact ⟨h0, by omega⟩

theorem get_next_state_returns (H : HeapAlgo) (hH : H.Conforms) {fd : FrameData F}
    (hinv : Inv fd) (h0 : 0 ≤ fd.m_heapSize) :
    ∃ fd1 r, get_next_state H fd = .ok (fd1, r) := by
  rcases eq_or_lt_of_le h0 with hz | hpos
  · exact ⟨fd, -1, get_next_state_zero H fd hz.symm⟩
  · obtain ⟨x, l, fd2, _, heq, _⟩ := get_next_state_spec H hH fd hinv hpos
    exact ⟨fd2, x, heq⟩

theorem get_next_state_asserts (H : HeapAlgo) {fd : FrameData F} (hneg : fd.m_heapSize < 0) :
    get_next_state H fd = .error .assertion := by
  unfold get_next_state
  rw [if_neg (by omega)]

theorem tracks_ctor (n : Nat) (hn : n < 2 ^ 31) : Tracks (ctor F n) ⟨[], false⟩ := by
  refine ⟨inv_ctor n hn, fun s => Iff.rfl, ?_⟩
  show (0 : Int) ≤ -1 ↔ false = true
  simp

theorem call_tracks (H : HeapAlgo) (hH : H.Conforms) {fd fd1 : FrameData F} {g : History}
    (ht : Tracks fd g) (c : Call F) (h : call H fd c = .ok fd1) : Tracks fd1 (g.record c) := by
  obtain ⟨hinv, hact, hhs⟩ := ht
  cases c with
  | insert_cell s =>
    simp only [call] at h
    cases hi : insert_cell H fd s with
    | error e => simp [hi] at h
    | ok p =>
      obtain ⟨fd2, i⟩ := p
      simp only [hi, Except.ok.injEq] at h
      subst h
      obtain ⟨hmem, hheap⟩ := insert_cell_effect H hH hinv hi
      refine ⟨inv_insert_cell H hH hinv hi, ?_, ?_⟩
      · intro t
        rw [hmem t, hact t]
        exact List.mem_cons.symm
      · rw [hheap]
        exact hhs
  | assign i lp n =>
    have h1 : assign_cell fd i lp n = .ok fd1 := h
    have hinv1 := inv_assign_cell hinv h1
    unfold assign_cell at h1
    split at h1
    · have h2 := Except.ok.inj h1
      subst h2
      exact ⟨hinv1, hact, hhs⟩
    · exact absurd h1 (by simp)
  | reset_iteration =>
    have h1 : reset_iteration H fd = fd1 := Except.ok.inj h
    subst h1
    refine ⟨inv_reset_iteration H hH hinv, ?_, ?_⟩
    · intro t
      exact (hH.make_heap_perm fd.m_activeStates).mem_iff.trans (hact t)
    · exact ⟨fun _ => rfl, fun _ => heapSize_reset_nonneg H hH hinv⟩
  | get_next_state =>
    simp only [call] at h
    cases hi : get_next_state H fd with
    | error e => simp [hi] at h
    | ok p =>
      obtain ⟨fd2, r⟩ := p
      simp only [hi, Except.ok.injEq] at h
      subst h
      obtain ⟨hperm, _, _⟩ := get_next_state_frame H hH hinv hi
      obtain ⟨h0, h1⟩ := get_next_state_heapSize H hH hinv hi
      refine ⟨inv_get_next_state H hH hinv hi, ?_, ?_⟩
      · intro t
        rw [hperm.mem_iff]
        exact hact t
      · exact ⟨fun _ => hhs.1 h0, fun _ => h1⟩
  | clear =>
    have h1 : clear fd = .ok fd1 := h
    rw [clear_eq_ctor hinv] at h1
    have h2 := Except.ok.inj h1
    subst h2
    exact tracks_ctor _ hinv.bound

theorem tracksAll_set {charts : List (FrameData F)} {hs : List History}
    (hall : TracksAll charts hs) (k : Nat) {fd1 : FrameData F} {g1 : History}
    (h : Tracks fd1 g1) : TracksAll (charts.set k fd1) (hs.set k g1) := by
  refine ⟨by rw [List.length_set, List.length_set]; exact hall.1, ?_⟩
  intro k1 fd g hfd hg
  rw [List.getElem?_set] at hfd hg
  by_cases hk : k = k1
  · rw [if_pos hk] at hfd hg
    split at hfd
    · split at hg
      · rw [← Option.some.inj hfd, ← Option.some.inj hg]
        exact h
      · exact absurd hg (by simp)
    · exact absurd hfd (by simp)
  · rw [if_neg hk] at hfd hg
    exact hall.2 k1 fd g hfd hg

theorem tracksAll_history {charts : List (FrameData F)} {hs : List History}
    (hall : TracksAll charts hs) {k : Nat} {fd : FrameData F} (hk : charts[k]? = some fd) :
    ∃ g, hs[k]? = some g ∧ Tracks fd g := by
  have hlt : k < charts.length := (List.getElem?_eq_some.1 hk).1
  have hlt2 : k < hs.length := by rw [← hall.1]; exact hlt
  exact ⟨hs[k], List.getElem?_eq_getElem hlt2,
    hall.2 k fd _ hk (List.getElem?_eq_getElem hlt2)⟩

theorem tracksAll_concat {charts : List (FrameData F)} {hs : List History}
    (hall : TracksAll charts hs) {fd1 : FrameData F} {g1 : History}
    (h : Tracks fd1 g1) : TracksAll (charts ++ [fd1]) (hs ++ [g1]) := by
  refine ⟨by rw [List.length_append, List.length_append, hall.1]; rfl, ?_⟩
  intro k fd g hfd hg
  by_cases hk : k < charts.length
  · rw [List.getElem?_append_left hk] at hfd
    rw [List.getElem?_append_left (by rw [← hall.1]; exact hk)] at hg
    exact hall.2 k fd g hfd hg
  · have hk2 : charts.length ≤ k := Nat.le_of_not_lt hk
    rw [List.getElem?_append_right hk2] at hfd
    rw [List.getElem?_append_right (by rw [← hall.1]; exact hk2), ← hall.1] at hg
    cases hm : k - charts.length with
    | zero =>
      rw [hm] at hfd hg
      rw [← Option.some.inj hfd, ← Option.some.inj hg]
      exact h
    | succ m =>
      rw [hm] at hfd
      exact absurd hfd (by simp)

theorem stmt_tracks (H : HeapAlgo) (hH : H.Conforms) {charts charts1 : List (FrameData F)}
    {hs : List History} (hall : TracksAll charts hs) (st : Stmt F)
    (hfit : ∀ n, st = .construct n → n < 2 ^ 31) (h : stmt H charts st = .ok charts1) :
    TracksAll charts1 (recordStmt hs st) := by
  cases st with
  | construct n =>
    have h1 : charts ++ [ctor F n] = charts1 := Except.ok.inj h
    subst h1
    exact tracksAll_concat hall (tracks_ctor n (hfit n rfl))
  | call k c =>
    simp only [stmt] at h
    cases hk : charts[k]? with
    | none => simp [hk] at h
    | some fd =>
      cases hc : call H fd c with
      | error e => simp [hk, hc] at h
      | ok fd1 =>
        simp only [hk, hc, Except.ok.injEq] at h
        subst h
        obtain ⟨g, hg, ht⟩ := tracksAll_history hall hk
        simp only [recordStmt, hg]
        exact tracksAll_set hall k (call_tracks H hH ht c hc)
  | swap j k =>
    simp only [stmt] at h
    cases hj : charts[j]? with
    | none => simp [hj] at h
    | some a =>
      cases hk : charts[k]? with
      | none => simp [hj, hk] at h
      | some b =>
        simp only [hj, hk, Except.ok.injEq] at h
        subst h
        obtain ⟨g1, hg1, ht1⟩ := tracksAll_history hall hj
        obtain ⟨g2, hg2, ht2⟩ := tracksAll_history hall hk
        simp only [recordStmt, hg1, hg2]
        exact tracksAll_set (tracksAll_set hall j (show Tracks (swap a b).1 g2 from ht2)) k
          (show Tracks (swap a b).2 g1 from ht1)

theorem exec_tracks (H : HeapAlgo) (hH : H.Conforms) (sts : List (Stmt F)) :
    ∀ (charts charts1 : List (FrameData F)) (hs : List History), TracksAll charts hs →
      (∀ n, Stmt.construct n ∈ sts → n < 2 ^ 31) → exec H charts sts = .ok charts1 →
      TracksAll charts1 (sts.foldl recordStmt hs) := by
  induction sts with
  | nil =>
    intro charts charts1 hs hall _ h
    rw [← Except.ok.inj h]
    exact hall
  | cons st sts ih =>
    intro charts charts1 hs hall hfit h
    simp only [exec] at h
    cases hst : stmt H charts st with
    | error e => simp [hst] at h
    | ok charts2 =>
      simp only [hst] at h
      have hall2 := stmt_tracks H hH hall st
        (fun n hn => hfit n (by rw [hn]; exact List.mem_cons_self _ _)) hst
      exact ih charts2 charts1 _ hall2
        (fun n hn => hfit n (List.mem_cons_of_mem _ hn)) h

theorem tracks_of_exec (H : HeapAlgo) (hH : H.Conforms) (sts : List (Stmt F))
    (hfit : ∀ n, Stmt.construct n ∈ sts → n < 2 ^ 31) {charts : List (FrameData F)}
    (h : exec H [] sts = .ok charts) {k : Nat} {fd : FrameData F}
    (hk : charts[k]? = some fd) :
    ∃ g, (histories sts)[k]? = some g ∧ Tracks fd g :=
  tracksAll_history
    (exec_tracks H hH sts [] charts [] ⟨rfl, fun k fd g hfd _ => absurd hfd (by simp)⟩ hfit h) hk

theorem exampleProgram_exec :
    exec binaryHeapAlgo [] exampleProgram =
      .ok [⟨[], [], [-1, -1, -1], -1⟩, exampleProgramChart] := rfl

/-- C12: `get_cell_by_state` fails exactly on inactive states.  Take any
program over any number of charts (constructions with state counts that fit
the type `int`, calls of `insert_cell`, `assign`, `reset_iteration`,
`get_next_state` and `clear` on a chart, swaps of two charts) whose calls all
return, and any chart `fd` at its end.  For every state `s` below
`get_state_count()`: `get_cell_by_state(s)` fails its assertion exactly if
`has_cell(s)` is false, and returns a cell exactly if `has_cell(s)` is true;
and `has_cell(s)` is true exactly if `insert_cell(s)` has been called on the
chart since its construction or its last `clear()`, where `swap` exchanges
the histories of the two charts together with their contents. -/
theorem get_cell_by_state_fails_iff_inactive (H : HeapAlgo) (hH : H.Conforms)
    (sts : List (Stmt F)) (hfit : ∀ n, Stmt.construct n ∈ sts → n < 2 ^ 31)
    (charts : List (FrameData F)) (h : exec H [] sts = .ok charts)
    (k : Nat) (fd : FrameData F) (hk : charts[k]? = some fd) :
    ∃ g, (histories sts)[k]? = some g ∧ ∀ s, s < fd.get_state_count →
      (get_cell_by_state fd s = .error .assertion ↔ has_cell fd s = .ok false) ∧
      ((∃ c, get_cell_by_state fd s = .ok c) ↔ has_cell fd s = .ok true) ∧
      (has_cell fd s = .ok true ↔ s ∈ g.inserted) := by
  obtain ⟨g, hg, hinv, hact, _⟩ := tracks_of_exec H hH sts hfit h hk
  refine ⟨g, hg, ?_⟩
  intro s hs
  have hlt : s < fd.m_stateMap.length := by
    unfold get_state_count at hs
    have hb := hinv.bound
    rwa [Nat.mod_eq_of_lt (lt_trans hb (by decide))] at hs
  refine ⟨?_, ?_, (has_cell_true_iff hinv s).trans (hact s)⟩
  · by_cases hmem : s ∈ fd.m_activeStates
    · obtain ⟨i, _, _, _, hget, c, hc⟩ := cell_of_active hinv hmem
      rw [hget, hc, (has_cell_true_iff hinv s).2 hmem]
      simp
    · have hv : fd.m_stateMap[s]? = some fd.m_stateMap[s] := List.getElem?_eq_getElem hlt
      have hneg : ¬ fd.m_stateMap[s] ≥ 0 := fun h0 => hmem ((hinv.active_iff s).2 ⟨_, hv, h0⟩)
      simp [get_cell_by_state, has_cell, hv, hneg]
  · rw [has_cell_true_iff hinv s]
    constructor
    · rintro ⟨c, hc⟩
      by_contra hmem
      have hv : fd.m_stateMap[s]? = some fd.m_stateMap[s] := List.getElem?_eq_getElem hlt
      have hneg : ¬ fd.m_stateMap[s] ≥ 0 := fun h0 => hmem ((hinv.active_iff s).2 ⟨_, hv, h0⟩)
      simp [get_cell_by_state, hv, hneg] at hc
    · intro hmem
      obtain ⟨i, _, _, _, hget, c, hc⟩ := cell_of_active hinv hmem
      exact ⟨c, by rw [hget, hc]⟩

/-- The second chart of the example program, which was swapped with the
first after state 2 was inserted there. -/
theorem get_cell_by_state_fails_iff_inactive_witness :
    ∃ g, (histories exampleProgram)[1]? = some g ∧
      ∀ s, s < exampleProgramChart.get_state_count →
      (get_cell_by_state exampleProgramChart s = .error .assertion ↔
        has_cell exampleProgramChart s = .ok false) ∧
      ((∃ c, get_cell_by_state exampleProgramChart s = .ok c) ↔
        has_cell exampleProgramChart s = .ok true) ∧
      (has_cell exampleProgramChart s = .ok true ↔ s ∈ g.inserted) :=
  get_cell_by_state_fails_iff_inactive binaryHeapAlgo binaryHeapAlgo_conforms exampleProgram
    (by intro n hn; simp [exampleProgram] at hn; omega)
    [⟨[], [], [-1, -1, -1], -1⟩, exampleProgramChart] rfl 1 exampleProgramChart rfl

/-- C20: `get_next_state` requires a started iteration.  Take any program
over any number of charts (constructions with state counts that fit the type
`int`, calls of `insert_cell`, `assign`, `reset_iteration`, `get_next_state`
and `clear` on a chart, swaps of two charts) whose calls all return, and any
chart `fd` at its end.  A further `get_next_state()` call on `fd` fails its
assertion exactly if `reset_iteration()` has not been called on the chart
since its construction or its last `clear()`, where `swap` exchanges the
histories of the two charts together with their contents; and it returns
exactly if `reset_iteration()` has been called, whatever `insert_cell` and
`get_next_state` calls came after. -/
theorem get_next_state_needs_reset (H : HeapAlgo) (hH : H.Conforms)
    (sts : List (Stmt F)) (hfit : ∀ n, Stmt.construct n ∈ sts → n < 2 ^ 31)
    (charts : List (FrameData F)) (h : exec H [] sts = .ok charts)
    (k : Nat) (fd : FrameData F) (hk : charts[k]? = some fd) :
    ∃ g, (histories sts)[k]? = some g ∧
      (get_next_state H fd = .error .assertion ↔ g.started = false) ∧
      ((∃ fd1 r, get_next_state H fd = .ok (fd1, r)) ↔ g.started = true) := by
  obtain ⟨g, hg, hinv, _, hhs⟩ := tracks_of_exec H hH sts hfit h hk
  refine ⟨g, hg, ?_⟩
  by_cases h0 : 0 ≤ fd.m_heapSize
  · obtain ⟨fd1, r, heq⟩ := get_next_state_returns H hH hinv h0
    have hst := hhs.1 h0
    rw [heq, hst]
    simp
  · have hst : g.started = false := by
      cases hg2 : g.started with
      | false => rfl
      | true => exact absurd (hhs.2 hg2) h0
    rw [get_next_state_asserts H (by omega), hst]
    simp

/-- The second chart of the example program: the iteration was started on
the first chart before the two were swapped. -/
theorem get_next_state_needs_reset_witness :
    ∃ g, (histories exampleProgram)[1]? = some g ∧
      (get_next_state binaryHeapAlgo exampleProgramChart = .error .assertion ↔
        g.started = false) ∧
      ((∃ fd1 r, get_next_state binaryHeapAlgo exampleProgramChart = .ok (fd1, r)) ↔
        g.started = true) :=
  get_next_state_needs_reset binaryHeapAlgo binaryHeapAlgo_conforms exampleProgram
    (by intro n hn; simp [exampleProgram] at hn; omega)
    [⟨[], [], [-1, -1, -1], -1⟩, exampleProgramChart] rfl 1 exampleProgramChart rfl

end FrameData

/-! ## `FrameCell` -/

namespace FrameCell

theorem widenBits_dvd (x : Nat) : 2 ^ 29 ∣ widenBits x := by
  unfold widenBits
  dsimp only
  have h63 : (2 : Nat) ^ 29 ∣ 2 ^ 63 := pow_dvd_pow 2 (by decide)
  have h52 : (2 : Nat) ^ 29 ∣ 2 ^ 52 := pow_dvd_pow 2 (by decide)
  split
  · split
    · exact dvd_add (Dvd.dvd.mul_left h63 _) (Dvd.dvd.mul_left h52 _)
    · exact dvd_add (dvd_add (Dvd.dvd.mul_left h63 _) (Dvd.dvd.mul_left h52 _))
        (dvd_mul_left _ _)
  · split
    · split
      · exact Dvd.dvd.mul_left h63 _
      · rename_i hf
        have hlt : x % 2 ^ 23 < 2 ^ 23 := Nat.mod_lt _ (by decide)
        have hlog : Nat.log2 (x % 2 ^ 23) < 23 := (Nat.log2_lt hf).2 hlt
        have hk : (2 : Nat) ^ 29 ∣ 2 ^ (52 - Nat.log2 (x % 2 ^ 23)) :=
          pow_dvd_pow 2 (by omega)
        exact dvd_add (dvd_add (Dvd.dvd.mul_left h63 _) (Dvd.dvd.mul_left h52 _))
          (Dvd.dvd.mul_left hk _)
    · exact dvd_add (dvd_add (Dvd.dvd.mul_left h63 _) (Dvd.dvd.mul_left h52 _))
        (dvd_mul_left _ _)

/-- C18 as stated fails on the code: the score 0.1 (a `double`) is not read
back after `assign`.  No `float` converts to the `double` 0.1, so whichever
`float` the conversion of `assign` picks, and whatever `g_zeroLogProb` and the
node index are, `get_log_prob()` differs from the score assigned. -/
theorem assign_point_one_not_read_back :
    ¬ ∃ (narrow : Nat → Nat) (g n : Nat),
      (FrameCell.assign (FrameCell.ctor (ieeeFloats narrow g)) doublePointOne n).get_log_prob
        = doublePointOne := by
  rintro ⟨narrow, g, n, h⟩
  have hd : 2 ^ 29 ∣ widenBits (narrow doublePointOne) := widenBits_dvd _
  have he : widenBits (narrow doublePointOne) = doublePointOne := h
  rw [he] at hd
  exact absurd hd (by decide)

/-- C18, amended: a default-constructed cell has node index 0 and, as log
prob, `g_zeroLogProb` converted to `float` and back, which is `g_zeroLogProb`
exactly if `g_zeroLogProb` is representable as a `float`.  After
`assign(logProb, nodeIdx)`, `get_node_index()` returns `nodeIdx` and
`get_log_prob()` returns `logProb` converted to `float` and back, which is
`logProb` exactly if `logProb` is representable as a `float`.  This holds for
every conversion `double → float` that is exact on the values of `float`, as
the C++ standard requires. -/
theorem assign_reads_rounded (F : FloatModel) (hF : F.Exact) (c : FrameCell F)
    (logProb : F.Dbl) (nodeIdx : Nat) :
    (ctor F).get_node_index = 0 ∧
    (ctor F).get_log_prob = F.toDouble (F.toFloat F.g_zeroLogProb) ∧
    ((ctor F).get_log_prob = F.g_zeroLogProb ↔ F.Representable F.g_zeroLogProb) ∧
    (c.assign logProb nodeIdx).get_node_index = nodeIdx ∧
    (c.assign logProb nodeIdx).get_log_prob = F.toDouble (F.toFloat logProb) ∧
    ((c.assign logProb nodeIdx).get_log_prob = logProb ↔ F.Representable logProb) :=
  ⟨rfl, rfl, read_back_iff F hF _, rfl, rfl, read_back_iff F hF _⟩

/-- The score 1.0 assigned to a cell in the IEEE 754 model. -/
theorem assign_reads_rounded_witness :
    (ctor ieeeModel).get_node_index = 0 ∧
    (ctor ieeeModel).get_log_prob = ieeeModel.toDouble (ieeeModel.toFloat ieeeModel.g_zeroLogProb) ∧
    ((ctor ieeeModel).get_log_prob = ieeeModel.g_zeroLogProb ↔
      ieeeModel.Representable ieeeModel.g_zeroLogProb) ∧
    ((ctor ieeeModel).assign doubleOne 7).get_node_index = 7 ∧
    ((ctor ieeeModel).assign doubleOne 7).get_log_prob =
      ieeeModel.toDouble (ieeeModel.toFloat doubleOne) ∧
    (((ctor ieeeModel).assign doubleOne 7).get_log_prob = doubleOne ↔
      ieeeModel.Representable doubleOne) :=
  assign_reads_rounded ieeeModel ieeeModel_exact (ctor ieeeModel) doubleOne 7

end FrameCell

end Lab4Vit
